import Mathlib

/-!
casacore: SerializeHelper and the chunked C-array writer

A shallow embedding of `casa/IO/SerializeHelper.{h,cc}` and of
`casa/IO/AipsIOCarray.tcc`.

* Pointers (`SerializeHelper*`, `void*`) are natural numbers, `0` being `NULL`.
* The heap of `SerializeHelper` objects is a list of slots; `new` appends a
  slot, `delete` empties one.  Dereferencing a pointer that is not live is
  undefined behaviour in C++ and is reported as `Error.fault`.
* A `MemoryIO` is the list of bytes it holds; objects hold a reference to it
  (a buffer number), exactly as the C++ class holds a `MemoryIO&`.
* `Int64` values are integers.  Signed overflow is undefined in C++ and is not
  given a meaning here; the conversions to `uInt`, which are defined to be
  modular, are written with an explicit `% 2 ^ 32`.
* The diagnostic output on `std::cerr` (`getLogLevel`) has no effect on data
  or control flow and is left out.
* The state carries a history of the calls of `update`, which no operation
  reads; it serves to state that the index never decreases.
* An operation returns a value or throws, and the state survives a throw, so
  that what an operation leaves behind when it fails can be stated.
-/

namespace casacore

/-- One byte of a `MemoryIO` buffer. -/
abbrev Byte := UInt8

/-- A machine address: `SerializeHelper*` or `void*`. -/
abbrev Ptr := Nat

/-- The null pointer. -/
def NULL : Ptr := 0

/-- From `<climits>`: the largest `Int64`. -/
def LLONG_MAX : Int := 9223372036854775807

/-- The ways an operation can fail.  The first three are the `AipsError`s
thrown by `SerializeHelper.cc`; `fault` stands for the dereference of a pointer
that is not live. -/
inductive Error where
  /-- The instance is not the origin instance (`origin != NULL`). -/
  | notOrigin
  /-- A `NULL` object was passed to a static method. -/
  | nullObject
  /-- The object has no entry in `instances`. -/
  | notFound (object : Ptr)
  /-- Undefined behaviour: a dead or null pointer was dereferenced. -/
  | fault
  deriving DecidableEq, Repr

/-- The data members of `class SerializeHelper`. `instances` is the
`std::map<void*, SerializeHelper*>`, `buf` the `MemoryIO&`. -/
structure SerializeHelper where
  index : Int
  origin : Ptr
  softLimit : Int
  buf : Nat
  instances : AList (fun _ : Ptr => Ptr)
  deriving DecidableEq

/-- The program state: the heap of `SerializeHelper` objects and the contents
of every `MemoryIO`.  The field `updates` is a history kept for the statements
about `update`: one entry per call, most recent first, giving the instance, the
index it held and the index passed; no operation reads it. -/
@[ext]
structure World where
  heap : List (Option SerializeHelper)
  bufs : Nat → List Byte
  updates : List (Ptr × Int × Int)

namespace World

/-- The object a pointer refers to, if the pointer is live. -/
def deref (w : World) : Ptr → Option SerializeHelper
  | 0 => none
  | a + 1 => w.heap.getD a none

/-- Overwrite the object at a live address. -/
def store (w : World) (p : Ptr) (h : SerializeHelper) : World :=
  match p with
  | 0 => w
  | a + 1 => { w with heap := w.heap.set a (some h) }

/-- The operator `new`: a fresh address holding `h`. -/
def alloc (w : World) (h : SerializeHelper) : Ptr × World :=
  (w.heap.length + 1, { w with heap := w.heap ++ [some h] })

/-- Release the storage at `p`. -/
def free (w : World) (p : Ptr) : World :=
  match p with
  | 0 => w
  | a + 1 => { w with heap := w.heap.set a none }

/-- Append bytes to buffer `b`: what `ios << x` does to the `MemoryIO` behind
the `AipsIO` stream. -/
def write (w : World) (b : Nat) (bytes : List Byte) : World :=
  { w with bufs := fun k => if k = b then w.bufs b ++ bytes else w.bufs k }

/-- The effect of `MemoryIO::clear` on buffer `b`. -/
def clear (w : World) (b : Nat) : World :=
  { w with bufs := fun k => if k = b then [] else w.bufs k }

/-- Enter calls of `update` into the history. -/
def recordAll (w : World) (es : List (Ptr × Int × Int)) : World :=
  { w with updates := es ++ w.updates }

/-- Enter a call of `update` into the history. -/
def record (w : World) (p : Ptr) (old new : Int) : World :=
  w.recordAll [(p, old, new)]

end World

/-- A computation on the program state that returns a value or throws; the
state survives a throw. -/
def Exec (α : Type) : Type := World → Except Error α × World

namespace Exec

/-- Sequencing: an exception skips the rest. -/
def bind {α β : Type} (m : Exec α) (f : α → Exec β) : Exec β := fun w =>
  match m w with
  | (.ok a, w1) => f a w1
  | (.error e, w1) => (.error e, w1)

instance : Monad Exec where
  pure a := fun w => (.ok a, w)
  bind := Exec.bind

/-- The C++ `throw`. -/
def throw {α : Type} (e : Error) : Exec α := fun w => (.error e, w)

/-- Read the object behind a pointer. -/
def load (p : Ptr) : Exec SerializeHelper := fun w =>
  match w.deref p with
  | some h => (.ok h, w)
  | none => (.error .fault, w)

/-- Run a state change. -/
def modify (f : World → World) : Exec Unit := fun w => (.ok (), f w)

/-- Read the state. -/
def get : Exec World := fun w => (.ok w, w)

end Exec

open Exec

namespace SerializeHelper

/-- The constructor `SerializeHelper(Int64 softLimit, MemoryIO &buf)`, with the
initialisers `buf(buf), index(0), origin(NULL)`. -/
def init (softLimit : Int) (buf : Nat) : SerializeHelper :=
  { index := 0, origin := NULL, softLimit := softLimit, buf := buf, instances := ∅ }

/-- The method `inline Int64 SerializeHelper::getAvailable()`. -/
def getAvailable (this : Ptr) : Exec Int := do
  let self ← load this
  let w ← get
  let used : Int := ((w.bufs self.buf).length : Int)
  let avail := self.softLimit - used
  return avail

/-- The method `Int64 SerializeHelper::update(Int64 index)`. -/
def update (this : Ptr) (index : Int) : Exec Int := do
  let self ← load this
  modify fun w => (w.store this { self with index := index }).record this self.index index
  let avail ← getAvailable this
  return avail

/-- The method `void SerializeHelper::clearMemory()`. -/
def clearMemory (this : Ptr) : Exec Unit := do
  let self ← load this
  modify fun w => w.clear self.buf

/-- The method `SerializeHelper *SerializeHelper::getInstance(void *object, Int64& idx, Int64& avail)`;
the result is the returned pointer with the values left in `idx` and `avail`. -/
def getInstance (this : Ptr) (object : Ptr) : Exec (Ptr × Int × Int) := do
  let self ← load this
  -- Check that this is the origin object.
  if self.origin ≠ NULL then
    throw .notOrigin
  else
    -- Find the instance
    match self.instances.lookup object with
    | some second => do
      let found ← load second
      let idx := found.index
      let avail ← getAvailable second
      return (second, idx, avail)
    | none => do
      -- Add a new instance
      let w ← get
      let (newSH, w1) := w.alloc (SerializeHelper.init self.softLimit self.buf)
      modify fun _ => w1
      let fresh ← load newSH
      modify fun w => w.store newSH { fresh with origin := this }
      let self ← load this
      modify fun w => w.store this
        { self with instances :=
            if object ∈ self.instances then self.instances
            else self.instances.insert object newSH }
      let fresh ← load newSH
      let idx := fresh.index
      let avail ← getAvailable newSH
      return (newSH, idx, avail)

/-- The statement `delete p`: run `~SerializeHelper()` on the object, then
release it.  The destructor of an origin instance deletes every instance it
holds.  The first argument bounds the nesting of destructor calls. -/
def delete : Nat → Ptr → Exec Unit
  | 0, _ => throw .fault
  | fuel + 1, p => do
    let self ← load p
    if self.origin = NULL then
      (self.instances.entries.map fun e => e.2).forM fun q => delete fuel q
      let self ← load p
      modify fun w => w.store p { self with instances := ∅ }
    modify fun w => w.free p

/-- The method `void SerializeHelper::objectSerialized(void *object)`. -/
def objectSerialized (this : Ptr) (object : Ptr) : Exec Unit := do
  let self ← load this
  -- Check that this is the origin object.
  if self.origin ≠ NULL then
    throw .notOrigin
  else
    match self.instances.lookup object with
    | some second => do
      let w ← get
      delete (w.heap.length + 1) second
      let self ← load this
      modify fun w => w.store this { self with instances := self.instances.erase object }
    | none => throw (.notFound object)

end SerializeHelper

/-! ## The static methods of `class SerializeHelper` -/

namespace SerializeHelper.Static

/-- The method `static SerializeHelper *getInstance(SerializeHelper *parent, void *object, Int64& idx, Int64& avail)`. -/
def getInstance (parent : Ptr) (object : Ptr) : Exec (Ptr × Int × Int) := do
  if parent = NULL then
    return (NULL, -1, LLONG_MAX)
  else if object = NULL then
    throw .nullObject
  else
    let p ← load parent
    if p.origin = NULL then
      SerializeHelper.getInstance parent object
    else
      SerializeHelper.getInstance p.origin object

/-- The method `static Int64 getIndex(SerializeHelper *instance)`. -/
def getIndex (inst : Ptr) : Exec Int := do
  if inst = NULL then
    return -1
  else
    let self ← load inst
    return self.index

/-- The method `static Int64 getAvailable(SerializeHelper *instance)`. -/
def getAvailable (inst : Ptr) : Exec Int := do
  if inst = NULL then
    return LLONG_MAX
  else
    SerializeHelper.getAvailable inst

/-- The method `static Int64 update(SerializeHelper *instance, Int64 index)`. -/
def update (inst : Ptr) (index : Int) : Exec Int := do
  if inst = NULL then
    return LLONG_MAX
  else
    SerializeHelper.update inst index

/-- The method `static void objectSerialized(SerializeHelper *instance, void *object)`. -/
def objectSerialized (inst : Ptr) (object : Ptr) : Exec Unit := do
  if inst = NULL then
    return ()
  else if object = NULL then
    throw .nullObject
  else
    let p ← load inst
    if p.origin = NULL then
      SerializeHelper.objectSerialized inst object
    else
      SerializeHelper.objectSerialized p.origin object

end SerializeHelper.Static

/-! ## `AipsIOCarray.tcc`

The element type `T` and the scalar writers `ios << n` (for the `uInt` count)
and `ios << *data` (for an element) belong to `AipsIO`; they enter as the
functions `putUInt` and `putT` giving the bytes each appends to the stream's
buffer `ios`.  The C-array `data` is the function from offsets to elements. -/

section AipsIOCarray

variable {T : Type}

/-- The loop `for (i = start; i < n && avail > 0; i++, data++)` of `putAipsIO`,
started at `i` with the current `idx` and `avail`; it returns the final `i` and
`idx`.  The first argument is `n - i`, the number of values of `i` still below
`n`: when it is `0` the test `i < n` fails. -/
def putLoop (putT : T → List Byte) (ios : Nat) (n : Nat) (data : Nat → T) (sh : Ptr)
    (shStartIdx : Int) : Nat → Nat → Int → Int → Exec (Nat × Int)
  | 0, i, idx, _ => pure (i, idx)
  | k + 1, i, idx, avail =>
    if i < n ∧ avail > 0 then do
      modify fun w => w.write ios (putT (data i))
      let idx : Int := (i : Int) + shStartIdx + 2
      if i % 100 = 0 then do
        let avail ← SerializeHelper.update sh idx
        putLoop putT ios n data sh shStartIdx k (i + 1) idx avail
      else
        putLoop putT ios n data sh shStartIdx k (i + 1) idx avail
    else
      pure (i, idx)

/-- The loop `for (uInt i = 0; i < n; i++, data++) ios << *data` of the branch
without a `SerializeHelper`; the first argument is `n - i`. -/
def putAll (putT : T → List Byte) (ios : Nat) (n : Nat) (data : Nat → T) :
    Nat → Nat → Exec Unit
  | 0, _ => pure ()
  | k + 1, i =>
    if i < n then do
      modify fun w => w.write ios (putT (data i))
      putAll putT ios n data k (i + 1)
    else
      pure ()

/-- The function template
`void putAipsIO (AipsIO& ios, uInt n, const T* data, SerializeHelper *sh, Int64 shStartIdx)`. -/
def putAipsIO (putUInt : Nat → List Byte) (putT : T → List Byte) (ios : Nat) (n : Nat)
    (data : Nat → T) (sh : Ptr) (shStartIdx : Int) : Exec Unit := do
  let idx ← SerializeHelper.Static.getIndex sh
  let avail ← SerializeHelper.Static.getAvailable sh
  if avail ≤ 0 then
    return ()
  else if sh ≠ NULL then do
    -- write the put count
    let (idx, avail) ←
      (if idx ≤ shStartIdx then do
        modify fun w => w.write ios (putUInt n)
        let idx : Int := shStartIdx + 1
        let avail ← SerializeHelper.update sh idx
        pure (idx, avail)
      else
        pure (idx, avail) : Exec (Int × Int))
    -- skip to the current data
    -- `uInt start = (uInt)idx - shStartIdx - 1`: the cast is modulo 2^32, the
    -- subtractions are done in `Int64`, the result is converted modulo 2^32
    let start : Nat := ((idx % 2 ^ 32 - shStartIdx - 1) % 2 ^ 32).toNat
    -- write the data
    let (i, idx) ← putLoop putT ios n data sh shStartIdx (n - start) start idx avail
    let _ ← SerializeHelper.update sh idx
    -- update the index to indicate that all writing has been done
    if i = n then do
      let _ ← SerializeHelper.update sh (LLONG_MAX - 1)
      return ()
    else
      return ()
  else do
    -- optimization for when we don't have a SerializeHelper
    modify fun w => w.write ios (putUInt n)
    putAll putT ios n data n 0

end AipsIOCarray

/-! ## Definitions used in the statements -/

namespace SerializeHelper

/-- The state created by `getInstance` for an origin `this` holding `self`. -/
def minted (this : Ptr) (self : SerializeHelper) : SerializeHelper :=
  { init self.softLimit self.buf with origin := this }

/-- The state of the world after `getInstance` has created an instance. -/
def afterMint (w : World) (this object : Ptr) (self : SerializeHelper) : World :=
  ((w.alloc (init self.softLimit self.buf)).2.store (w.heap.length + 1)
      (minted this self)).store this
    { self with instances := self.instances.insert object (w.heap.length + 1) }

end SerializeHelper

/-- The state right after `MemoryIO buf; SerializeHelper sh(softLimit, buf);`:
the origin instance is the only object, at address `1`, on the empty buffer
`0`. -/
def World.fresh (softLimit : Int) : World :=
  { heap := [some (SerializeHelper.init softLimit 0)], bufs := fun _ => [], updates := [] }

/-- The life of one object under an origin: its state is looked up, its index is
set to `k`, the object is reported serialized, and its state is looked up
again. -/
def reencode (origin object : Ptr) (k : Int) : Exec (Ptr × Int × Int) := do
  let (state, _, _) ← SerializeHelper.Static.getInstance origin object
  let _ ← SerializeHelper.Static.update state k
  SerializeHelper.Static.objectSerialized origin object
  SerializeHelper.Static.getInstance origin object

/-- Every object of the second state is the same object in the first state or
has been released. -/
def World.Kept (w w1 : World) : Prop :=
  ∀ q, w1.deref q = w.deref q ∨ w1.deref q = none

/-- The bytes of the `k` elements of `data` from offset `i` on, as `putT` writes
them one after the other. -/
def elems {T : Type} (putT : T → List Byte) (data : Nat → T) : Nat → Nat → List Byte
  | 0, _ => []
  | k + 1, i => putT (data i) ++ elems putT data k (i + 1)

/-- The value of `idx` when `putAipsIO` reaches the comment "skip to the current
data", for an instance holding `index`: `shStartIdx + 1` when the count has
just been written. -/
def resumeIdx (index shStartIdx : Int) : Int :=
  if index ≤ shStartIdx then shStartIdx + 1 else index

/-- The value of `uInt start = (uInt)idx - shStartIdx - 1` in `putAipsIO`. -/
def startOf (idx shStartIdx : Int) : Nat :=
  ((idx % 2 ^ 32 - shStartIdx - 1) % 2 ^ 32).toNat

/-- The index `putAipsIO` leaves in the instance after a loop that began at
`start` with `idx` and wrote `m` elements. -/
def finalIdx (n : Nat) (shStartIdx : Int) (start m : Nat) (idx : Int) : Int :=
  if start + m = n then LLONG_MAX - 1
  else if m = 0 then idx else ((start + m : Nat) : Int) + shStartIdx + 1

/-- The part of `putAipsIO` from the comment "skip to the current data" to
the end of the branch with a `SerializeHelper`, as a computation of its own;
it is used to state facts about `putAipsIO`, which does not call it. -/
def putData {T : Type} (putT : T → List Byte) (ios : Nat) (n : Nat) (data : Nat → T)
    (sh : Ptr) (shStartIdx : Int) (idx avail : Int) : Exec Unit := do
  let start : Nat := ((idx % 2 ^ 32 - shStartIdx - 1) % 2 ^ 32).toNat
  let (i, idx) ← putLoop putT ios n data sh shStartIdx (n - start) start idx avail
  let _ ← SerializeHelper.update sh idx
  if i = n then do
    let _ ← SerializeHelper.update sh (LLONG_MAX - 1)
    return ()
  else
    return ()

/-- The region is not finished: the index `x` is not above the start offset and
nothing is written (`k = 0`), or the count and the first `k < n` elements are
written and `x = shStartIdx + 1 + k`. -/
def Open (n : Nat) (shStartIdx : Int) (k : Nat) (x : Int) : Prop :=
  (x ≤ shStartIdx ∧ k = 0) ∨ (k < n ∧ x = shStartIdx + 1 + (k : Int))

/-- The index `x` of an instance stands for `k` elements written: the region is
not finished, or `x` is the completion value and `k = n`. -/
def Progress (n : Nat) (shStartIdx : Int) (k : Nat) (x : Int) : Prop :=
  Open n shStartIdx k x ∨ (x = LLONG_MAX - 1 ∧ k = n)

/-- Run `m` and return the bytes it appended to buffer `ios`. -/
def appended (ios : Nat) (m : Exec Unit) : Exec (List Byte) := fun w =>
  match m w with
  | (.ok _, w1) => (.ok ((w1.bufs ios).drop (w.bufs ios).length), w1)
  | (.error e, w1) => (.error e, w1)

/-- The caller clears the buffer of the instance between two calls, or does
not. -/
def clearIf (c : Bool) (sh : Ptr) : Exec Unit :=
  if c then SerializeHelper.clearMemory sh else pure ()

section Callers

variable {T : Type}

/-- A caller that writes one region in pieces: one call of `putAipsIO` per
entry of the list, before which the buffer is cleared when the entry is
`true`. The result is the bytes appended by the calls, in call order. -/
def calls (putUInt : Nat → List Byte) (putT : T → List Byte) (ios : Nat) (n : Nat)
    (data : Nat → T) (sh : Ptr) (shStartIdx : Int) : List Bool → Exec (List Byte)
  | [] => pure []
  | c :: cs => do
    clearIf c sh
    let out ← appended ios ( putAipsIO putUInt putT ios n data sh shStartIdx)
    let rest ← calls putUInt putT ios n data sh shStartIdx cs
    pure (out ++ rest)

/-- The caller `calls` that stops calling once the index of the instance is the
completion value `LLONG_MAX-1`. -/
def chunked (putUInt : Nat → List Byte) (putT : T → List Byte) (ios : Nat) (n : Nat)
    (data : Nat → T) (sh : Ptr) (shStartIdx : Int) : List Bool → Exec (List Byte)
  | [] => pure []
  | c :: cs => do
    let idx ← SerializeHelper.Static.getIndex sh
    if idx = LLONG_MAX - 1 then
      pure []
    else do
      clearIf c sh
      let out ← appended ios ( putAipsIO putUInt putT ios n data sh shStartIdx)
      let rest ← chunked putUInt putT ios n data sh shStartIdx cs
      pure (out ++ rest)

/-- The caller `calls`, returning for each call the bytes it appended and the
index it left in the instance. -/
def callsTrace (putUInt : Nat → List Byte) (putT : T → List Byte) (ios : Nat) (n : Nat)
    (data : Nat → T) (sh : Ptr) (shStartIdx : Int) : List Bool → Exec (List (List Byte × Int))
  | [] => pure []
  | c :: cs => do
    clearIf c sh
    let out ← appended ios ( putAipsIO putUInt putT ios n data sh shStartIdx)
    let idx ← SerializeHelper.Static.getIndex sh
    let rest ← callsTrace putUInt putT ios n data sh shStartIdx cs
    pure ((out, idx) :: rest)

end Callers

/-! ## Concrete scalar writers and states

`AipsIO` is not part of the files embedded here; the following writers and
readers are examples of what it may be: a `uInt` as four bytes, most
significant first, and an element of one byte. -/

/-- An example of `ios << n` for a `uInt`: four bytes, most significant
first. -/
def exampleUInt (n : Nat) : List Byte :=
  [UInt8.ofNat (n / 2 ^ 24), UInt8.ofNat (n / 2 ^ 16), UInt8.ofNat (n / 2 ^ 8), UInt8.ofNat n]

/-- An example of `ios << *data` for elements of one byte (`uChar`). -/
def exampleT (x : Byte) : List Byte := [x]

/-- An example of a C-array of bytes: element `i` is `i + 10` (modulo 256). -/
def exampleData (i : Nat) : Byte := UInt8.ofNat (i + 10)

/-- The state after `getInstance` has registered the object at address `7` with
the origin of `World.fresh softLimit`: the origin is at address `1`, the state
of the object at address `2`, both on buffer `0`. -/
def World.registered (softLimit : Int) : World :=
  (SerializeHelper.Static.getInstance 1 7 (World.fresh softLimit)).2

/-- The origin instance in `World.registered softLimit`. -/
def registeredOrigin (softLimit : Int) : SerializeHelper :=
  { SerializeHelper.init softLimit 0 with instances := (∅ : AList fun _ : Ptr => Ptr).insert 7 2 }

/-- The state of the object in `World.registered softLimit`. -/
def registeredState (softLimit : Int) : SerializeHelper :=
  SerializeHelper.minted 1 (SerializeHelper.init softLimit 0)

/-- An example of `ios << *data` for elements of eight bytes (an `Int64` or a
`Double`), most significant byte first. -/
def exampleT8 (x : Nat) : List Byte :=
  [UInt8.ofNat (x / 2 ^ 56), UInt8.ofNat (x / 2 ^ 48), UInt8.ofNat (x / 2 ^ 40),
    UInt8.ofNat (x / 2 ^ 32), UInt8.ofNat (x / 2 ^ 24), UInt8.ofNat (x / 2 ^ 16),
    UInt8.ofNat (x / 2 ^ 8), UInt8.ofNat x]

/-- An example of a C-array of elements of eight bytes: element `i` is
`1000003 * i`. -/
def exampleData8 (i : Nat) : Nat := 1000003 * i

/-! ## Sequences of calls of the static methods -/

/-- A call of one of the static methods `getInstance`, `update` and
`objectSerialized` of `class SerializeHelper`, with its arguments. -/
inductive ApiCall where
  | getInstance (parent object : Ptr)
  | update (inst : Ptr) (index : Int)
  | objectSerialized (inst object : Ptr)

/-- The state a call leaves, whether it returns or throws. -/
def ApiCall.run : ApiCall → World → World
  | .getInstance parent object, w => (SerializeHelper.Static.getInstance parent object w).2
  | .update inst index, w => (SerializeHelper.Static.update inst index w).2
  | .objectSerialized inst object, w =>
    (SerializeHelper.Static.objectSerialized inst object w).2

/-- The state after a sequence of calls made one after the other. -/
def runAll : List ApiCall → World → World
  | [], w => w
  | c :: cs, w => runAll cs (c.run w)

/-- The object at `org` is live with a null `origin`; every other live object
has `origin == org`, the soft limit and buffer of `org`, and no instances of
its own; and `instances` of `org` maps different objects to different live
objects other than `org`. -/
def World.Owned (org : Ptr) (w : World) : Prop :=
  ∃ o, w.deref org = some o ∧ o.origin = NULL ∧
    (∀ p c, w.deref p = some c → p ≠ org →
      c.origin = org ∧ c.softLimit = o.softLimit ∧ c.buf = o.buf ∧ c.instances = ∅) ∧
    (∀ obj p, o.instances.lookup obj = some p → p ≠ org ∧ ∃ c, w.deref p = some c) ∧
    (∀ obj1 obj2 p, o.instances.lookup obj1 = some p → o.instances.lookup obj2 = some p →
      obj1 = obj2)
/-! ## Facts about the state and about running a computation -/

namespace World

@[simp] theorem deref_NULL (w : World) : w.deref NULL = none := rfl

theorem ne_NULL_of_deref {w : World} {p : Ptr} {h : SerializeHelper}
    (hp : w.deref p = some h) : p ≠ NULL := by
  rintro rfl
  simp at hp

@[simp] theorem bufs_store (w : World) (p : Ptr) (x : SerializeHelper) :
    (w.store p x).bufs = w.bufs := by
  cases p <;> rfl

@[simp] theorem updates_store (w : World) (p : Ptr) (x : SerializeHelper) :
    (w.store p x).updates = w.updates := by
  cases p <;> rfl

@[simp] theorem heap_length_store (w : World) (p : Ptr) (x : SerializeHelper) :
    (w.store p x).heap.length = w.heap.length := by
  cases p <;> simp [store]

theorem heap_get_of_deref {w : World} {a : Nat} {h : SerializeHelper}
    (hp : w.deref (a + 1) = some h) : w.heap[a]? = some (some h) := by
  simp only [deref, List.getD_eq_getElem?_getD] at hp
  cases hget : w.heap[a]? with
  | none => simp [hget] at hp
  | some o => simp [hget] at hp; rw [hp]

theorem heap_lt_of_deref {w : World} {a : Nat} {h : SerializeHelper}
    (hp : w.deref (a + 1) = some h) : a < w.heap.length := by
  have hget := heap_get_of_deref hp
  by_contra hge
  rw [List.getElem?_eq_none (Nat.le_of_not_lt hge)] at hget
  exact Option.noConfusion hget

theorem deref_store_same {w : World} {p : Ptr} {h : SerializeHelper}
    (hp : w.deref p = some h) (x : SerializeHelper) : (w.store p x).deref p = some x := by
  cases p with
  | zero => simp [deref] at hp
  | succ a =>
    have hlt : a < w.heap.length := heap_lt_of_deref hp
    simp [deref, store, List.getD_eq_getElem?_getD, List.getElem?_set, hlt]

theorem deref_store_ne (w : World) {p q : Ptr} (hne : q ≠ p) (x : SerializeHelper) :
    (w.store p x).deref q = w.deref q := by
  cases p with
  | zero => rfl
  | succ a =>
    cases q with
    | zero => rfl
    | succ b =>
      have hab : a ≠ b := fun e => hne (by rw [e])
      simp [deref, store, List.getD_eq_getElem?_getD, List.getElem?_set, hab]

theorem store_self {w : World} {p : Ptr} {h : SerializeHelper} (hp : w.deref p = some h) :
    w.store p h = w := by
  cases p with
  | zero => rfl
  | succ a =>
    have hget := heap_get_of_deref hp
    apply World.ext
    · simp only [store]
      apply List.ext_getElem?
      intro j
      rw [List.getElem?_set]
      by_cases haj : a = j
      · subst haj
        simp [hget, heap_lt_of_deref hp]
      · simp [haj]
    · rfl
    · rfl

@[simp] theorem store_store (w : World) (p : Ptr) (x y : SerializeHelper) :
    (w.store p x).store p y = w.store p y := by
  cases p <;> simp [store]

@[simp] theorem deref_write (w : World) (b : Nat) (bs : List Byte) (p : Ptr) :
    (w.write b bs).deref p = w.deref p := by
  cases p <;> rfl

@[simp] theorem heap_write (w : World) (b : Nat) (bs : List Byte) :
    (w.write b bs).heap = w.heap := rfl

@[simp] theorem updates_write (w : World) (b : Nat) (bs : List Byte) :
    (w.write b bs).updates = w.updates := rfl

@[simp] theorem bufs_write_same (w : World) (b : Nat) (bs : List Byte) :
    (w.write b bs).bufs b = w.bufs b ++ bs := by
  simp [write]

theorem bufs_write_ne (w : World) {b k : Nat} (hne : k ≠ b) (bs : List Byte) :
    (w.write b bs).bufs k = w.bufs k := by
  simp [write, hne]

theorem bufs_write (w : World) (b k : Nat) (bs : List Byte) :
    (w.write b bs).bufs k = if k = b then w.bufs b ++ bs else w.bufs k := rfl

@[simp] theorem write_nil (w : World) (b : Nat) : w.write b [] = w := by
  apply World.ext
  · rfl
  · funext k
    by_cases hk : k = b <;> simp [write, hk]
  · rfl

@[simp] theorem write_write (w : World) (b : Nat) (x y : List Byte) :
    (w.write b x).write b y = w.write b (x ++ y) := by
  apply World.ext
  · rfl
  · funext k
    by_cases hk : k = b <;> simp [write, hk]
  · rfl

@[simp] theorem store_write (w : World) (p : Ptr) (x : SerializeHelper) (b : Nat)
    (bs : List Byte) : (w.store p x).write b bs = (w.write b bs).store p x := by
  cases p <;> rfl

@[simp] theorem deref_recordAll (w : World) (es : List (Ptr × Int × Int)) (p : Ptr) :
    (w.recordAll es).deref p = w.deref p := by
  cases p <;> rfl

@[simp] theorem bufs_recordAll (w : World) (es : List (Ptr × Int × Int)) :
    (w.recordAll es).bufs = w.bufs := rfl

@[simp] theorem heap_recordAll (w : World) (es : List (Ptr × Int × Int)) :
    (w.recordAll es).heap = w.heap := rfl

@[simp] theorem updates_recordAll (w : World) (es : List (Ptr × Int × Int)) :
    (w.recordAll es).updates = es ++ w.updates := rfl

@[simp] theorem recordAll_nil (w : World) : w.recordAll [] = w := rfl

@[simp] theorem recordAll_recordAll (w : World) (e1 e2 : List (Ptr × Int × Int)) :
    (w.recordAll e1).recordAll e2 = w.recordAll (e2 ++ e1) := by
  apply World.ext <;> simp [recordAll]

@[simp] theorem recordAll_write (w : World) (es : List (Ptr × Int × Int)) (b : Nat)
    (bs : List Byte) : (w.recordAll es).write b bs = (w.write b bs).recordAll es := rfl

@[simp] theorem recordAll_store (w : World) (es : List (Ptr × Int × Int)) (p : Ptr)
    (x : SerializeHelper) : (w.recordAll es).store p x = (w.store p x).recordAll es := by
  cases p <;> rfl

theorem record_eq (w : World) (p : Ptr) (old new : Int) :
    w.record p old new = w.recordAll [(p, old, new)] := rfl

end World

namespace Exec

@[simp] theorem pure_run {α : Type} (a : α) (w : World) :
    (pure a : Exec α) w = (.ok a, w) := rfl

@[simp] theorem bind_run {α β : Type} (m : Exec α) (f : α → Exec β) (w : World) :
    (m >>= f) w = match m w with
      | (.ok a, w1) => f a w1
      | (.error e, w1) => (.error e, w1) := rfl

@[simp] theorem throw_run {α : Type} (e : Error) (w : World) :
    (throw e : Exec α) w = (.error e, w) := rfl

@[simp] theorem modify_run (f : World → World) (w : World) :
    modify f w = (.ok (), f w) := rfl

@[simp] theorem get_run (w : World) : get w = (.ok w, w) := rfl

theorem load_run {w : World} {p : Ptr} {h : SerializeHelper} (hp : w.deref p = some h) :
    load p w = (.ok h, w) := by
  simp [load, hp]

theorem load_fault {w : World} {p : Ptr} (hp : w.deref p = none) :
    load p w = (.error .fault, w) := by
  simp [load, hp]

end Exec

namespace SerializeHelper

theorem getAvailable_run {w : World} {p : Ptr} {h : SerializeHelper}
    (hp : w.deref p = some h) :
    getAvailable p w = (.ok (h.softLimit - ((w.bufs h.buf).length : Int)), w) := by
  simp [getAvailable, load_run hp]

theorem update_run {w : World} {p : Ptr} {h : SerializeHelper}
    (hp : w.deref p = some h) (index : Int) :
    update p index w =
      (.ok (h.softLimit - ((w.bufs h.buf).length : Int)),
        (w.store p { h with index := index }).recordAll [(p, h.index, index)]) := by
  have h1 : ((w.store p { h with index := index }).recordAll [(p, h.index, index)]).deref p =
      some { h with index := index } := by
    simp [World.deref_store_same hp]
  simp [update, load_run hp, getAvailable_run h1, World.record_eq]

end SerializeHelper

namespace SerializeHelper

/-- Deleting a live instance that is not an origin releases it and nothing else. -/
theorem delete_child {w : World} {c : Ptr} {child : SerializeHelper}
    (hc : w.deref c = some child) (hchild : child.origin ≠ NULL) (fuel : Nat) :
    delete (fuel + 1) c w = (.ok (), w.free c) := by
  simp [delete, load_run hc, hchild]

end SerializeHelper


namespace World

theorem deref_fresh (w : World) : w.deref (w.heap.length + 1) = none := by
  simp [deref]

theorem deref_alloc_new (w : World) (x : SerializeHelper) :
    (w.alloc x).2.deref (w.heap.length + 1) = some x := by
  simp [deref, alloc, List.getD_eq_getElem?_getD]

theorem deref_alloc_ne (w : World) (x : SerializeHelper) {p : Ptr}
    (hp : p ≠ w.heap.length + 1) : (w.alloc x).2.deref p = w.deref p := by
  cases p with
  | zero => rfl
  | succ a =>
    have ha : a ≠ w.heap.length := fun e => hp (by rw [e])
    simp only [deref, alloc, List.getD_eq_getElem?_getD]
    by_cases hlt : a < w.heap.length
    · rw [List.getElem?_append_left hlt]
    · have hgt : w.heap.length < a := by omega
      rw [List.getElem?_eq_none (by simp; omega), List.getElem?_eq_none (by omega)]

theorem ne_fresh_of_deref {w : World} {p : Ptr} {h : SerializeHelper}
    (hp : w.deref p = some h) : p ≠ w.heap.length + 1 := by
  rintro rfl
  rw [deref_fresh] at hp
  exact Option.noConfusion hp

@[simp] theorem bufs_alloc (w : World) (x : SerializeHelper) : (w.alloc x).2.bufs = w.bufs := rfl

@[simp] theorem updates_alloc (w : World) (x : SerializeHelper) :
    (w.alloc x).2.updates = w.updates := rfl

@[simp] theorem fst_alloc (w : World) (x : SerializeHelper) :
    (w.alloc x).1 = w.heap.length + 1 := rfl

end World

namespace SerializeHelper

theorem getInstance_present {w : World} {this object c : Ptr} {self st : SerializeHelper}
    (hthis : w.deref this = some self) (horigin : self.origin = NULL)
    (hfind : self.instances.lookup object = some c) (hc : w.deref c = some st) :
    getInstance this object w =
      (.ok (c, st.index, st.softLimit - ((w.bufs st.buf).length : Int)), w) := by
  simp [getInstance, load_run hthis, horigin, hfind, load_run hc, getAvailable_run hc]

theorem getInstance_absent {w : World} {this object : Ptr} {self : SerializeHelper}
    (hthis : w.deref this = some self) (horigin : self.origin = NULL)
    (hfind : self.instances.lookup object = none) :
    getInstance this object w =
      (.ok (w.heap.length + 1, 0, self.softLimit - ((w.bufs self.buf).length : Int)),
        afterMint w this object self) := by
  have hne : this ≠ w.heap.length + 1 := World.ne_fresh_of_deref hthis
  have hmem : object ∉ self.instances := by
    rw [← AList.lookup_isSome, hfind]; simp
  have h1 := World.deref_alloc_new w (init self.softLimit self.buf)
  have h2 := World.deref_store_same h1 (minted this self)
  have h3 : ((w.alloc (init self.softLimit self.buf)).2.store (w.heap.length + 1)
      (minted this self)).deref this = some self := by
    rw [World.deref_store_ne _ hne, World.deref_alloc_ne _ _ hne, hthis]
  have h4 : (afterMint w this object self).deref (w.heap.length + 1) =
      some (minted this self) := by
    rw [afterMint, World.deref_store_ne _ (Ne.symm hne), h2]
  simp only [getInstance, bind_run, load_run hthis, horigin, hfind, get_run, modify_run]
  simp only [minted, init, afterMint] at h1 h2 h3 h4
  simp [minted, init, afterMint, load_run h1, load_run h2, load_run h3, hmem, load_run h4,
    getAvailable_run h4]

end SerializeHelper
namespace World

theorem deref_free_same (w : World) (p : Ptr) : (w.free p).deref p = none := by
  cases p with
  | zero => rfl
  | succ a =>
    simp only [deref, free, List.getD_eq_getElem?_getD, List.getElem?_set]
    by_cases hlt : a < w.heap.length <;> simp [hlt]

theorem deref_free_ne (w : World) {p q : Ptr} (hne : q ≠ p) : (w.free p).deref q = w.deref q := by
  cases p with
  | zero => rfl
  | succ a =>
    cases q with
    | zero => rfl
    | succ b =>
      have hab : a ≠ b := fun e => hne (by rw [e])
      simp [deref, free, List.getD_eq_getElem?_getD, List.getElem?_set, hab]

@[simp] theorem bufs_free (w : World) (p : Ptr) : (w.free p).bufs = w.bufs := by
  cases p <;> rfl

@[simp] theorem updates_free (w : World) (p : Ptr) : (w.free p).updates = w.updates := by
  cases p <;> rfl

@[simp] theorem bufs_afterMint (w : World) (this object : Ptr) (self : SerializeHelper) :
    (SerializeHelper.afterMint w this object self).bufs = w.bufs := by
  simp [SerializeHelper.afterMint]

theorem deref_afterMint_new {w : World} {this : Ptr} {self : SerializeHelper}
    (hthis : w.deref this = some self) (object : Ptr) :
    (SerializeHelper.afterMint w this object self).deref (w.heap.length + 1) =
      some (SerializeHelper.minted this self) := by
  have hne : this ≠ w.heap.length + 1 := ne_fresh_of_deref hthis
  rw [SerializeHelper.afterMint, deref_store_ne _ (Ne.symm hne)]
  exact deref_store_same (deref_alloc_new w _) _

theorem deref_afterMint_this {w : World} {this : Ptr} {self : SerializeHelper}
    (hthis : w.deref this = some self) (object : Ptr) :
    (SerializeHelper.afterMint w this object self).deref this =
      some { self with instances := self.instances.insert object (w.heap.length + 1) } := by
  have hne : this ≠ w.heap.length + 1 := ne_fresh_of_deref hthis
  rw [SerializeHelper.afterMint]
  apply deref_store_same (h := self)
  rw [deref_store_ne _ hne, deref_alloc_ne _ _ hne, hthis]

theorem deref_afterMint_ne (w : World) {this p : Ptr} (self : SerializeHelper) (object : Ptr)
    (h1 : p ≠ this) (h2 : p ≠ w.heap.length + 1) :
    (SerializeHelper.afterMint w this object self).deref p = w.deref p := by
  rw [SerializeHelper.afterMint, deref_store_ne _ h1, deref_store_ne _ h2, deref_alloc_ne _ _ h2]

end World

namespace SerializeHelper

theorem objectSerialized_absent {w : World} {this object : Ptr} {self : SerializeHelper}
    (hthis : w.deref this = some self) (horigin : self.origin = NULL)
    (hfind : self.instances.lookup object = none) :
    objectSerialized this object w = (.error (.notFound object), w) := by
  simp [objectSerialized, load_run hthis, horigin, hfind]

theorem objectSerialized_present {w : World} {this object c : Ptr} {self child : SerializeHelper}
    (hthis : w.deref this = some self) (horigin : self.origin = NULL)
    (hfind : self.instances.lookup object = some c) (hc : w.deref c = some child)
    (hchild : child.origin ≠ NULL) :
    objectSerialized this object w =
      (.ok (), (w.free c).store this { self with instances := self.instances.erase object }) := by
  have hne : this ≠ c := by
    rintro rfl
    rw [hthis] at hc
    injection hc with hc
    exact hchild (hc ▸ horigin)
  have h1 : (w.free c).deref this = some self := by
    rw [World.deref_free_ne _ hne, hthis]
  simp [objectSerialized, load_run hthis, horigin, hfind, delete_child hc hchild,
    load_run h1]

theorem Static.getInstance_of_origin {w : World} {this object : Ptr} {self : SerializeHelper}
    (hobj : object ≠ NULL) (hthis : w.deref this = some self) (horigin : self.origin = NULL) :
    Static.getInstance this object w = SerializeHelper.getInstance this object w := by
  have hne := World.ne_NULL_of_deref hthis
  simp [Static.getInstance, hne, hobj, load_run hthis, horigin]

theorem Static.objectSerialized_of_origin {w : World} {this object : Ptr}
    {self : SerializeHelper}
    (hobj : object ≠ NULL) (hthis : w.deref this = some self) (horigin : self.origin = NULL) :
    Static.objectSerialized this object w = SerializeHelper.objectSerialized this object w := by
  have hne := World.ne_NULL_of_deref hthis
  simp [Static.objectSerialized, hne, hobj, load_run hthis, horigin]

theorem Static.getInstance_of_child {w : World} {c object : Ptr} {child : SerializeHelper}
    (hobj : object ≠ NULL) (hc : w.deref c = some child) (hchild : child.origin ≠ NULL) :
    Static.getInstance c object w = SerializeHelper.getInstance child.origin object w := by
  have hne := World.ne_NULL_of_deref hc
  simp [Static.getInstance, hne, hobj, load_run hc, hchild]

theorem Static.objectSerialized_of_child {w : World} {c object : Ptr} {child : SerializeHelper}
    (hobj : object ≠ NULL) (hc : w.deref c = some child) (hchild : child.origin ≠ NULL) :
    Static.objectSerialized c object w =
      SerializeHelper.objectSerialized child.origin object w := by
  have hne := World.ne_NULL_of_deref hc
  simp [Static.objectSerialized, hne, hobj, load_run hc, hchild]

end SerializeHelper

namespace World

theorem Kept.refl (w : World) : Kept w w := fun _ => Or.inl rfl

theorem Kept.trans {w w1 w2 : World} (h1 : Kept w w1) (h2 : Kept w1 w2) : Kept w w2 := by
  intro q
  rcases h2 q with h | h
  · rw [h]; exact h1 q
  · exact Or.inr h

theorem Kept.free (w : World) (p : Ptr) : Kept w (w.free p) := by
  intro q
  by_cases hq : q = p
  · subst hq; exact Or.inr (deref_free_same w q)
  · exact Or.inl (deref_free_ne w hq)

theorem Kept.store_free (w : World) (p : Ptr) (x : SerializeHelper) :
    Kept w ((w.store p x).free p) := by
  intro q
  by_cases hq : q = p
  · subst hq; exact Or.inr (deref_free_same _ q)
  · left; rw [deref_free_ne _ hq, deref_store_ne _ hq]

end World

namespace SerializeHelper

theorem forM_kept (f : Ptr → Exec Unit) (hf : ∀ q w, World.Kept w (f q w).2) :
    ∀ (l : List Ptr) (w : World), World.Kept w (l.forM f w).2
  | [], w => World.Kept.refl w
  | a :: l, w => by
    have h1 := hf a w
    simp only [List.forM, bind_run]
    rcases hfa : f a w with ⟨r, w1⟩
    rw [hfa] at h1
    cases r with
    | error e => exact h1
    | ok u => exact World.Kept.trans h1 (forM_kept f hf l w1)

theorem delete_kept : ∀ (fuel : Nat) (p : Ptr) (w : World), World.Kept w (delete fuel p w).2
  | 0, _, w => World.Kept.refl w
  | fuel + 1, p, w => by
    cases hp : w.deref p with
    | none =>
      simp only [delete, bind_run, load_fault hp]
      exact World.Kept.refl w
    | some self =>
      by_cases ho : self.origin = NULL
      · simp only [delete, bind_run, load_run hp, ho, if_true]
        split
        · rename_i u w1 heq
          have h1 := forM_kept (fun q => delete fuel q) (fun q w => delete_kept fuel q w)
            (self.instances.entries.map fun e => e.2) w
          rw [heq] at h1
          cases hp1 : w1.deref p with
          | none =>
            simp only [load_fault hp1]
            exact h1
          | some self1 =>
            simp only [load_run hp1, modify_run]
            exact World.Kept.trans h1 (World.Kept.store_free w1 p _)
        · rename_i e w1 heq
          have h1 := forM_kept (fun q => delete fuel q) (fun q w => delete_kept fuel q w)
            (self.instances.entries.map fun e => e.2) w
          rw [heq] at h1
          exact h1
      · simp only [delete, bind_run, load_run hp, ho, if_false, pure_run, modify_run]
        exact World.Kept.free w p

end SerializeHelper

namespace SerializeHelper

theorem objectSerialized_frame (this object : Ptr) (w : World) {q : Ptr} (hq : q ≠ this) :
    (objectSerialized this object w).2.deref q = w.deref q ∨
      (objectSerialized this object w).2.deref q = none := by
  cases hthis : w.deref this with
  | none =>
    simp [objectSerialized, load_fault hthis]
  | some self =>
    by_cases ho : self.origin = NULL
    · cases hfind : self.instances.lookup object with
      | none => simp [objectSerialized, load_run hthis, ho, hfind]
      | some c =>
        simp only [objectSerialized, bind_run, load_run hthis, ho, hfind, get_run, ne_eq,
          not_true_eq_false, if_false]
        split
        · rename_i u w1 heq
          have hk := delete_kept (w.heap.length + 1) c w
          rw [heq] at hk
          cases hthis1 : w1.deref this with
          | none => simpa [load_fault hthis1] using hk q
          | some self1 =>
            simp only [load_run hthis1, modify_run]
            rw [World.deref_store_ne _ hq]
            simpa using hk q
        · rename_i e w1 heq
          have hk := delete_kept (w.heap.length + 1) c w
          rw [heq] at hk
          simpa using hk q
    · simp [objectSerialized, load_run hthis, ho]

theorem getInstance_frame (this object : Ptr) (w : World) {q : Ptr} {h : SerializeHelper}
    (hq : q ≠ this) (hlive : w.deref q = some h) :
    (getInstance this object w).2.deref q = some h := by
  cases hthis : w.deref this with
  | none =>
    simp [getInstance, load_fault hthis, hlive]
  | some self =>
    by_cases ho : self.origin = NULL
    · cases hfind : self.instances.lookup object with
      | none =>
        rw [getInstance_absent hthis ho hfind]
        simp only
        rw [World.deref_afterMint_ne w self object hq (World.ne_fresh_of_deref hlive), hlive]
      | some c =>
        cases hc : w.deref c with
        | none => simp [getInstance, load_run hthis, ho, hfind, load_fault hc, hlive]
        | some st => rw [getInstance_present hthis ho hfind hc]; exact hlive
    · simp [getInstance, load_run hthis, ho, hlive]

end SerializeHelper

/-! ## The loops of `putAipsIO` -/

section Loops

variable {T : Type}

theorem elems_add (putT : T → List Byte) (data : Nat → T) :
    ∀ (a b i : Nat), elems putT data (a + b) i = elems putT data a i ++ elems putT data b (i + a)
  | 0, b, i => by simp [elems]
  | a + 1, b, i => by
    have h := elems_add putT data a b (i + 1)
    have e1 : a + 1 + b = (a + b) + 1 := by omega
    have e2 : i + 1 + a = i + (a + 1) := by omega
    rw [e1, elems, h, e2, elems, List.append_assoc]

theorem elems_succ (putT : T → List Byte) (data : Nat → T) (k i : Nat) :
    elems putT data (k + 1) i = elems putT data k i ++ putT (data (i + k)) := by
  rw [elems_add putT data k 1 i]
  simp [elems]

theorem helper_eta (h : SerializeHelper) : { h with index := h.index } = h := by
  cases h; rfl

/-- What the loop of `putAipsIO` does on a live instance: it writes the `m`
elements from `i` on, for some `m`, and leaves the instance with some index
`X`; when the index held is not above `idx` and `idx` is not above
`i + shStartIdx + 1`, every call of `update` it makes passes an index that is
not below the index held. -/
theorem putLoop_run (putT : T → List Byte) (ios n : Nat) (data : Nat → T) (sh : Ptr)
    (s : Int) :
    ∀ (k i : Nat) (idx avail : Int) (w : World) (h : SerializeHelper),
      w.deref sh = some h →
      ∃ (m : Nat) (X : Int) (es : List (Ptr × Int × Int)),
        m ≤ k ∧ (m = 0 ∨ i + m ≤ n) ∧
        putLoop putT ios n data sh s k i idx avail w =
          (.ok (i + m, if m = 0 then idx else ((i + m : Nat) : Int) + s + 1),
            ((w.write ios (elems putT data m i)).store sh { h with index := X }).recordAll es) ∧
        (m = 0 → X = h.index ∧ es = []) ∧
        (0 < avail → i < n → 0 < k → 0 < m) ∧
        (h.index ≤ idx → idx ≤ (i : Int) + s + 1 →
          (∀ e ∈ es, e.1 = sh ∧ e.2.1 ≤ e.2.2) ∧
          X ≤ (if m = 0 then idx else ((i + m : Nat) : Int) + s + 1))
  | 0, i, idx, avail, w, h, hsh => by
    refine ⟨0, h.index, [], le_refl _, Or.inl rfl, ?_, fun _ => ⟨rfl, rfl⟩, ?_, ?_⟩
    · simp [putLoop, elems, helper_eta, World.store_self hsh]
    · intro _ _ hk; exact absurd hk (lt_irrefl _)
    · intro h1 _; simpa using h1
  | k + 1, i, idx, avail, w, h, hsh => by
    by_cases hcond : i < n ∧ avail > 0
    · have hsh1 : (w.write ios (putT (data i))).deref sh = some h := by simpa using hsh
      by_cases hmod : i % 100 = 0
      · have hsh2 : (((w.write ios (putT (data i))).store sh
            { h with index := (i : Int) + s + 2 }).recordAll
              [(sh, h.index, (i : Int) + s + 2)]).deref sh =
            some { h with index := (i : Int) + s + 2 } := by
          simp [World.deref_store_same hsh1]
        obtain ⟨m, X, es, hmk, hmn, hrun, _, _, hmono⟩ :=
          putLoop_run putT ios n data sh s k (i + 1) ((i : Int) + s + 2)
            (h.softLimit - (((w.write ios (putT (data i))).bufs h.buf).length : Int)) _ _ hsh2
        refine ⟨m + 1, X, es ++ [(sh, h.index, (i : Int) + s + 2)], by omega, Or.inr (by omega),
          ?_, fun h0 => absurd h0 (Nat.succ_ne_zero m), fun _ _ _ => Nat.succ_pos m, ?_⟩
        · simp only [putLoop, hcond, hmod, and_self, if_true, bind_run, modify_run,
            SerializeHelper.update_run hsh1, hrun]
          have e1 : i + 1 + m = i + (m + 1) := by omega
          refine Prod.ext ?_ ?_
          · simp only [e1, Nat.succ_ne_zero, if_false]
            by_cases hm0 : m = 0
            · subst hm0; simp; ring
            · simp [hm0]
          · simp [elems]
        · intro h1 h2
          have hm := hmono (by simp) (by push_cast; omega)
          refine ⟨?_, ?_⟩
          · intro e he
            rcases List.mem_append.mp he with he | he
            · exact hm.1 e he
            · simp at he
              subst he
              exact ⟨rfl, by simp; omega⟩
          · have e1 : i + 1 + m = i + (m + 1) := by omega
            have := hm.2
            by_cases hm0 : m = 0
            · subst hm0; simp at this ⊢; omega
            · simpa [hm0, e1] using this
      · obtain ⟨m, X, es, hmk, hmn, hrun, hzero, _, hmono⟩ :=
          putLoop_run putT ios n data sh s k (i + 1) ((i : Int) + s + 2) avail _ _ hsh1
        refine ⟨m + 1, X, es, by omega, Or.inr (by omega),
          ?_, fun h0 => absurd h0 (Nat.succ_ne_zero m), fun _ _ _ => Nat.succ_pos m, ?_⟩
        · simp only [putLoop, hcond, hmod, and_self, if_true, if_false, bind_run, modify_run,
            hrun]
          have e1 : i + 1 + m = i + (m + 1) := by omega
          refine Prod.ext ?_ ?_
          · simp only [e1, Nat.succ_ne_zero, if_false]
            by_cases hm0 : m = 0
            · subst hm0; simp; ring
            · simp [hm0]
          · simp [elems]
        · intro h1 h2
          have hm := hmono (by omega) (by push_cast; omega)
          refine ⟨hm.1, ?_⟩
          have e1 : i + 1 + m = i + (m + 1) := by omega
          have := hm.2
          by_cases hm0 : m = 0
          · subst hm0; simp at this ⊢; omega
          · simpa [hm0, e1] using this
    · refine ⟨0, h.index, [], Nat.zero_le _, Or.inl rfl, ?_, fun _ => ⟨rfl, rfl⟩, ?_, ?_⟩
      · simp [putLoop, hcond, elems, helper_eta, World.store_self hsh]
      · intro h1 h2 _; exact absurd ⟨h2, h1⟩ hcond
      · intro h1 _; simpa using h1

end Loops

section PutAipsIO

variable {T : Type}

/-- With `n - i` as its first argument `putLoop` is the `for` loop of the
source: one pass through the body while `i < n && avail > 0`. -/
theorem putLoop_eq (putT : T → List Byte) (ios n : Nat) (data : Nat → T) (sh : Ptr)
    (s : Int) (i : Nat) (idx avail : Int) :
    putLoop putT ios n data sh s (n - i) i idx avail =
      if i < n ∧ avail > 0 then do
        modify fun w => w.write ios (putT (data i))
        if i % 100 = 0 then do
          let avail ← SerializeHelper.update sh ((i : Int) + s + 2)
          putLoop putT ios n data sh s (n - (i + 1)) (i + 1) ((i : Int) + s + 2) avail
        else
          putLoop putT ios n data sh s (n - (i + 1)) (i + 1) ((i : Int) + s + 2) avail
      else
        pure (i, idx) := by
  by_cases hlt : i < n
  · obtain ⟨k, hk⟩ : ∃ k, n - i = k + 1 := ⟨n - i - 1, by omega⟩
    have hk1 : n - (i + 1) = k := by omega
    rw [hk, hk1, putLoop]
  · have hk : n - i = 0 := by omega
    rw [hk, putLoop]
    simp [hlt]

/-- With `n - i` as its first argument `putAll` is the `for` loop of the
source. -/
theorem putAll_eq (putT : T → List Byte) (ios n : Nat) (data : Nat → T) (i : Nat) :
    putAll putT ios n data (n - i) i =
      if i < n then do
        modify fun w => w.write ios (putT (data i))
        putAll putT ios n data (n - (i + 1)) (i + 1)
      else
        pure () := by
  by_cases hlt : i < n
  · obtain ⟨k, hk⟩ : ∃ k, n - i = k + 1 := ⟨n - i - 1, by omega⟩
    have hk1 : n - (i + 1) = k := by omega
    rw [hk, hk1, putAll]
  · have hk : n - i = 0 := by omega
    rw [hk, putAll]
    simp [hlt]

theorem putAll_run (putT : T → List Byte) (ios n : Nat) (data : Nat → T) :
    ∀ (k i : Nat) (w : World), i + k = n →
      putAll putT ios n data k i w = (.ok (), w.write ios (elems putT data k i))
  | 0, i, w, _ => by simp [putAll, elems]
  | k + 1, i, w, hk => by
    have hlt : i < n := by omega
    simp [putAll, hlt, putAll_run putT ios n data k (i + 1) _ (by omega), elems]

/-- The branch of `putAipsIO` without a `SerializeHelper`: the count, then the
`n` elements. -/
theorem putAipsIO_null (putUInt : Nat → List Byte) (putT : T → List Byte) (ios n : Nat)
    (data : Nat → T) (s : Int) (w : World) :
    putAipsIO putUInt putT ios n data NULL s w =
      (.ok (), w.write ios (putUInt n ++ elems putT data n 0)) := by
  have hpos : ¬ LLONG_MAX ≤ 0 := by decide
  simp [ putAipsIO, SerializeHelper.Static.getIndex, SerializeHelper.Static.getAvailable, hpos,
    putAll_run putT ios n data n 0 _ (by omega)]

/-- A call of `putAipsIO` on a live instance that finds nothing available
changes nothing. -/
theorem putAipsIO_exhausted (putUInt : Nat → List Byte) (putT : T → List Byte) (ios n : Nat)
    (data : Nat → T) (s : Int) {sh : Ptr} {w : World} {h : SerializeHelper}
    (hsh : w.deref sh = some h) (havail : h.softLimit - ((w.bufs h.buf).length : Int) ≤ 0) :
    putAipsIO putUInt putT ios n data sh s w = (.ok (), w) := by
  have hne := World.ne_NULL_of_deref hsh
  simp [ putAipsIO, SerializeHelper.Static.getIndex, SerializeHelper.Static.getAvailable, hne,
    load_run hsh, SerializeHelper.getAvailable_run hsh, havail]

theorem putAipsIO_first (putUInt : Nat → List Byte) (putT : T → List Byte) (ios n : Nat)
    (data : Nat → T) (s : Int) {sh : Ptr} {w : World} {h : SerializeHelper}
    (hsh : w.deref sh = some h) (havail : 0 < h.softLimit - ((w.bufs h.buf).length : Int))
    (hfirst : h.index ≤ s) :
    putAipsIO putUInt putT ios n data sh s w =
      putData putT ios n data sh s (s + 1)
        (h.softLimit - (((w.write ios (putUInt n)).bufs h.buf).length : Int))
        (((w.write ios (putUInt n)).store sh { h with index := s + 1 }).recordAll
          [(sh, h.index, s + 1)]) := by
  have hne := World.ne_NULL_of_deref hsh
  have havail1 : ¬ h.softLimit - ((w.bufs h.buf).length : Int) ≤ 0 := by omega
  have hsh1 : (w.write ios (putUInt n)).deref sh = some h := by simpa using hsh
  simp only [ putAipsIO, putData, bind_run, SerializeHelper.Static.getIndex,
    SerializeHelper.Static.getAvailable, hne, if_false, load_run hsh, pure_run,
    SerializeHelper.getAvailable_run hsh, havail1, hfirst, if_true, modify_run,
    SerializeHelper.update_run hsh1, ne_eq, not_false_eq_true]

theorem putAipsIO_resume (putUInt : Nat → List Byte) (putT : T → List Byte) (ios n : Nat)
    (data : Nat → T) (s : Int) {sh : Ptr} {w : World} {h : SerializeHelper}
    (hsh : w.deref sh = some h) (havail : 0 < h.softLimit - ((w.bufs h.buf).length : Int))
    (hfirst : ¬ h.index ≤ s) :
    putAipsIO putUInt putT ios n data sh s w =
      putData putT ios n data sh s h.index (h.softLimit - ((w.bufs h.buf).length : Int)) w := by
  have hne := World.ne_NULL_of_deref hsh
  have havail1 : ¬ h.softLimit - ((w.bufs h.buf).length : Int) ≤ 0 := by omega
  simp only [ putAipsIO, putData, bind_run, SerializeHelper.Static.getIndex,
    SerializeHelper.Static.getAvailable, hne, if_false, load_run hsh, pure_run,
    SerializeHelper.getAvailable_run hsh, havail1, hfirst, if_true, modify_run,
    ne_eq, not_false_eq_true]

theorem update_normal {sh : Ptr} {w : World} {h : SerializeHelper} (hsh : w.deref sh = some h)
    (X idx : Int) (es : List (Ptr × Int × Int)) :
    SerializeHelper.update sh idx ((w.store sh { h with index := X }).recordAll es) =
      (.ok (h.softLimit - ((w.bufs h.buf).length : Int)),
        (w.store sh { h with index := idx }).recordAll ((sh, X, idx) :: es)) := by
  have hd : ((w.store sh { h with index := X }).recordAll es).deref sh =
      some { h with index := X } := by
    simp [World.deref_store_same hsh]
  rw [SerializeHelper.update_run hd]
  simp

/-- The part of `putAipsIO` after the count on a live instance: it writes `m`
elements from `start` on, for some `m`, and leaves the index `finalIdx`. -/
theorem putData_run (putT : T → List Byte) (ios n : Nat) (data : Nat → T) (s : Int)
    {sh : Ptr} {w : World} {h : SerializeHelper} (hsh : w.deref sh = some h)
    (idx avail : Int) :
    ∃ (m : Nat) (es : List (Ptr × Int × Int)),
      (m = 0 ∨ startOf idx s + m ≤ n) ∧
      putData putT ios n data sh s idx avail w =
        (.ok (),
          ((w.write ios (elems putT data m (startOf idx s))).store sh
            { h with index := finalIdx n s (startOf idx s) m idx }).recordAll es) ∧
      (0 < avail → startOf idx s < n → 0 < m) ∧
      (h.index ≤ idx → idx ≤ (startOf idx s : Int) + s + 1 →
        (n : Int) + s + 1 ≤ LLONG_MAX - 1 →
        ∀ e ∈ es, e.1 = sh ∧ e.2.1 ≤ e.2.2) ∧
      (m = 0 → startOf idx s ≠ n → es = [(sh, h.index, idx)]) := by
  obtain ⟨m, X, es, hmk, hmn, hrun, hzero, hprog, hmono⟩ :=
    putLoop_run putT ios n data sh s (n - startOf idx s) (startOf idx s) idx avail w h hsh
  have hshw : (w.write ios (elems putT data m (startOf idx s))).deref sh = some h := by
    simpa using hsh
  have hst : ((idx % 2 ^ 32 - s - 1) % 2 ^ 32).toNat = startOf idx s := rfl
  by_cases hfin : startOf idx s + m = n
  · refine ⟨m, (sh, (if m = 0 then idx else ((startOf idx s + m : Nat) : Int) + s + 1),
        LLONG_MAX - 1) ::
      (sh, X, (if m = 0 then idx else ((startOf idx s + m : Nat) : Int) + s + 1)) :: es,
      hmn, ?_, fun h1 h2 => hprog h1 h2 (by omega), ?_, ?_⟩
    · simp only [putData, bind_run, hst, hrun, update_normal hshw, hfin, if_true, pure_run,
        finalIdx]
    rotate_left
    · intro hm0 hne
      subst hm0
      exact absurd hfin hne
    · intro h1 h2 h3 e he
      have hm := hmono h1 h2
      simp only [List.mem_cons] at he
      rcases he with he | he | he
      · subst he
        refine ⟨rfl, ?_⟩
        by_cases hm0 : m = 0
        · subst hm0
          simp only [if_true]
          simp only [Nat.add_zero] at hfin
          rw [hfin] at h2
          omega
        · simp only [hm0, if_false, hfin]
          omega
      · subst he
        exact ⟨rfl, hm.2⟩
      · exact hm.1 e he
  · refine ⟨m, (sh, X, (if m = 0 then idx else ((startOf idx s + m : Nat) : Int) + s + 1)) :: es,
      hmn, ?_, fun h1 h2 => hprog h1 h2 (by omega), ?_, ?_⟩
    · simp only [putData, bind_run, hst, hrun, update_normal hshw, hfin, if_false, pure_run,
        finalIdx]
    rotate_left
    · intro hm0 _
      obtain ⟨hX, hes⟩ := hzero hm0
      simp [hm0, hX, hes]
    · intro h1 h2 _ e he
      have hm := hmono h1 h2
      simp only [List.mem_cons] at he
      rcases he with he | he
      · subst he
        exact ⟨rfl, hm.2⟩
      · exact hm.1 e he

theorem startOf_resume (s : Int) (k : Nat) (hk : k < 2 ^ 32) :
    startOf (s + 1 + (k : Int)) s = k := by
  have h32 : (2 : Int) ^ 32 = 4294967296 := by norm_num
  have h32n : (2 : Nat) ^ 32 = 4294967296 := by norm_num
  rw [h32n] at hk
  simp only [startOf, h32]
  omega

theorem resumeIdx_open {n : Nat} {s : Int} {k : Nat} {x : Int} (ho : Open n s k x) :
    resumeIdx x s = s + 1 + (k : Int) := by
  rcases ho with ⟨h1, h2⟩ | ⟨_, h2⟩
  · subst h2; simp [resumeIdx, h1]
  · have hx : ¬ x ≤ s := by omega
    rw [resumeIdx, if_neg hx, h2]

/-- Every call of `putAipsIO` on a live instance returns; it changes the
buffer of the stream by appending to it, the index of the instance, and
nothing else but the history. -/
theorem putAipsIO_frame (putUInt : Nat → List Byte) (putT : T → List Byte) (ios n : Nat)
    (data : Nat → T) (s : Int) {sh : Ptr} {w : World} {h : SerializeHelper}
    (hsh : w.deref sh = some h) :
    ∃ (bytes : List Byte) (x : Int) (es : List (Ptr × Int × Int)),
      putAipsIO putUInt putT ios n data sh s w =
        (.ok (), ((w.write ios bytes).store sh { h with index := x }).recordAll es) := by
  by_cases havail : h.softLimit - ((w.bufs h.buf).length : Int) ≤ 0
  · refine ⟨[], h.index, [], ?_⟩
    rw [putAipsIO_exhausted putUInt putT ios n data s hsh havail]
    simp [helper_eta, World.store_self hsh]
  · have havail1 : 0 < h.softLimit - ((w.bufs h.buf).length : Int) := by omega
    by_cases hfirst : h.index ≤ s
    · have hsh2 : (((w.write ios (putUInt n)).store sh { h with index := s + 1 }).recordAll
          [(sh, h.index, s + 1)]).deref sh = some { h with index := s + 1 } := by
        have hsh1 : (w.write ios (putUInt n)).deref sh = some h := by simpa using hsh
        simp [World.deref_store_same hsh1]
      obtain ⟨m, es, _, hrun, _, _, _⟩ := putData_run putT ios n data s hsh2 (s + 1)
        (h.softLimit - (((w.write ios (putUInt n)).bufs h.buf).length : Int))
      rw [putAipsIO_first putUInt putT ios n data s hsh havail1 hfirst, hrun]
      exact ⟨putUInt n ++ elems putT data m (startOf (s + 1) s),
        finalIdx n s (startOf (s + 1) s) m (s + 1), es ++ [(sh, h.index, s + 1)], by simp⟩
    · obtain ⟨m, es, _, hrun, _, _, _⟩ := putData_run putT ios n data s hsh h.index
        (h.softLimit - ((w.bufs h.buf).length : Int))
      rw [putAipsIO_resume putUInt putT ios n data s hsh havail1 hfirst, hrun]
      exact ⟨_, _, _, rfl⟩

/-- A call of `putAipsIO` on an unfinished region: it appends the count if the
region was not begun and something is available, then `m` elements from the
first one not yet written, and leaves an index that stands for `k + m`
elements. -/
theorem putAipsIO_open (putUInt : Nat → List Byte) (putT : T → List Byte) (ios n : Nat)
    (data : Nat → T) (s : Int) (hn : n < 2 ^ 32) (hs : s < LLONG_MAX - 1)
    {sh : Ptr} {w : World} {h : SerializeHelper}
    (hsh : w.deref sh = some h) {k : Nat} (hopen : Open n s k h.index) :
    ∃ (m : Nat) (x : Int) (es : List (Ptr × Int × Int)),
      putAipsIO putUInt putT ios n data sh s w =
        (.ok (),
          ((w.write ios
              ((if h.index ≤ s ∧ 0 < h.softLimit - ((w.bufs h.buf).length : Int)
                then putUInt n else []) ++ elems putT data m k)).store sh
            { h with index := x }).recordAll es) ∧
      Progress n s (k + m) x ∧
      (h.softLimit - ((w.bufs h.buf).length : Int) ≤ 0 → m = 0 ∧ x = h.index ∧ es = []) ∧
      (0 < h.softLimit - ((w.bufs h.buf).length : Int) →
        ¬ x ≤ s ∧ (¬ h.index ≤ s → 0 < m)) ∧
      ((n : Int) + s + 1 ≤ LLONG_MAX - 1 →
        (∀ e ∈ es, e.1 = sh ∧ e.2.1 ≤ e.2.2) ∧ h.index ≤ x ∧ (m : Int) ≤ x - h.index) := by
  have hmax : LLONG_MAX = 9223372036854775807 := rfl
  by_cases havail : h.softLimit - ((w.bufs h.buf).length : Int) ≤ 0
  · have hna : ¬ 0 < h.softLimit - ((w.bufs h.buf).length : Int) := by omega
    refine ⟨0, h.index, [], ?_, Or.inl hopen, fun _ => ⟨rfl, rfl, rfl⟩,
      fun h0 => absurd h0 hna, fun _ => ⟨by simp, le_refl _, by simp⟩⟩
    rw [putAipsIO_exhausted putUInt putT ios n data s hsh havail]
    simp [hna, elems, helper_eta, World.store_self hsh]
  · have havail1 : 0 < h.softLimit - ((w.bufs h.buf).length : Int) := by omega
    by_cases hfirst : h.index ≤ s
    · have hk0 : k = 0 := by
        rcases hopen with ⟨_, h2⟩ | ⟨_, h2⟩
        · exact h2
        · omega
      subst hk0
      have hsh1 : (w.write ios (putUInt n)).deref sh = some h := by simpa using hsh
      have hsh2 : (((w.write ios (putUInt n)).store sh { h with index := s + 1 }).recordAll
          [(sh, h.index, s + 1)]).deref sh = some { h with index := s + 1 } := by
        simp [World.deref_store_same hsh1]
      have hstart : startOf (s + 1) s = 0 := by
        have := startOf_resume s 0 (by norm_num)
        simpa using this
      obtain ⟨m, es, hmn, hrun, _, hmono, _⟩ := putData_run putT ios n data s hsh2 (s + 1)
        (h.softLimit - (((w.write ios (putUInt n)).bufs h.buf).length : Int))
      rw [hstart] at hmn hrun hmono
      have hfinal : ¬ finalIdx n s 0 m (s + 1) ≤ s ∧ Progress n s (0 + m) (finalIdx n s 0 m (s + 1)) ∧
          ((n : Int) + s + 1 ≤ LLONG_MAX - 1 →
            s + 1 + (m : Int) ≤ finalIdx n s 0 m (s + 1)) := by
        unfold finalIdx
        by_cases hmn1 : 0 + m = n
        · rw [if_pos hmn1]
          refine ⟨by omega, Or.inr ⟨rfl, hmn1⟩, fun hb => by omega⟩
        · rw [if_neg hmn1]
          have hlt : m < n := by omega
          by_cases hm0 : m = 0
          · subst hm0
            simp only [if_true]
            exact ⟨by omega, Or.inl (Or.inr ⟨hlt, by simp⟩), fun _ => by simp⟩
          · rw [if_neg hm0]
            refine ⟨by omega, Or.inl (Or.inr ⟨by omega, by push_cast; ring⟩),
              fun _ => by push_cast; omega⟩
      refine ⟨m, finalIdx n s 0 m (s + 1), es ++ [(sh, h.index, s + 1)], ?_, hfinal.2.1,
        fun h0 => absurd h0 havail, fun _ => ⟨hfinal.1, fun h0 => absurd hfirst h0⟩, ?_⟩
      · rw [putAipsIO_first putUInt putT ios n data s hsh havail1 hfirst, hrun]
        simp [hfirst, havail1]
      · intro hb
        have hm := hmono (le_refl _) (by simp) hb
        have h3 := hfinal.2.2 hb
        refine ⟨?_, by omega, by omega⟩
        intro e he
        rcases List.mem_append.mp he with he | he
        · exact hm e he
        · simp only [List.mem_singleton] at he
          subst he
          exact ⟨rfl, by simp; omega⟩
    · have hk : k < n ∧ h.index = s + 1 + (k : Int) := by
        rcases hopen with ⟨h1, _⟩ | h2
        · exact absurd h1 hfirst
        · exact h2
      have hstart : startOf h.index s = k := by
        rw [hk.2]
        exact startOf_resume s k (by omega)
      obtain ⟨m, es, hmn, hrun, hprog, hmono, _⟩ := putData_run putT ios n data s hsh h.index
        (h.softLimit - ((w.bufs h.buf).length : Int))
      rw [hstart] at hmn hrun hmono hprog
      have hm0 : 0 < m := hprog havail1 hk.1
      have hfinal : ¬ finalIdx n s k m h.index ≤ s ∧ Progress n s (k + m) (finalIdx n s k m h.index) ∧
          ((n : Int) + s + 1 ≤ LLONG_MAX - 1 →
            h.index + (m : Int) ≤ finalIdx n s k m h.index) := by
        unfold finalIdx
        by_cases hmn1 : k + m = n
        · rw [if_pos hmn1]
          refine ⟨by omega, Or.inr ⟨rfl, hmn1⟩, fun hb => by omega⟩
        · rw [if_neg hmn1, if_neg (by omega)]
          refine ⟨by omega, Or.inl (Or.inr ⟨by omega, by push_cast; ring⟩),
            fun _ => by push_cast; omega⟩
      refine ⟨m, finalIdx n s k m h.index, es, ?_, hfinal.2.1,
        fun h0 => absurd h0 havail, fun _ => ⟨hfinal.1, fun _ => hm0⟩, ?_⟩
      · rw [putAipsIO_resume putUInt putT ios n data s hsh havail1 hfirst, hrun]
        simp [hfirst]
      · intro hb
        have hm := hmono (le_refl _) (by omega) hb
        have h3 := hfinal.2.2 hb
        exact ⟨hm, by omega, by omega⟩

theorem startOf_done (s : Int) (hs0 : 0 ≤ s) (hs : s ≤ 4294967293) :
    (startOf (LLONG_MAX - 1) s : Int) = 4294967293 - s := by
  have h32 : (2 : Int) ^ 32 = 4294967296 := by norm_num
  have hmax : LLONG_MAX = 9223372036854775807 := rfl
  simp only [startOf, h32, hmax]
  omega

/-- The bounds that follow when a call on a finished region does not resume
below `n`. -/
theorem reentry_bound {n : Nat} {s : Int} (hs : s < LLONG_MAX - 1)
    (hre : n ≤ startOf (LLONG_MAX - 1) s) :
    n < 2 ^ 32 ∧ (n : Int) + s + 1 ≤ LLONG_MAX - 1 := by
  have h32 : (2 : Int) ^ 32 = 4294967296 := by norm_num
  have h32n : (2 : Nat) ^ 32 = 4294967296 := by norm_num
  have hmax : LLONG_MAX = 9223372036854775807 := rfl
  simp only [startOf, h32, hmax] at hre
  rw [hmax] at hs ⊢
  rw [h32n]
  omega

theorem reentry_of_bound {n : Nat} {s : Int} (hs0 : 0 ≤ s)
    (hbound : (n : Int) < 2 ^ 32 - 3 - s) :
    s < LLONG_MAX - 1 ∧ n ≤ startOf (LLONG_MAX - 1) s := by
  have h32 : (2 : Int) ^ 32 = 4294967296 := by norm_num
  have hmax : LLONG_MAX = 9223372036854775807 := rfl
  rw [h32] at hbound
  have hstart := startOf_done s hs0 (by omega)
  rw [hmax] at hstart ⊢
  omega

/-- A call of `putAipsIO` on a finished region, when the position
`(uInt)(LLONG_MAX-1) - shStartIdx - 1` at which it resumes is not below `n`:
nothing is written and every call of `update` passes the completion value. -/
theorem putAipsIO_reentry (putUInt : Nat → List Byte) (putT : T → List Byte) (ios n : Nat)
    (data : Nat → T) (s : Int) (hs : s < LLONG_MAX - 1)
    (hre : n ≤ startOf (LLONG_MAX - 1) s)
    {sh : Ptr} {w : World} {h : SerializeHelper}
    (hsh : w.deref sh = some h) (hdone : h.index = LLONG_MAX - 1) :
    ∃ es : List (Ptr × Int × Int),
      putAipsIO putUInt putT ios n data sh s w = (.ok (), w.recordAll es) ∧
      ∀ e ∈ es, e = (sh, LLONG_MAX - 1, LLONG_MAX - 1) := by
  by_cases havail : h.softLimit - ((w.bufs h.buf).length : Int) ≤ 0
  · exact ⟨[], by simpa using putAipsIO_exhausted putUInt putT ios n data s hsh havail,
      fun e he => absurd he (List.not_mem_nil e)⟩
  · have havail1 : 0 < h.softLimit - ((w.bufs h.buf).length : Int) := by omega
    have hfirst : ¬ h.index ≤ s := by omega
    have hst : ((h.index % 2 ^ 32 - s - 1) % 2 ^ 32).toNat = startOf h.index s := rfl
    have hfuel : n - startOf h.index s = 0 := by
      rw [hdone]
      exact Nat.sub_eq_zero_of_le hre
    have hw : w.store sh { h with index := h.index } = w := by
      rw [helper_eta, World.store_self hsh]
    have hw2 : w.store sh { h with index := LLONG_MAX - 1 } = w := by
      rw [← hdone]
      exact hw
    have hloop : putLoop putT ios n data sh s (n - startOf h.index s) (startOf h.index s)
        h.index (h.softLimit - ((w.bufs h.buf).length : Int)) w =
        (.ok (startOf h.index s, h.index), w) := by
      rw [hfuel]
      rfl
    rw [putAipsIO_resume putUInt putT ios n data s hsh havail1 hfirst]
    simp only [putData, hst, bind_run, hloop, SerializeHelper.update_run hsh]
    by_cases hfin : startOf h.index s = n
    · refine ⟨[(sh, h.index, LLONG_MAX - 1), (sh, h.index, h.index)], ?_, ?_⟩
      · rw [if_pos hfin]
        simp only [bind_run, update_normal hsh, pure_run, hw2]
      · intro e he
        rw [hdone] at he
        simp only [List.mem_cons] at he
        rcases he with he | he | he
        · exact he
        · exact he
        · exact absurd he (List.not_mem_nil e)
    · refine ⟨[(sh, h.index, h.index)], ?_, ?_⟩
      · rw [if_neg hfin, hw]
        rfl
      · intro e he
        rw [hdone] at he
        simpa using he

/-- A call of `putAipsIO` on a finished region whose count is below
`2^32 - 3 - shStartIdx`: nothing is written and the index stays the completion
value. -/
theorem putAipsIO_done (putUInt : Nat → List Byte) (putT : T → List Byte) (ios n : Nat)
    (data : Nat → T) (s : Int) (hs0 : 0 ≤ s) (hbound : (n : Int) < 2 ^ 32 - 3 - s)
    {sh : Ptr} {w : World} {h : SerializeHelper}
    (hsh : w.deref sh = some h) (hdone : h.index = LLONG_MAX - 1) :
    ∃ es : List (Ptr × Int × Int),
      putAipsIO putUInt putT ios n data sh s w = (.ok (), w.recordAll es) ∧
      ∀ e ∈ es, e = (sh, LLONG_MAX - 1, LLONG_MAX - 1) := by
  have h32 : (2 : Int) ^ 32 = 4294967296 := by norm_num
  have hmax : LLONG_MAX = 9223372036854775807 := rfl
  rw [h32] at hbound
  by_cases havail : h.softLimit - ((w.bufs h.buf).length : Int) ≤ 0
  · exact ⟨[], by simpa using putAipsIO_exhausted putUInt putT ios n data s hsh havail,
      fun e he => absurd he (List.not_mem_nil e)⟩
  · have havail1 : 0 < h.softLimit - ((w.bufs h.buf).length : Int) := by omega
    have hfirst : ¬ h.index ≤ s := by omega
    have hstart := startOf_done s hs0 (by omega)
    obtain ⟨m, es, hmn, hrun, _, _, hes⟩ := putData_run putT ios n data s hsh h.index
      (h.softLimit - ((w.bufs h.buf).length : Int))
    rw [hdone] at hmn hrun hes
    have hm0 : m = 0 := by
      rcases hmn with h0 | h0
      · exact h0
      · omega
    subst hm0
    have hes1 := hes rfl (by omega)
    have hfin : finalIdx n s (startOf (LLONG_MAX - 1) s) 0 (LLONG_MAX - 1) = LLONG_MAX - 1 := by
      unfold finalIdx
      rw [if_neg (by omega)]
      simp
    refine ⟨es, ?_, ?_⟩
    · rw [putAipsIO_resume putUInt putT ios n data s hsh havail1 hfirst, hdone, hrun, hfin,
        ← hdone]
      simp [elems, helper_eta, World.store_self hsh]
    · intro e he
      rw [hes1] at he
      simpa using he

end PutAipsIO

/-! ## Sequences of calls -/

section Sessions

variable {T : Type}

theorem clearMemory_run {sh : Ptr} {w : World} {h : SerializeHelper}
    (hsh : w.deref sh = some h) :
    SerializeHelper.clearMemory sh w = (.ok (), w.clear h.buf) := by
  simp [SerializeHelper.clearMemory, load_run hsh]

@[simp] theorem World.deref_clear (w : World) (b : Nat) (p : Ptr) :
    (w.clear b).deref p = w.deref p := by
  cases p <;> rfl

@[simp] theorem World.updates_clear (w : World) (b : Nat) :
    (w.clear b).updates = w.updates := rfl

/-- Between two calls only the contents of the buffer change. -/
theorem clearIf_run {sh : Ptr} {w : World} {h : SerializeHelper}
    (hsh : w.deref sh = some h) (c : Bool) :
    ∃ w1, clearIf c sh w = (.ok (), w1) ∧ w1.deref sh = some h ∧ w1.updates = w.updates ∧
      w1.heap = w.heap := by
  cases c
  · exact ⟨w, rfl, hsh, rfl, rfl⟩
  · exact ⟨w.clear h.buf, by simpa [clearIf] using clearMemory_run hsh, by simpa using hsh,
      rfl, rfl⟩

theorem appended_normal (ios : Nat) (m : Exec Unit) (w : World) (bytes : List Byte) (p : Ptr)
    (x : SerializeHelper) (es : List (Ptr × Int × Int))
    (hm : m w = (.ok (), ((w.write ios bytes).store p x).recordAll es)) :
    appended ios m w = (.ok bytes, ((w.write ios bytes).store p x).recordAll es) := by
  simp [appended, hm]

theorem deref_normal {sh : Ptr} {w : World} {h : SerializeHelper} (hsh : w.deref sh = some h)
    (ios : Nat) (bytes : List Byte) (x : SerializeHelper) (es : List (Ptr × Int × Int)) :
    (((w.write ios bytes).store sh x).recordAll es).deref sh = some x := by
  rw [World.deref_recordAll]
  exact World.deref_store_same (h := h) (by rw [World.deref_write]; exact hsh) x

/-- What `chunked` does from a state whose index stands for `k` elements
written. -/
theorem chunked_run (putUInt : Nat → List Byte) (putT : T → List Byte) (ios n : Nat)
    (data : Nat → T) (s : Int) (hn : n < 2 ^ 32) (hs : s < LLONG_MAX - 1) (sh : Ptr) :
    ∀ (clears : List Bool) (w : World) (h : SerializeHelper) (k : Nat),
      w.deref sh = some h → Progress n s k h.index →
      ∃ (k1 : Nat) (x1 : Int) (w1 : World),
        chunked putUInt putT ios n data sh s clears w =
          (.ok ((if h.index ≤ s ∧ ¬ x1 ≤ s then putUInt n else []) ++
            elems putT data (k1 - k) k), w1) ∧
        w1.deref sh = some { h with index := x1 } ∧
        Progress n s k1 x1 ∧ k ≤ k1 ∧ (¬ h.index ≤ s → ¬ x1 ≤ s)
  | [], w, h, k, hsh, hp => by
    refine ⟨k, h.index, w, ?_, by simpa [helper_eta] using hsh, hp, le_refl _, id⟩
    simp [chunked, elems]
  | c :: cs, w, h, k, hsh, hp => by
    have hne := World.ne_NULL_of_deref hsh
    by_cases hdone : h.index = LLONG_MAX - 1
    · refine ⟨k, h.index, w, ?_, by simpa [helper_eta] using hsh, hp, le_refl _, id⟩
      simp [chunked, SerializeHelper.Static.getIndex, hne, load_run hsh, hdone, elems]
    · have hopen : Open n s k h.index := by
        rcases hp with h1 | ⟨h1, _⟩
        · exact h1
        · exact absurd h1 hdone
      obtain ⟨wc, hclear, hshc, _, _⟩ := clearIf_run hsh c
      obtain ⟨m, x, es, hrun, hprog, hzero, hpos, _⟩ :=
        putAipsIO_open putUInt putT ios n data s hn hs hshc hopen
      generalize hB : ((if h.index ≤ s ∧ 0 < h.softLimit - ((wc.bufs h.buf).length : Int)
        then putUInt n else []) ++ elems putT data m k) = B at hrun
      obtain ⟨k1, x1, w1, hrest, hsh2, hprog1, hk1, hbegun⟩ :=
        chunked_run putUInt putT ios n data s hn hs sh cs _ _ (k + m)
          (deref_normal hshc ios B { h with index := x } es) hprog
      refine ⟨k1, x1, w1, ?_, by simpa using hsh2, hprog1, by omega, ?_⟩
      · simp only [chunked, bind_run, SerializeHelper.Static.getIndex, hne, if_false,
          load_run hsh, pure_run, hdone, hclear,
          appended_normal _ _ _ _ _ _ _ hrun, hrest]
        refine Prod.ext ?_ rfl
        simp only
        congr 1
        rw [← hB]
        by_cases havail : 0 < h.softLimit - ((wc.bufs h.buf).length : Int)
        · have hx := (hpos havail).1
          have hx1 := hbegun hx
          have e1 : k1 - k = m + (k1 - (k + m)) := by omega
          simp [havail, hx, hx1, e1, elems_add]
        · obtain ⟨hm0, hxe, _⟩ := hzero (by omega)
          subst hm0
          simp [havail, hxe, elems]
      · intro hb
        by_cases havail : 0 < h.softLimit - ((wc.bufs h.buf).length : Int)
        · exact hbegun (hpos havail).1
        · obtain ⟨_, hxe, _⟩ := hzero (by omega)
          apply hbegun
          simpa [hxe] using hb

/-- What `calls` does from a state whose index stands for `k` elements
written, for a region on which a call after the last element does not resume
below `n`. -/
theorem calls_run_le (putUInt : Nat → List Byte) (putT : T → List Byte) (ios n : Nat)
    (data : Nat → T) (s : Int) (hs : s < LLONG_MAX - 1)
    (hre : n ≤ startOf (LLONG_MAX - 1) s) (sh : Ptr) :
    ∀ (clears : List Bool) (w : World) (h : SerializeHelper) (k : Nat),
      w.deref sh = some h → Progress n s k h.index →
      ∃ (k1 : Nat) (x1 : Int) (w1 : World) (es : List (Ptr × Int × Int)),
        calls putUInt putT ios n data sh s clears w =
          (.ok ((if h.index ≤ s ∧ ¬ x1 ≤ s then putUInt n else []) ++
            elems putT data (k1 - k) k), w1) ∧
        w1.deref sh = some { h with index := x1 } ∧
        Progress n s k1 x1 ∧ k ≤ k1 ∧ (¬ h.index ≤ s → ¬ x1 ≤ s) ∧
        w1.updates = es ++ w.updates ∧ (∀ e ∈ es, e.1 = sh ∧ e.2.1 ≤ e.2.2) ∧
        h.index ≤ x1 ∧ ((k1 - k : Nat) : Int) ≤ x1 - h.index
  | [], w, h, k, hsh, hp => by
    refine ⟨k, h.index, w, [], ?_, by simpa [helper_eta] using hsh, hp, le_refl _, id, rfl,
      fun e he => absurd he (List.not_mem_nil e), le_refl _, by simp⟩
    simp [calls, elems]
  | c :: cs, w, h, k, hsh, hp => by
    obtain ⟨hn, hb⟩ := reentry_bound hs hre
    obtain ⟨wc, hclear, hshc, hupd, _⟩ := clearIf_run hsh c
    rcases hp with hopen | ⟨hdone, hkn⟩
    · obtain ⟨m, x, es, hrun, hprog, hzero, hpos, hmono⟩ :=
        putAipsIO_open putUInt putT ios n data s hn hs hshc hopen
      obtain ⟨hmono1, hle, hcount⟩ := hmono hb
      generalize hB : ((if h.index ≤ s ∧ 0 < h.softLimit - ((wc.bufs h.buf).length : Int)
        then putUInt n else []) ++ elems putT data m k) = B at hrun
      obtain ⟨k1, x1, w1, es1, hrest, hsh2, hprog1, hk1, hbegun, hupd1, hmono2, hle1, hcount1⟩ :=
        calls_run_le putUInt putT ios n data s hs hre sh cs _ _ (k + m)
          (deref_normal hshc ios B { h with index := x } es) hprog
      refine ⟨k1, x1, w1, es1 ++ es, ?_, by simpa using hsh2, hprog1, by omega, ?_, ?_, ?_,
        ?_, ?_⟩
      · simp only [calls, bind_run, hclear, appended_normal _ _ _ _ _ _ _ hrun, hrest]
        refine Prod.ext ?_ rfl
        simp only
        rw [← hB]
        by_cases havail : 0 < h.softLimit - ((wc.bufs h.buf).length : Int)
        · have hx := (hpos havail).1
          have hx1 := hbegun hx
          have e1 : k1 - k = m + (k1 - (k + m)) := by omega
          simp [havail, hx, hx1, e1, elems_add]
        · obtain ⟨hm0, hxe, _⟩ := hzero (by omega)
          subst hm0
          simp [havail, hxe, elems]
      · intro hbeg
        by_cases havail : 0 < h.softLimit - ((wc.bufs h.buf).length : Int)
        · exact hbegun (hpos havail).1
        · obtain ⟨_, hxe, _⟩ := hzero (by omega)
          apply hbegun
          simpa [hxe] using hbeg
      · rw [hupd1]
        simp [hupd]
      · intro e he
        rcases List.mem_append.mp he with he | he
        · exact hmono2 e he
        · exact hmono1 e he
      · simp only at hle1
        omega
      · simp only at hcount1
        omega
    · obtain ⟨es, hrun, hes⟩ := putAipsIO_reentry putUInt putT ios n data s hs hre hshc hdone
      have hshd : (wc.recordAll es).deref sh = some h := by simpa using hshc
      obtain ⟨k1, x1, w1, es1, hrest, hsh2, hprog1, hk1, hbegun, hupd1, hmono2, hle1, hcount1⟩ :=
        calls_run_le putUInt putT ios n data s hs hre sh cs _ _ k hshd (Or.inr ⟨hdone, hkn⟩)
      refine ⟨k1, x1, w1, es1 ++ es, ?_, hsh2, hprog1, hk1, hbegun, ?_, ?_, hle1, hcount1⟩
      · simp only [calls, bind_run, hclear, appended, hrun, hrest]
        simp
      · rw [hupd1]
        simp [hupd]
      · intro e he
        rcases List.mem_append.mp he with he | he
        · exact hmono2 e he
        · rw [hes e he]
          exact ⟨rfl, le_refl _⟩

/-- What `calls` does from a state whose index stands for `k` elements
written, for a region with `0 ≤ shStartIdx` and `n < 2^32 - 3 - shStartIdx`. -/
theorem calls_run (putUInt : Nat → List Byte) (putT : T → List Byte) (ios n : Nat)
    (data : Nat → T) (s : Int) (hs0 : 0 ≤ s) (hbound : (n : Int) < 2 ^ 32 - 3 - s) (sh : Ptr)
    (clears : List Bool) (w : World) (h : SerializeHelper) (k : Nat)
    (hsh : w.deref sh = some h) (hp : Progress n s k h.index) :
    ∃ (k1 : Nat) (x1 : Int) (w1 : World) (es : List (Ptr × Int × Int)),
      calls putUInt putT ios n data sh s clears w =
        (.ok ((if h.index ≤ s ∧ ¬ x1 ≤ s then putUInt n else []) ++
          elems putT data (k1 - k) k), w1) ∧
      w1.deref sh = some { h with index := x1 } ∧
      Progress n s k1 x1 ∧ k ≤ k1 ∧ (¬ h.index ≤ s → ¬ x1 ≤ s) ∧
      w1.updates = es ++ w.updates ∧ (∀ e ∈ es, e.1 = sh ∧ e.2.1 ≤ e.2.2) ∧
      h.index ≤ x1 ∧ ((k1 - k : Nat) : Int) ≤ x1 - h.index :=
  calls_run_le putUInt putT ios n data s (reentry_of_bound hs0 hbound).1
    (reentry_of_bound hs0 hbound).2 sh clears w h k hsh hp

end Sessions

section Readers

variable {T : Type}

end Readers

namespace SerializeHelper

theorem keys_count_of_lookup {m : AList (fun _ : Ptr => Ptr)} {o c : Ptr}
    (h : m.lookup o = some c) : m.keys.count o = 1 := by
  have hmem : o ∈ m := by
    rw [← AList.lookup_isSome, h]; rfl
  exact List.count_eq_one_of_mem m.keys_nodup (AList.mem_keys.mpr hmem)

/-- From a state in which the origin holds a live, non-origin state `c` for the
object: setting the index of `c`, reporting the object serialized and looking
it up again gives a new state with index 0. -/
theorem restart_run {w : World} {org o c : Ptr} {self st : SerializeHelper} (k : Int)
    (hobj : o ≠ NULL) (horg : w.deref org = some self) (horigin : self.origin = NULL)
    (hfind : self.instances.lookup o = some c) (hc : w.deref c = some st)
    (hchild : st.origin ≠ NULL) :
    ∃ (c2 : Ptr) (avail : Int) (w2 : World) (self2 st2 : SerializeHelper),
      (do
        let _ ← Static.update c k
        Static.objectSerialized org o
        Static.getInstance org o : Exec (Ptr × Int × Int)) w = (.ok (c2, 0, avail), w2) ∧
      w2.deref org = some self2 ∧ self2.instances.lookup o = some c2 ∧
      self2.instances.keys.count o = 1 ∧ w2.deref c2 = some st2 ∧ st2.index = 0 := by
  have hcn := World.ne_NULL_of_deref hc
  have hne : org ≠ c := by
    rintro rfl
    rw [horg] at hc
    injection hc with hc
    exact hchild (hc ▸ horigin)
  -- after `update`
  have hc1 : ((w.store c { st with index := k }).recordAll [(c, st.index, k)]).deref c =
      some { st with index := k } := by
    simp [World.deref_store_same hc]
  have horg1 : ((w.store c { st with index := k }).recordAll [(c, st.index, k)]).deref org =
      some self := by
    simp [World.deref_store_ne _ hne, horg]
  -- after `objectSerialized`
  have hser := objectSerialized_present horg1 horigin hfind hc1 hchild
  have horg2 : ((((w.store c { st with index := k }).recordAll [(c, st.index, k)]).free c).store
      org { self with instances := self.instances.erase o }).deref org =
      some { self with instances := self.instances.erase o } := by
    apply World.deref_store_same (h := self)
    rw [World.deref_free_ne _ hne, horg1]
  have hfind2 : ({ self with instances := self.instances.erase o } :
      SerializeHelper).instances.lookup o = none := by
    simp
  have hget := getInstance_absent horg2 horigin hfind2
  generalize hw3 : ((((w.store c { st with index := k }).recordAll [(c, st.index, k)]).free c).store
      org { self with instances := self.instances.erase o }) = w3 at hser horg2 hget
  have hnew : ({ self with instances :=
      (self.instances.erase o).insert o (w3.heap.length + 1) } :
      SerializeHelper).instances.lookup o = some (w3.heap.length + 1) := by
    simp
  refine ⟨w3.heap.length + 1, self.softLimit - ((w3.bufs self.buf).length : Int),
    afterMint w3 org o { self with instances := self.instances.erase o },
    _, _, ?_, World.deref_afterMint_this horg2 o, hnew,
    keys_count_of_lookup hnew, World.deref_afterMint_new horg2 o, rfl⟩
  simp only [bind_run, Static.update, hcn, if_false, update_run hc,
    Static.objectSerialized_of_origin hobj horg1 horigin, hser,
    Static.getInstance_of_origin hobj horg2 horigin, hget]

end SerializeHelper

namespace SerializeHelper

/-- From a state in which the origin holds a live, non-origin state `c` for the
object: reporting the object serialized and looking it up again gives a new
state with index 0. -/
theorem complete_run {w : World} {org o c : Ptr} {self st : SerializeHelper}
    (hobj : o ≠ NULL) (horg : w.deref org = some self) (horigin : self.origin = NULL)
    (hfind : self.instances.lookup o = some c) (hc : w.deref c = some st)
    (hchild : st.origin ≠ NULL) :
    ∃ (c2 : Ptr) (avail : Int) (w2 : World) (st2 : SerializeHelper),
      (do
        Static.objectSerialized org o
        Static.getInstance org o : Exec (Ptr × Int × Int)) w = (.ok (c2, 0, avail), w2) ∧
      w2.deref c2 = some st2 ∧ st2.index = 0 ∧ w.deref c2 = none := by
  have hne : org ≠ c := by
    rintro rfl
    rw [horg] at hc
    injection hc with hc
    exact hchild (hc ▸ horigin)
  have hser := objectSerialized_present horg horigin hfind hc hchild
  have horg2 : ((w.free c).store org { self with instances := self.instances.erase o }).deref
      org = some { self with instances := self.instances.erase o } := by
    apply World.deref_store_same (h := self)
    rw [World.deref_free_ne _ hne, horg]
  have hfind2 : ({ self with instances := self.instances.erase o } :
      SerializeHelper).instances.lookup o = none := by
    simp
  have hget := getInstance_absent horg2 horigin hfind2
  have hlen : ((w.free c).store org { self with instances := self.instances.erase o }).heap.length
      = w.heap.length := by
    cases c <;> simp [World.free]
  generalize hw3 : ((w.free c).store org { self with instances := self.instances.erase o }) = w3
    at hser horg2 hget hlen
  refine ⟨w3.heap.length + 1, self.softLimit - ((w3.bufs self.buf).length : Int),
    afterMint w3 org o { self with instances := self.instances.erase o }, _, ?_,
    World.deref_afterMint_new horg2 o, rfl, ?_⟩
  · simp only [bind_run, Static.objectSerialized_of_origin hobj horg horigin, hser,
      Static.getInstance_of_origin hobj horg2 horigin, hget]
  · rw [hlen]
    exact World.deref_fresh w

end SerializeHelper

/-! ## The claims -/

/-- C3: a call of putAipsIO on a live (hence non-null) instance that finds
available = softLimit - buffer length not above 0, 0 included, appends no byte,
not even the count, and leaves the index and the rest of the state as they
were. -/
theorem putAipsIO_nothing_available {T : Type} (putUInt : Nat → List Byte)
    (putT : T → List Byte) (ios n : Nat) (data : Nat → T) (sh : Ptr) (s : Int) (w : World)
    (h : SerializeHelper) (hsh : w.deref sh = some h)
    (havail : h.softLimit - ((w.bufs h.buf).length : Int) ≤ 0) :
    putAipsIO putUInt putT ios n data sh s w = (.ok (), w) ∧
    appended ios ( putAipsIO putUInt putT ios n data sh s) w = (.ok [], w) := by
  have hrun := putAipsIO_exhausted putUInt putT ios n data s hsh havail
  exact ⟨hrun, by simp [appended, hrun]⟩

/-- Witness of C3: available is exactly 0 for a soft limit of 0 and an empty
buffer. -/
theorem putAipsIO_nothing_available_witness :
    putAipsIO exampleUInt exampleT 0 5 exampleData 2 0 (World.registered 0) =
      (.ok (), World.registered 0) ∧
    appended 0 ( putAipsIO exampleUInt exampleT 0 5 exampleData 2 0) (World.registered 0) =
      (.ok [], World.registered 0) :=
  putAipsIO_nothing_available exampleUInt exampleT 0 5 exampleData 2 0 (World.registered 0)
    (registeredState 0) rfl (by decide)

/-- C1 as stated fails: with start offset LLONG_MAX-3, two elements and a soft
limit of 1, the index written after element 0 is LLONG_MAX-1, the completion
value; the calls up to there have appended the count and element 0 only, while
the call without a SerializeHelper appends the count and both elements. -/
theorem chunked_stops_early :
    (chunked exampleUInt exampleT 0 2 exampleData 2 (LLONG_MAX - 3) [true, true]
      (World.registered 1)).1 = .ok [0, 0, 0, 2, 10] ∧
    ((chunked exampleUInt exampleT 0 2 exampleData 2 (LLONG_MAX - 3) [true, true]
      (World.registered 1)).2.deref 2).map (fun h => h.index) = some (LLONG_MAX - 1) ∧
    (appended 0 ( putAipsIO exampleUInt exampleT 0 2 exampleData NULL (LLONG_MAX - 3))
      (World.registered 1)).1 = .ok [0, 0, 0, 2, 10, 11] :=
  ⟨rfl, by decide!, rfl⟩

/-- C1, amended: for every count n (a uInt), every array, every soft limit and
buffer content, and every start offset s with s + n < LLONG_MAX - 1 (s >= 0
or not), starting from a live instance whose index is not above s (a fresh
one has index 0), if
putAipsIO is called with the buffer cleared or not before each call until the
index is the completion value LLONG_MAX-1, then the bytes appended by the
calls, in call order, are the bytes appended by one call without a
SerializeHelper: the count, then element 0 to element n-1, each once. -/
theorem chunked_eq_unchunked {T : Type} (putUInt : Nat → List Byte) (putT : T → List Byte)
    (ios n : Nat) (data : Nat → T) (sh : Ptr) (s : Int) (clears : List Bool) (w w0 : World)
    (h : SerializeHelper) (hn : n < 2 ^ 32) (hsh : w.deref sh = some h)
    (hfresh : h.index ≤ s) (hbound : s + (n : Int) < LLONG_MAX - 1)
    (hdone : ((chunked putUInt putT ios n data sh s clears w).2.deref sh).map
      (fun h => h.index) = some (LLONG_MAX - 1)) :
    (chunked putUInt putT ios n data sh s clears w).1 =
      .ok (putUInt n ++ elems putT data n 0) ∧
    (appended ios ( putAipsIO putUInt putT ios n data NULL s) w0).1 =
      .ok (putUInt n ++ elems putT data n 0) := by
  have hs : s < LLONG_MAX - 1 := by omega
  obtain ⟨k1, x1, w1, hrun, hsh1, hprog, _, _⟩ :=
    chunked_run putUInt putT ios n data s hn hs sh clears w h 0 hsh (Or.inl (Or.inl ⟨hfresh, rfl⟩))
  rw [hrun] at hdone ⊢
  simp only [hsh1, Option.map_some', Option.some.injEq] at hdone
  have hk1 : k1 = n := by
    rcases hprog with (⟨h1, _⟩ | ⟨h1, h2⟩) | ⟨_, h2⟩
    · omega
    · omega
    · exact h2
  have hx1 : ¬ x1 ≤ s := by omega
  refine ⟨?_, ?_⟩
  · simp [hfresh, hx1, hk1]
  · simp [appended, putAipsIO_null]

/-- Witness of C1: n = 250 elements of one byte, a soft limit of 64 bytes, the
buffer cleared before each of three calls. -/
theorem chunked_eq_unchunked_witness :
    (chunked exampleUInt exampleT 0 250 exampleData 2 0 [true, true, true]
      (World.registered 64)).1 = .ok (exampleUInt 250 ++ elems exampleT exampleData 250 0) ∧
    (appended 0 ( putAipsIO exampleUInt exampleT 0 250 exampleData NULL 0)
      (World.fresh 64)).1 = .ok (exampleUInt 250 ++ elems exampleT exampleData 250 0) :=
  chunked_eq_unchunked exampleUInt exampleT 0 250 exampleData 2 0 [true, true, true]
    (World.registered 64) (World.fresh 64) (registeredState 64)
    (by decide) rfl (by decide) (by decide) (by decide!)

open SerializeHelper in
/-- C9: with a null registry, static getInstance returns the null state with
idx = -1 and avail = LLONG_MAX for every object identity and raises no error;
on the null state getIndex returns -1, getAvailable and update return
LLONG_MAX, and objectSerialized does nothing. -/
theorem null_helper_unconstrained (object : Ptr) (index : Int) (w : World) :
    Static.getInstance NULL object w = (.ok (NULL, -1, LLONG_MAX), w) ∧
    Static.getIndex NULL w = (.ok (-1), w) ∧
    Static.getAvailable NULL w = (.ok LLONG_MAX, w) ∧
    Static.update NULL index w = (.ok LLONG_MAX, w) ∧
    Static.objectSerialized NULL object w = (.ok (), w) := by
  refine ⟨?_, ?_, ?_, ?_, ?_⟩ <;> rfl

open SerializeHelper in
/-- C4: getInstance on an origin instance with a non-null object. Without an
entry for the object a new state with index 0 is created at an address that
was not live, entered for the object, and idx = 0 and avail = the softLimit of
the origin minus the length of its buffer are reported; with an entry the
state entered is returned with its index and its available and nothing
changes. In both cases the entries of the other objects and every object that
was live keep their values, and a second call returns the same state. -/
theorem getInstance_on_origin (w : World) (this object : Ptr) (self : SerializeHelper)
    (hobj : object ≠ NULL) (hthis : w.deref this = some self) (horigin : self.origin = NULL)
    (hlive : ∀ c, self.instances.lookup object = some c → ∃ st, w.deref c = some st) :
    ∃ c st w1 self1,
      Static.getInstance this object w =
        (.ok (c, st.index, st.softLimit - ((w.bufs st.buf).length : Int)), w1) ∧
      w1.deref c = some st ∧ w1.deref this = some self1 ∧
      self1.instances.lookup object = some c ∧
      (self.instances.lookup object = none →
        w.deref c = none ∧ st.index = 0 ∧ st.origin = this ∧
        st.softLimit - ((w.bufs st.buf).length : Int) =
          self.softLimit - ((w.bufs self.buf).length : Int)) ∧
      (∀ c0, self.instances.lookup object = some c0 → c = c0 ∧ w1 = w) ∧
      (∀ o, o ≠ object → self1.instances.lookup o = self.instances.lookup o) ∧
      (∀ p h, w.deref p = some h →
        ∃ h1, w1.deref p = some h1 ∧ h1.index = h.index ∧ (p ≠ this → h1 = h)) ∧
      w1.bufs = w.bufs ∧
      Static.getInstance this object w1 =
        (.ok (c, st.index, st.softLimit - ((w.bufs st.buf).length : Int)), w1) := by
  rw [Static.getInstance_of_origin hobj hthis horigin]
  cases hfind : self.instances.lookup object with
  | some c0 =>
    obtain ⟨st, hst⟩ := hlive c0 hfind
    refine ⟨c0, st, w, self, getInstance_present hthis horigin hfind hst, hst, hthis, hfind,
      fun h => Option.noConfusion h, ?_, fun _ _ => rfl, ?_, rfl, ?_⟩
    · intro c1 h1
      injection h1 with h1
      exact ⟨h1, rfl⟩
    · intro p h hp
      exact ⟨h, hp, rfl, fun _ => rfl⟩
    · rw [Static.getInstance_of_origin hobj hthis horigin]
      exact getInstance_present hthis horigin hfind hst
  | none =>
    have hnew := World.deref_afterMint_new hthis object
    have hself := World.deref_afterMint_this hthis object
    have hfind1 : ({ self with instances := self.instances.insert object (w.heap.length + 1) } :
        SerializeHelper).instances.lookup object = some (w.heap.length + 1) := by
      simp
    refine ⟨w.heap.length + 1, minted this self, afterMint w this object self, _,
      getInstance_absent hthis horigin hfind, hnew, hself, hfind1, ?_, ?_, ?_, ?_, by simp, ?_⟩
    · intro _
      exact ⟨World.deref_fresh w, rfl, rfl, rfl⟩
    · intro c0 h0
      exact Option.noConfusion h0
    · intro o ho
      simp [AList.lookup_insert_ne ho]
    · intro p h hp
      by_cases hpt : p = this
      · subst hpt
        rw [hthis] at hp
        injection hp with hp
        subst hp
        exact ⟨_, hself, rfl, fun hne => absurd rfl hne⟩
      · refine ⟨h, ?_, rfl, fun _ => rfl⟩
        rw [World.deref_afterMint_ne w self object hpt (World.ne_fresh_of_deref hp), hp]
    · rw [Static.getInstance_of_origin hobj hself horigin]
      have := getInstance_present hself horigin hfind1 hnew
      simpa [minted, init] using this

open SerializeHelper in
/-- Witness of C4: the first object registered with a freshly constructed
origin. -/
theorem getInstance_on_origin_witness :
    ∃ c st w1 self1,
      Static.getInstance 1 7 (World.fresh 1000) =
        (.ok (c, st.index, st.softLimit - (((World.fresh 1000).bufs st.buf).length : Int)), w1) ∧
      w1.deref c = some st ∧ w1.deref 1 = some self1 ∧
      self1.instances.lookup 7 = some c ∧
      ((init 1000 0).instances.lookup 7 = none →
        (World.fresh 1000).deref c = none ∧ st.index = 0 ∧ st.origin = 1 ∧
        st.softLimit - (((World.fresh 1000).bufs st.buf).length : Int) =
          (init 1000 0).softLimit - (((World.fresh 1000).bufs (init 1000 0).buf).length : Int)) ∧
      (∀ c0, (init 1000 0).instances.lookup 7 = some c0 → c = c0 ∧ w1 = World.fresh 1000) ∧
      (∀ o, o ≠ 7 → self1.instances.lookup o = (init 1000 0).instances.lookup o) ∧
      (∀ p h, (World.fresh 1000).deref p = some h →
        ∃ h1, w1.deref p = some h1 ∧ h1.index = h.index ∧ (p ≠ 1 → h1 = h)) ∧
      w1.bufs = (World.fresh 1000).bufs ∧
      Static.getInstance 1 7 w1 =
        (.ok (c, st.index, st.softLimit - (((World.fresh 1000).bufs st.buf).length : Int)), w1) :=
  getInstance_on_origin (World.fresh 1000) 1 7 (init 1000 0) (by decide) rfl rfl
    (fun c h => by simp [init] at h)

open SerializeHelper in
/-- C5: objectSerialized on an origin instance with a non-null object fails if
and only if the object has no entry in instances. When it fails nothing
changes; when it succeeds the state entered for the object is released, the
entry of exactly that object is erased, and the entries of the other objects
and every other live object keep their values. -/
theorem objectSerialized_on_origin (w : World) (this object : Ptr) (self : SerializeHelper)
    (hobj : object ≠ NULL) (hthis : w.deref this = some self) (horigin : self.origin = NULL)
    (hwf : ∀ c, self.instances.lookup object = some c →
      ∃ child, w.deref c = some child ∧ child.origin ≠ NULL) :
    ((∃ e, (Static.objectSerialized this object w).1 = .error e) ↔
      self.instances.lookup object = none) ∧
    (self.instances.lookup object = none →
      Static.objectSerialized this object w = (.error (.notFound object), w)) ∧
    (∀ c, self.instances.lookup object = some c →
      ∃ w1 self1, Static.objectSerialized this object w = (.ok (), w1) ∧
        w1.deref this = some self1 ∧
        self1 = { self with instances := self.instances.erase object } ∧
        self1.instances.lookup object = none ∧
        (∀ o, o ≠ object → self1.instances.lookup o = self.instances.lookup o) ∧
        w1.deref c = none ∧
        (∀ p, p ≠ this → p ≠ c → w1.deref p = w.deref p) ∧
        w1.bufs = w.bufs) := by
  rw [Static.objectSerialized_of_origin hobj hthis horigin]
  cases hfind : self.instances.lookup object with
  | none =>
    rw [objectSerialized_absent hthis horigin hfind]
    exact ⟨⟨fun _ => rfl, fun _ => ⟨_, rfl⟩⟩, fun _ => rfl, fun c h => Option.noConfusion h⟩
  | some c0 =>
    obtain ⟨child, hc, hchild⟩ := hwf c0 hfind
    have hne : c0 ≠ this := by
      rintro rfl
      rw [hthis] at hc
      injection hc with hc
      exact hchild (hc ▸ horigin)
    have hthis1 : (w.free c0).deref this = some self := by
      rw [World.deref_free_ne _ (Ne.symm hne), hthis]
    rw [objectSerialized_present hthis horigin hfind hc hchild]
    refine ⟨⟨?_, fun h => Option.noConfusion h⟩, fun h => Option.noConfusion h, ?_⟩
    · rintro ⟨e, he⟩
      exact Except.noConfusion he
    · intro c hcc
      injection hcc with hcc
      subst hcc
      refine ⟨_, _, rfl, World.deref_store_same hthis1 _, rfl, by simp, ?_, ?_, ?_, by simp⟩
      · intro o ho
        simp [AList.lookup_erase_ne ho]
      · rw [World.deref_store_ne _ hne, World.deref_free_same]
      · intro p hp1 hp2
        rw [World.deref_store_ne _ hp1, World.deref_free_ne _ hp2]

open SerializeHelper in
/-- C10: for a state c minted by an origin (its origin member is that
origin) and a non-null object, static getInstance and static objectSerialized
called with c are the instance methods getInstance and objectSerialized run
on the origin: they give the same result and the same state of the world,
which is also what the static methods do when called with the origin itself.
So with c as the handle, getInstance returns the entry of the object without
changing anything when the origin has a live one, and otherwise creates a
state and enters it in the instances of the origin; objectSerialized throws
and changes nothing when the origin has no entry for the object, and
otherwise releases the state entered and erases the entry from the instances
of the origin. c itself is left as it was by getInstance, and by
objectSerialized it is left as it was or released, so that its own instances
member is never modified. -/
theorem static_calls_delegate (w : World) (c org object : Ptr) (child self : SerializeHelper)
    (hobj : object ≠ NULL) (hc : w.deref c = some child) (hminted : child.origin = org)
    (horg : w.deref org = some self) (horigin : self.origin = NULL) :
    (Static.getInstance c object w = SerializeHelper.getInstance org object w ∧
      Static.objectSerialized c object w = SerializeHelper.objectSerialized org object w ∧
      Static.getInstance org object w = SerializeHelper.getInstance org object w ∧
      Static.objectSerialized org object w = SerializeHelper.objectSerialized org object w) ∧
    ((∀ p st, self.instances.lookup object = some p → w.deref p = some st →
        Static.getInstance c object w =
          (.ok (p, st.index, st.softLimit - ((w.bufs st.buf).length : Int)), w)) ∧
      (self.instances.lookup object = none →
        Static.getInstance c object w =
          (.ok (w.heap.length + 1, 0, self.softLimit - ((w.bufs self.buf).length : Int)),
            afterMint w org object self) ∧
        (afterMint w org object self).deref org =
          some { self with instances := self.instances.insert object (w.heap.length + 1) } ∧
        (afterMint w org object self).deref (w.heap.length + 1) = some (minted org self))) ∧
    ((self.instances.lookup object = none →
        Static.objectSerialized c object w = (.error (.notFound object), w)) ∧
      (∀ p st, self.instances.lookup object = some p → w.deref p = some st →
        st.origin ≠ NULL →
        Static.objectSerialized c object w =
          (.ok (), (w.free p).store org
            { self with instances := self.instances.erase object }) ∧
        ((w.free p).store org { self with instances := self.instances.erase object }).deref
            org = some { self with instances := self.instances.erase object } ∧
        ((w.free p).store org { self with instances := self.instances.erase object }).deref
            p = none)) ∧
    (Static.getInstance c object w).2.deref c = some child ∧
    ((Static.objectSerialized c object w).2.deref c = some child ∨
      (Static.objectSerialized c object w).2.deref c = none) := by
  have hchild : child.origin ≠ NULL := by
    rw [hminted]; exact World.ne_NULL_of_deref horg
  have hne : c ≠ org := by
    rintro rfl
    rw [horg] at hc
    injection hc with hc
    exact hchild (hc ▸ horigin)
  have hg : Static.getInstance c object w = SerializeHelper.getInstance org object w := by
    rw [Static.getInstance_of_child hobj hc hchild, hminted]
  have hs : Static.objectSerialized c object w =
      SerializeHelper.objectSerialized org object w := by
    rw [Static.objectSerialized_of_child hobj hc hchild, hminted]
  refine ⟨⟨hg, hs, Static.getInstance_of_origin hobj horg horigin,
    Static.objectSerialized_of_origin hobj horg horigin⟩, ⟨?_, ?_⟩, ⟨?_, ?_⟩, ?_, ?_⟩
  · intro p st hfind hp
    rw [hg, getInstance_present horg horigin hfind hp]
  · intro hfind
    refine ⟨?_, World.deref_afterMint_this horg object, World.deref_afterMint_new horg object⟩
    rw [hg, getInstance_absent horg horigin hfind]
  · intro hfind
    rw [hs, objectSerialized_absent horg horigin hfind]
  · intro p st hfind hp hst
    have hpo : p ≠ org := by
      rintro rfl
      rw [horg] at hp
      injection hp with hp
      exact hst (hp ▸ horigin)
    refine ⟨?_, ?_, ?_⟩
    · rw [hs, objectSerialized_present horg horigin hfind hp hst]
    · apply World.deref_store_same (h := self)
      rw [World.deref_free_ne _ (Ne.symm hpo)]
      exact horg
    · rw [World.deref_store_ne _ hpo, World.deref_free_same]
  · rw [hg]
    exact getInstance_frame org object w hne hc
  · rw [hs, ← hc]
    exact objectSerialized_frame org object w hne

open SerializeHelper in
/-- C6: for every non-null object o and every index k, after getInstance on
the origin for o, update of the state obtained to k, and objectSerialized for
o, the next getInstance for o reports index 0 (whatever k was, the completion
value LLONG_MAX-1 included) and the origin holds exactly one entry for o
again, for a state whose index is 0. -/
theorem reencode_starts_fresh (w : World) (org o : Ptr) (k : Int) (self : SerializeHelper)
    (hobj : o ≠ NULL) (horg : w.deref org = some self) (horigin : self.origin = NULL)
    (hwf : ∀ c, self.instances.lookup o = some c →
      ∃ child, w.deref c = some child ∧ child.origin ≠ NULL) :
    ∃ (c2 : Ptr) (avail : Int) (w2 : World) (self2 st2 : SerializeHelper),
      reencode org o k w = (.ok (c2, 0, avail), w2) ∧
      w2.deref org = some self2 ∧ self2.instances.lookup o = some c2 ∧
      self2.instances.keys.count o = 1 ∧ w2.deref c2 = some st2 ∧ st2.index = 0 ∧
      st2.index ≠ LLONG_MAX - 1 := by
  have hne := World.ne_NULL_of_deref horg
  cases hfind : self.instances.lookup o with
  | some c =>
    obtain ⟨child, hc, hchild⟩ := hwf c hfind
    obtain ⟨c2, avail, w2, self2, st2, hrun, h1, h2, h3, h4, h5⟩ :=
      restart_run k hobj horg horigin hfind hc hchild
    refine ⟨c2, avail, w2, self2, st2, ?_, h1, h2, h3, h4, h5, by rw [h5]; decide⟩
    simp only [bind_run] at hrun
    simp only [reencode, bind_run, Static.getInstance_of_origin hobj horg horigin,
      getInstance_present horg horigin hfind hc, hrun]
  | none =>
    have horg1 := World.deref_afterMint_this horg o
    have hc1 := World.deref_afterMint_new horg o
    have hfind1 : ({ self with instances := self.instances.insert o (w.heap.length + 1) } :
        SerializeHelper).instances.lookup o = some (w.heap.length + 1) := by
      simp
    obtain ⟨c2, avail, w2, self2, st2, hrun, h1, h2, h3, h4, h5⟩ :=
      restart_run k hobj horg1 horigin hfind1 hc1 (by simpa [minted] using hne)
    refine ⟨c2, avail, w2, self2, st2, ?_, h1, h2, h3, h4, h5, by rw [h5]; decide⟩
    simp only [bind_run] at hrun
    simp only [reencode, bind_run, Static.getInstance_of_origin hobj horg horigin,
      getInstance_absent horg horigin hfind, hrun]

/-- The entry of the object in `World.registered` is a live state that is not
an origin. -/
theorem registered_entry (softLimit : Int) (c : Ptr)
    (hc : (registeredOrigin softLimit).instances.lookup 7 = some c) :
    ∃ child, (World.registered softLimit).deref c = some child ∧ child.origin ≠ NULL := by
  have hl : (registeredOrigin softLimit).instances.lookup 7 = some 2 := rfl
  rw [hl] at hc
  injection hc with hc
  subst hc
  exact ⟨registeredState softLimit, rfl, Nat.succ_ne_zero 0⟩

open SerializeHelper in
/-- Witness of C5: the object registered in `World.registered` has an entry,
so objectSerialized succeeds for it. -/
theorem objectSerialized_on_origin_witness :
    ((∃ e, (Static.objectSerialized 1 7 (World.registered 1000)).1 = .error e) ↔
      (registeredOrigin 1000).instances.lookup 7 = none) ∧
    (registeredOrigin 1000).instances.lookup 7 = some 2 ∧
    (Static.objectSerialized 1 7 (World.registered 1000)).1 = .ok () :=
  ⟨(objectSerialized_on_origin (World.registered 1000) 1 7 (registeredOrigin 1000) (by decide)
      rfl rfl (registered_entry 1000)).1, rfl, rfl⟩

open SerializeHelper in
/-- Witness of C6: an object of a freshly constructed origin, its index set to
5 before it is reported serialized. -/
theorem reencode_starts_fresh_witness :
    ∃ (c2 : Ptr) (avail : Int) (w2 : World) (self2 st2 : SerializeHelper),
      reencode 1 7 5 (World.fresh 1000) = (.ok (c2, 0, avail), w2) ∧
      w2.deref 1 = some self2 ∧ self2.instances.lookup 7 = some c2 ∧
      self2.instances.keys.count 7 = 1 ∧ w2.deref c2 = some st2 ∧ st2.index = 0 ∧
      st2.index ≠ LLONG_MAX - 1 :=
  reencode_starts_fresh (World.fresh 1000) 1 7 5 (init 1000 0) (by decide) rfl rfl
    (fun c h => by simp [init] at h)

open SerializeHelper in
/-- Witness of C10: the state of the registered object, used as the handle
for its own object: getInstance returns that state and changes nothing,
objectSerialized releases it and erases its entry from the instances of the
origin, as the instance methods do on the origin. -/
theorem static_calls_delegate_witness :
    (Static.getInstance 2 7 (World.registered 1000) =
        SerializeHelper.getInstance 1 7 (World.registered 1000) ∧
      Static.objectSerialized 2 7 (World.registered 1000) =
        SerializeHelper.objectSerialized 1 7 (World.registered 1000) ∧
      Static.getInstance 1 7 (World.registered 1000) =
        SerializeHelper.getInstance 1 7 (World.registered 1000) ∧
      Static.objectSerialized 1 7 (World.registered 1000) =
        SerializeHelper.objectSerialized 1 7 (World.registered 1000)) ∧
    Static.getInstance 2 7 (World.registered 1000) =
      (.ok (2, (registeredState 1000).index,
        (registeredState 1000).softLimit -
          ((((World.registered 1000).bufs (registeredState 1000).buf).length : Nat) : Int)),
        World.registered 1000) ∧
    (Static.objectSerialized 2 7 (World.registered 1000) =
        (.ok (), ((World.registered 1000).free 2).store 1
          { registeredOrigin 1000 with
            instances := (registeredOrigin 1000).instances.erase 7 }) ∧
      (((World.registered 1000).free 2).store 1
          { registeredOrigin 1000 with
            instances := (registeredOrigin 1000).instances.erase 7 }).deref 1 =
        some { registeredOrigin 1000 with
          instances := (registeredOrigin 1000).instances.erase 7 } ∧
      (((World.registered 1000).free 2).store 1
          { registeredOrigin 1000 with
            instances := (registeredOrigin 1000).instances.erase 7 }).deref 2 = none) ∧
    (Static.getInstance 2 7 (World.registered 1000)).2.deref 2 = some (registeredState 1000) ∧
    ((Static.objectSerialized 2 7 (World.registered 1000)).2.deref 2 =
        some (registeredState 1000) ∨
      (Static.objectSerialized 2 7 (World.registered 1000)).2.deref 2 = none) :=
  ⟨(static_calls_delegate (World.registered 1000) 2 1 7 (registeredState 1000)
      (registeredOrigin 1000) (by decide) rfl rfl rfl rfl).1,
    (static_calls_delegate (World.registered 1000) 2 1 7 (registeredState 1000)
      (registeredOrigin 1000) (by decide) rfl rfl rfl rfl).2.1.1 2 (registeredState 1000)
      rfl rfl,
    (static_calls_delegate (World.registered 1000) 2 1 7 (registeredState 1000)
      (registeredOrigin 1000) (by decide) rfl rfl rfl rfl).2.2.1.2 2 (registeredState 1000)
      rfl rfl (Nat.succ_ne_zero 0),
    (static_calls_delegate (World.registered 1000) 2 1 7 (registeredState 1000)
      (registeredOrigin 1000) (by decide) rfl rfl rfl rfl).2.2.2⟩

open SerializeHelper in
/-- C7 as stated fails: after one call of putAipsIO has written the count and
both elements of a region and set the index to the completion value, the
origin still holds the entry of the object, and getInstance returns that state
with idx = LLONG_MAX-1, not a new state with index 0. -/
theorem entry_survives_completion :
    (( putAipsIO exampleUInt exampleT 0 2 exampleData 2 0) (World.registered 1000)).2.bufs 0 =
      [0, 0, 0, 2, 10, 11] ∧
    ((do
        putAipsIO exampleUInt exampleT 0 2 exampleData 2 0
        Static.getInstance 1 7 : Exec (Ptr × Int × Int)) (World.registered 1000)).1 =
      .ok (2, LLONG_MAX - 1, 994) :=
  ⟨rfl, rfl⟩

open SerializeHelper in
/-- C7, amended: putAipsIO does not report the object serialized. After a call
of putAipsIO has left the completion value LLONG_MAX-1 in the state c that the
origin holds for an object, the origin still holds c for that object:
getInstance returns c with idx = LLONG_MAX-1. Once objectSerialized has been
called for the object, getInstance returns a state that did not exist before,
with index 0. -/
theorem completion_keeps_entry {T : Type} (putUInt : Nat → List Byte) (putT : T → List Byte)
    (ios n : Nat) (data : Nat → T) (s : Int) (w : World) (org o c : Ptr)
    (self st : SerializeHelper)
    (hobj : o ≠ NULL) (horg : w.deref org = some self) (horigin : self.origin = NULL)
    (hfind : self.instances.lookup o = some c) (hc : w.deref c = some st)
    (hminted : st.origin = org)
    (hdone : (( putAipsIO putUInt putT ios n data c s w).2.deref c).map (fun h => h.index) =
      some (LLONG_MAX - 1)) :
    ∃ (w1 : World) (avail : Int),
      putAipsIO putUInt putT ios n data c s w = (.ok (), w1) ∧
      Static.getInstance org o w1 = (.ok (c, LLONG_MAX - 1, avail), w1) ∧
      ∃ (c2 : Ptr) (avail2 : Int) (w2 : World) (st2 : SerializeHelper),
        (do
          Static.objectSerialized org o
          Static.getInstance org o : Exec (Ptr × Int × Int)) w1 = (.ok (c2, 0, avail2), w2) ∧
        w2.deref c2 = some st2 ∧ st2.index = 0 ∧ w1.deref c2 = none := by
  have hchild : st.origin ≠ NULL := by
    rw [hminted]; exact World.ne_NULL_of_deref horg
  have hne : org ≠ c := by
    rintro rfl
    rw [horg] at hc
    injection hc with hc
    exact hchild (hc ▸ horigin)
  obtain ⟨bytes, x, es, hrun⟩ := putAipsIO_frame putUInt putT ios n data s hc
  have hc1 := deref_normal hc ios bytes { st with index := x } es
  have horg1 : (((w.write ios bytes).store c { st with index := x }).recordAll es).deref org =
      some self := by
    simp [World.deref_store_ne _ hne, horg]
  rw [hrun] at hdone
  simp only [hc1, Option.map_some', Option.some.injEq] at hdone
  subst hdone
  generalize ((w.write ios bytes).store c { st with index := LLONG_MAX - 1 }).recordAll es = w1
    at hrun hc1 horg1
  refine ⟨w1, st.softLimit - ((w1.bufs st.buf).length : Int), hrun, ?_,
    complete_run hobj horg1 horigin hfind hc1 hchild⟩
  rw [Static.getInstance_of_origin hobj horg1 horigin]
  exact getInstance_present horg1 horigin hfind hc1

open SerializeHelper in
/-- Witness of C7: the call that writes the two elements of a region at once. -/
theorem completion_keeps_entry_witness :
    ∃ (w1 : World) (avail : Int),
      putAipsIO exampleUInt exampleT 0 2 exampleData 2 0 (World.registered 1000) = (.ok (), w1) ∧
      Static.getInstance 1 7 w1 = (.ok (2, LLONG_MAX - 1, avail), w1) ∧
      ∃ (c2 : Ptr) (avail2 : Int) (w2 : World) (st2 : SerializeHelper),
        (do
          Static.objectSerialized 1 7
          Static.getInstance 1 7 : Exec (Ptr × Int × Int)) w1 = (.ok (c2, 0, avail2), w2) ∧
        w2.deref c2 = some st2 ∧ st2.index = 0 ∧ w1.deref c2 = none :=
  completion_keeps_entry exampleUInt exampleT 0 2 exampleData 0 (World.registered 1000) 1 7 2
    (registeredOrigin 1000) (registeredState 1000) (by decide) rfl rfl rfl rfl rfl (by decide!)

/-- C8, where the code departs from the claim and from the comment on the
member index in SerializeHelper.h ("Should only ever increase in value"): for
the start offset 2^32 - 5 and three elements, the first call of putAipsIO
writes the count and the three elements and leaves the completion value
LLONG_MAX-1; a second call resumes at (uInt)(LLONG_MAX-1) - shStartIdx - 1 = 2,
appends element 2 again and passes the index 2^32 - 1 to update while
LLONG_MAX-1 is held, before it sets LLONG_MAX-1 again: the index decreases,
and an element is appended between two observations of the same index. -/
theorem update_decreases_after_completion :
    (calls exampleUInt exampleT 0 3 exampleData 2 4294967291 [false]
      (World.registered 1000)).1 = .ok [0, 0, 0, 3, 10, 11, 12] ∧
    ((calls exampleUInt exampleT 0 3 exampleData 2 4294967291 [false]
      (World.registered 1000)).2.deref 2).map (fun h => h.index) = some (LLONG_MAX - 1) ∧
    (calls exampleUInt exampleT 0 3 exampleData 2 4294967291 [false, false]
      (World.registered 1000)).1 = .ok [0, 0, 0, 3, 10, 11, 12, 12] ∧
    ((calls exampleUInt exampleT 0 3 exampleData 2 4294967291 [false, false]
      (World.registered 1000)).2.deref 2).map (fun h => h.index) = some (LLONG_MAX - 1) ∧
    (2, LLONG_MAX - 1, 4294967295) ∈
      (calls exampleUInt exampleT 0 3 exampleData 2 4294967291 [false, false]
        (World.registered 1000)).2.updates :=
  ⟨rfl, by decide!, rfl, by decide!, by decide!⟩

/-- Where the index is monotone: for a region with start offset
s < LLONG_MAX - 1 whose count n is not above the position
(uInt)(LLONG_MAX-1) - s - 1 at which a call on the finished region resumes,
from a state whose index x stands for the k elements written so far, across
any sequence of calls of putAipsIO with the buffer cleared or not before each
call: every call of update on the instance passes an index not below the
index held; the index x1 observed afterwards is not below x; and the number
k1 - k of elements appended between the two observations is at most
x1 - x. -/
theorem index_monotone {T : Type} (putUInt : Nat → List Byte) (putT : T → List Byte)
    (ios n : Nat) (data : Nat → T) (sh : Ptr) (s : Int) (clears : List Bool) (w : World)
    (h : SerializeHelper) (k : Nat) (hs : s < LLONG_MAX - 1)
    (hre : n ≤ startOf (LLONG_MAX - 1) s)
    (hsh : w.deref sh = some h) (hp : Progress n s k h.index) :
    ∃ (k1 : Nat) (x1 : Int) (w1 : World) (es : List (Ptr × Int × Int)),
      calls putUInt putT ios n data sh s clears w =
        (.ok ((if h.index ≤ s ∧ ¬ x1 ≤ s then putUInt n else []) ++
          elems putT data (k1 - k) k), w1) ∧
      w1.deref sh = some { h with index := x1 } ∧
      w1.updates = es ++ w.updates ∧ (∀ e ∈ es, e.1 = sh ∧ e.2.1 ≤ e.2.2) ∧
      h.index ≤ x1 ∧ k ≤ k1 ∧ ((k1 - k : Nat) : Int) ≤ x1 - h.index := by
  obtain ⟨k1, x1, w1, es, h1, h2, _, h4, _, h6, h7, h8, h9⟩ :=
    calls_run_le putUInt putT ios n data s hs hre sh clears w h k hsh hp
  exact ⟨k1, x1, w1, es, h1, h2, h6, h7, h8, h4, h9⟩

/-- An instance of `index_monotone` at the largest count the start offset
allows: three elements of one byte at start offset 2^32 - 6 under a soft limit
of 2 bytes, the region finished by the first three calls and entered again by
the fourth. -/
theorem index_monotone_witness :
    ∃ (k1 : Nat) (x1 : Int) (w1 : World) (es : List (Ptr × Int × Int)),
      calls exampleUInt exampleT 0 3 exampleData 2 4294967290 [true, true, true, true]
          (World.registered 2) =
        (.ok ((if (registeredState 2).index ≤ 4294967290 ∧ ¬ x1 ≤ 4294967290
            then exampleUInt 3 else []) ++
          elems exampleT exampleData (k1 - 0) 0), w1) ∧
      w1.deref 2 = some { registeredState 2 with index := x1 } ∧
      w1.updates = es ++ (World.registered 2).updates ∧
      (∀ e ∈ es, e.1 = 2 ∧ e.2.1 ≤ e.2.2) ∧
      (registeredState 2).index ≤ x1 ∧ 0 ≤ k1 ∧
      ((k1 - 0 : Nat) : Int) ≤ x1 - (registeredState 2).index :=
  index_monotone exampleUInt exampleT 0 3 exampleData 2 4294967290 [true, true, true, true]
    (World.registered 2) (registeredState 2) 0 (by decide) (by decide) rfl
    (Or.inl (Or.inl ⟨by decide, rfl⟩))

/-! ## Further facts -/

section Resume

variable {T : Type}

theorem startOf_eq (idx s : Int) (h0 : 0 ≤ idx - s - 1) (h1 : idx - s - 1 < 2 ^ 32) :
    (startOf idx s : Int) = idx - s - 1 := by
  have h32 : (2 : Int) ^ 32 = 4294967296 := by norm_num
  rw [h32] at h1
  simp only [startOf, h32]
  omega

theorem appended_of_run (ios : Nat) (m : Exec Unit) (w w1 : World) (bytes : List Byte)
    (hm : m w = (.ok (), w1)) (hb : w1.bufs ios = w.bufs ios ++ bytes) :
    appended ios m w = (.ok bytes, w1) := by
  simp [appended, hm, hb]

end Resume

section Progress

variable {T : Type}

theorem clearIf_true_run {sh : Ptr} {w : World} {h : SerializeHelper}
    (hsh : w.deref sh = some h) :
    clearIf true sh w = (.ok (), w.clear h.buf) := by
  simpa [clearIf] using clearMemory_run hsh

@[simp] theorem World.bufs_clear_same (w : World) (b : Nat) : (w.clear b).bufs b = [] := by
  simp [World.clear]

/-- With a positive soft limit and the buffer cleared before every call, each
call of `chunked` on an unfinished region begins it or writes an element: after
`L` calls the index is the completion value or stands for at least `L - 1`
elements more (`L` more when the region was begun). -/
theorem chunked_progress (putUInt : Nat → List Byte) (putT : T → List Byte) (ios n : Nat)
    (data : Nat → T) (s : Int) (hn : n < 2 ^ 32) (hs : s < LLONG_MAX - 1) (sh : Ptr) :
    ∀ (L : Nat) (w : World) (h : SerializeHelper) (k : Nat),
      w.deref sh = some h → Progress n s k h.index → 0 < h.softLimit →
      ∃ (k1 : Nat) (x1 : Int) (w1 : World) (bytes : List Byte),
        chunked putUInt putT ios n data sh s (List.replicate L true) w = (.ok bytes, w1) ∧
        w1.deref sh = some { h with index := x1 } ∧
        Progress n s k1 x1 ∧
        (x1 = LLONG_MAX - 1 ∨ (k + L ≤ k1 + 1 ∧ (¬ h.index ≤ s → k + L ≤ k1))) ∧
        (0 < L ∨ ¬ h.index ≤ s → ¬ x1 ≤ s)
  | 0, w, h, k, hsh, hp, _ => by
    refine ⟨k, h.index, w, [], ?_, by simpa [helper_eta] using hsh, hp,
      Or.inr ⟨by omega, fun _ => by omega⟩, ?_⟩
    · simp [chunked]
    · rintro (h0 | h0)
      · exact absurd h0 (lt_irrefl _)
      · exact h0
  | L + 1, w, h, k, hsh, hp, hpos => by
    have hne := World.ne_NULL_of_deref hsh
    by_cases hdone : h.index = LLONG_MAX - 1
    · refine ⟨k, h.index, w, [], ?_, by simpa [helper_eta] using hsh, hp, Or.inl hdone,
        fun _ => by omega⟩
      simp [chunked, List.replicate_succ, SerializeHelper.Static.getIndex, hne, load_run hsh,
        hdone]
    · have hopen : Open n s k h.index := by
        rcases hp with h1 | ⟨h1, _⟩
        · exact h1
        · exact absurd h1 hdone
      have hclear := clearIf_true_run hsh
      have hshc : (w.clear h.buf).deref sh = some h := by simpa using hsh
      have havail : 0 < h.softLimit - ((((w.clear h.buf).bufs h.buf).length : Nat) : Int) := by
        simpa using hpos
      obtain ⟨m, x, es, hrun, hprog, _, hstep, _⟩ :=
        putAipsIO_open putUInt putT ios n data s hn hs hshc hopen
      obtain ⟨hxs, hm⟩ := hstep havail
      generalize ((if h.index ≤ s ∧
          0 < h.softLimit - ((((w.clear h.buf).bufs h.buf).length : Nat) : Int)
        then putUInt n else []) ++ elems putT data m k) = B at hrun
      obtain ⟨k1, x1, w1, bytes1, hrest, hsh2, hprog1, hcount, hbegun⟩ :=
        chunked_progress putUInt putT ios n data s hn hs sh L _ _ (k + m)
          (deref_normal hshc ios B { h with index := x } es) hprog hpos
      refine ⟨k1, x1, w1, B ++ bytes1, ?_, by simpa using hsh2, hprog1, ?_,
        fun _ => hbegun (Or.inr hxs)⟩
      · simp only [chunked, List.replicate_succ, bind_run, SerializeHelper.Static.getIndex,
          hne, if_false, load_run hsh, pure_run, hdone, hclear,
          appended_normal _ _ _ _ _ _ _ hrun, hrest]
      · rcases hcount with hc | ⟨_, hc⟩
        · exact Or.inl hc
        · have hc1 := hc hxs
          refine Or.inr ⟨by omega, fun hb => ?_⟩
          have := hm hb
          omega

end Progress

section Checks

variable {T : Type}

theorem World.length_bufs_write (w : World) (b c : Nat) (bs : List Byte) :
    (w.bufs c).length ≤ ((w.write b bs).bufs c).length := by
  rw [World.bufs_write]
  split <;> simp_all

/-- The budget checks of the loop of `putAipsIO`, started at `i` on a live
instance: nothing is written when `avail` is not positive; `update` is called
with index `q + shStartIdx + 2` after every element `q` written whose position
is a multiple of 100; and when what is truly available after `j` elements is
not positive, the loop writes no element beyond position `i + j - 1` rounded up
to a multiple of 100 (beyond `i` rounded up, for `j = 0`). -/
theorem putLoop_checks (putT : T → List Byte) (ios n : Nat) (data : Nat → T) (sh : Ptr)
    (s : Int) :
    ∀ (k i : Nat) (idx avail : Int) (w : World) (h : SerializeHelper),
      w.deref sh = some h →
      ∃ (m : Nat) (X : Int) (es : List (Ptr × Int × Int)),
        putLoop putT ios n data sh s k i idx avail w =
          (.ok (i + m, if m = 0 then idx else ((i + m : Nat) : Int) + s + 1),
            ((w.write ios (elems putT data m i)).store sh { h with index := X }).recordAll es) ∧
        (avail ≤ 0 → m = 0) ∧
        (∀ q, i ≤ q → q < i + m → q % 100 = 0 →
          ∃ e ∈ es, e.1 = sh ∧ e.2.2 = (q : Int) + s + 2) ∧
        (∀ j, j ≤ m →
          h.softLimit - (((w.write ios (elems putT data j i)).bufs h.buf).length : Int) ≤ 0 →
          m ≤ j + (if j = 0 then (100 - i % 100) % 100 + 1
            else (100 - (i + j - 1) % 100) % 100)) ∧
        (m = 0 ∨ i + m ≤ n) ∧
        (n ≤ i + k →
          n ≤ i + m ∨ (m = 0 ∧ avail ≤ 0) ∨
          (0 < m ∧ (i + m - 1) % 100 = 0 ∧
            h.softLimit - (((w.write ios (elems putT data m i)).bufs h.buf).length : Int) ≤ 0))
  | 0, i, idx, avail, w, h, hsh => by
    refine ⟨0, h.index, [], ?_, fun _ => rfl, fun q h1 h2 => by omega, fun j hj _ => by omega,
      Or.inl rfl, fun hk => Or.inl (by omega)⟩
    simp [putLoop, elems, helper_eta, World.store_self hsh]
  | k + 1, i, idx, avail, w, h, hsh => by
    by_cases hcond : i < n ∧ avail > 0
    · have hsh1 : (w.write ios (putT (data i))).deref sh = some h := by simpa using hsh
      have e1 : ∀ m, i + 1 + m = i + (m + 1) := fun m => by omega
      by_cases hmod : i % 100 = 0
      · have hsh2 : (((w.write ios (putT (data i))).store sh
            { h with index := (i : Int) + s + 2 }).recordAll
              [(sh, h.index, (i : Int) + s + 2)]).deref sh =
            some { h with index := (i : Int) + s + 2 } := by
          simp [World.deref_store_same hsh1]
        obtain ⟨m, X, es, hrun, hzero, hchk, hover, hbnd, hstop⟩ :=
          putLoop_checks putT ios n data sh s k (i + 1) ((i : Int) + s + 2)
            (h.softLimit - (((w.write ios (putT (data i))).bufs h.buf).length : Int)) _ _ hsh2
        refine ⟨m + 1, X, es ++ [(sh, h.index, (i : Int) + s + 2)], ?_,
          fun h0 => absurd hcond.2 (by omega), ?_, ?_, Or.inr (by omega), ?_⟩
        · simp only [putLoop, hcond, hmod, and_self, if_true, bind_run, modify_run,
            SerializeHelper.update_run hsh1, hrun]
          refine Prod.ext ?_ ?_
          · simp only [e1, Nat.succ_ne_zero, if_false]
            by_cases hm0 : m = 0
            · subst hm0; simp; ring
            · simp [hm0]
          · simp [elems]
        · intro q h1 h2 h3
          by_cases hq : q = i
          · subst hq
            exact ⟨_, List.mem_append_right _ (List.mem_singleton_self _), rfl, rfl⟩
          · obtain ⟨e, he, h4⟩ := hchk q (by omega) (by omega) h3
            exact ⟨e, List.mem_append_left _ he, h4⟩
        · intro j hj hav
          have hgrow := World.length_bufs_write w ios h.buf (putT (data i))
          rcases j with _ | j
          · have : m = 0 := hzero (by
              simp only [elems, World.write_nil] at hav
              omega)
            subst this
            simp [hmod]
          · by_cases hj0 : j = 0
            · subst hj0
              have : m = 0 := hzero (by simpa [elems] using hav)
              subst this
              simp
            · have h0 := hover j (by omega) (by
                simpa [elems] using hav)
              simp only [hj0, if_false, Nat.succ_ne_zero] at h0 ⊢
              have e2 : i + 1 + j - 1 = i + (j + 1) - 1 := by omega
              rw [e2] at h0
              omega
        · intro hk
          rcases hstop (by omega) with h1 | ⟨h1, h2⟩ | ⟨h1, h2, h3⟩
          · exact Or.inl (by omega)
          · subst h1
            exact Or.inr (Or.inr ⟨Nat.succ_pos 0, by simpa using hmod,
              by simpa [elems] using h2⟩)
          · exact Or.inr (Or.inr ⟨Nat.succ_pos m, by
              have e2 : i + (m + 1) - 1 = i + 1 + m - 1 := by omega
              rw [e2]
              exact h2, by simpa [elems] using h3⟩)
      · obtain ⟨m, X, es, hrun, hzero, hchk, hover, hbnd, hstop⟩ :=
          putLoop_checks putT ios n data sh s k (i + 1) ((i : Int) + s + 2) avail _ _ hsh1
        refine ⟨m + 1, X, es, ?_, fun h0 => absurd hcond.2 (by omega), ?_, ?_,
          Or.inr (by omega), ?_⟩
        · simp only [putLoop, hcond, hmod, and_self, if_true, if_false, bind_run, modify_run,
            hrun]
          refine Prod.ext ?_ ?_
          · simp only [e1, Nat.succ_ne_zero, if_false]
            by_cases hm0 : m = 0
            · subst hm0; simp; ring
            · simp [hm0]
          · simp [elems]
        · intro q h1 h2 h3
          have hq : q ≠ i := fun hq => hmod (hq ▸ h3)
          exact hchk q (by omega) (by omega) h3
        · intro j hj hav
          have hgrow := World.length_bufs_write w ios h.buf (putT (data i))
          rcases j with _ | j
          · have h0 := hover 0 (Nat.zero_le _) (by
              simp only [elems, World.write_nil] at hav ⊢
              omega)
            simp only [if_true] at h0 ⊢
            omega
          · have h0 := hover j (by omega) (by
              simpa only [elems, World.write_write] using hav)
            by_cases hj0 : j = 0
            · subst hj0
              simp only [if_true, Nat.zero_add, Nat.succ_ne_zero, if_false] at h0 ⊢
              omega
            · simp only [hj0, if_false, Nat.succ_ne_zero] at h0 ⊢
              have e2 : i + 1 + j - 1 = i + (j + 1) - 1 := by omega
              rw [e2] at h0
              omega
        · intro hk
          rcases hstop (by omega) with h1 | ⟨h1, h2⟩ | ⟨h1, h2, h3⟩
          · exact Or.inl (by omega)
          · exact absurd hcond.2 (by omega)
          · exact Or.inr (Or.inr ⟨Nat.succ_pos m, by
              have e2 : i + (m + 1) - 1 = i + 1 + m - 1 := by omega
              rw [e2]
              exact h2, by simpa [elems] using h3⟩)
    · refine ⟨0, h.index, [], ?_, fun _ => rfl, fun q h1 h2 => by omega,
        fun j hj _ => by omega, Or.inl rfl, fun hk => ?_⟩
      rotate_left
      · by_cases hin : i < n
        · exact Or.inr (Or.inl ⟨rfl, by
            have : ¬ avail > 0 := fun h0 => hcond ⟨hin, h0⟩
            omega⟩)
        · exact Or.inl (by omega)
      have hc : ¬ (i < n ∧ 0 < avail) := hcond
      simp [putLoop, hc, elems, helper_eta, World.store_self hsh]

end Checks

section DataChecks

variable {T : Type}

/-- The budget checks of the part of `putAipsIO` after the count, as in
`putLoop_checks`. -/
theorem putData_checks (putT : T → List Byte) (ios n : Nat) (data : Nat → T) (s : Int)
    {sh : Ptr} {w : World} {h : SerializeHelper} (hsh : w.deref sh = some h)
    (idx avail : Int) :
    ∃ (m : Nat) (es : List (Ptr × Int × Int)),
      putData putT ios n data sh s idx avail w =
        (.ok (),
          ((w.write ios (elems putT data m (startOf idx s))).store sh
            { h with index := finalIdx n s (startOf idx s) m idx }).recordAll es) ∧
      (avail ≤ 0 → m = 0) ∧
      (∀ q, startOf idx s ≤ q → q < startOf idx s + m → q % 100 = 0 →
        ∃ e ∈ es, e.1 = sh ∧ e.2.2 = (q : Int) + s + 2) ∧
      (∀ j, j ≤ m →
        h.softLimit -
          (((w.write ios (elems putT data j (startOf idx s))).bufs h.buf).length : Int) ≤ 0 →
        m ≤ j + (if j = 0 then (100 - startOf idx s % 100) % 100 + 1
          else (100 - (startOf idx s + j - 1) % 100) % 100)) ∧
      (m = 0 ∨ startOf idx s + m ≤ n) ∧
      (n ≤ startOf idx s + m ∨ (m = 0 ∧ avail ≤ 0) ∨
        (0 < m ∧ (startOf idx s + m - 1) % 100 = 0 ∧
          h.softLimit -
            (((w.write ios (elems putT data m (startOf idx s))).bufs h.buf).length : Int) ≤
            0)) := by
  obtain ⟨m, X, es, hrun, hzero, hchk, hover, hbnd, hstop⟩ :=
    putLoop_checks putT ios n data sh s (n - startOf idx s) (startOf idx s) idx avail w h hsh
  have hshw : (w.write ios (elems putT data m (startOf idx s))).deref sh = some h := by
    simpa using hsh
  have hst : ((idx % 2 ^ 32 - s - 1) % 2 ^ 32).toNat = startOf idx s := rfl
  by_cases hfin : startOf idx s + m = n
  · refine ⟨m, (sh, (if m = 0 then idx else ((startOf idx s + m : Nat) : Int) + s + 1),
        LLONG_MAX - 1) ::
      (sh, X, (if m = 0 then idx else ((startOf idx s + m : Nat) : Int) + s + 1)) :: es,
      ?_, hzero, ?_, hover, hbnd, hstop (by omega)⟩
    · simp only [putData, bind_run, hst, hrun, update_normal hshw, hfin, if_true, pure_run,
        finalIdx]
    · intro q h1 h2 h3
      obtain ⟨e, he, h4⟩ := hchk q h1 h2 h3
      exact ⟨e, List.mem_cons_of_mem _ (List.mem_cons_of_mem _ he), h4⟩
  · refine ⟨m, (sh, X, (if m = 0 then idx else ((startOf idx s + m : Nat) : Int) + s + 1)) :: es,
      ?_, hzero, ?_, hover, hbnd, hstop (by omega)⟩
    · simp only [putData, bind_run, hst, hrun, update_normal hshw, hfin, if_false, pure_run,
        finalIdx]
    · intro q h1 h2 h3
      obtain ⟨e, he, h4⟩ := hchk q h1 h2 h3
      exact ⟨e, List.mem_cons_of_mem _ he, h4⟩

end DataChecks

section Owner

open SerializeHelper

theorem World.Owned.fresh (softLimit : Int) : World.Owned 1 (World.fresh softLimit) := by
  refine ⟨SerializeHelper.init softLimit 0, rfl, rfl, ?_, ?_, ?_⟩
  · intro p c hp hne
    exfalso
    rcases p with _ | _ | a
    · simp [World.deref] at hp
    · exact hne rfl
    · simp [World.deref, World.fresh] at hp
  · intro obj p hl
    simp [SerializeHelper.init] at hl
  · intro obj1 obj2 p hl
    simp [SerializeHelper.init] at hl

/-- A live object with a null `origin` is the origin instance. -/
theorem World.Owned.eq_org {org : Ptr} {w : World} (hw : w.Owned org) {p : Ptr}
    {c : SerializeHelper} (hp : w.deref p = some c) (hc : c.origin = NULL) : p = org := by
  obtain ⟨o, ho, _, hchild, _, _⟩ := hw
  by_contra hne
  have := (hchild p c hp hne).1
  rw [hc] at this
  exact World.ne_NULL_of_deref ho this.symm

theorem World.Owned.update {org : Ptr} {w : World} (hw : w.Owned org) (inst : Ptr)
    (index : Int) : (Static.update inst index w).2.Owned org := by
  by_cases hnull : inst = NULL
  · simpa [Static.update, hnull] using hw
  · cases hp : w.deref inst with
    | none =>
      simpa [Static.update, hnull, SerializeHelper.update, bind_run, load_fault hp] using hw
    | some c =>
      obtain ⟨o, ho, horg, hchild, hmap, hinj⟩ := hw
      simp only [Static.update, hnull, if_false, update_run hp]
      by_cases hio : inst = org
      · subst hio
        have hco : c = o := by
          rw [hp] at ho
          exact Option.some.inj ho
        subst hco
        refine ⟨{ c with index := index }, ?_, horg, ?_, ?_, hinj⟩
        · simp [World.deref_store_same hp]
        · intro p d hd hne
          rw [World.deref_recordAll, World.deref_store_ne _ hne] at hd
          exact hchild p d hd hne
        · intro obj p hl
          obtain ⟨hne, d, hd⟩ := hmap obj p hl
          refine ⟨hne, d, ?_⟩
          rw [World.deref_recordAll, World.deref_store_ne _ hne]
          exact hd
      · refine ⟨o, ?_, horg, ?_, ?_, hinj⟩
        · rw [World.deref_recordAll, World.deref_store_ne _ (Ne.symm hio)]
          exact ho
        · intro p d hd hne
          rw [World.deref_recordAll] at hd
          by_cases hpi : p = inst
          · subst hpi
            rw [World.deref_store_same hp] at hd
            have := Option.some.inj hd
            subst this
            exact hchild p c hp hne
          · rw [World.deref_store_ne _ hpi] at hd
            exact hchild p d hd hne
        · intro obj p hl
          obtain ⟨hne, d, hd⟩ := hmap obj p hl
          refine ⟨hne, ?_⟩
          rw [World.deref_recordAll]
          by_cases hpi : p = inst
          · subst hpi
            exact ⟨_, World.deref_store_same hp _⟩
          · rw [World.deref_store_ne _ hpi]
            exact ⟨d, hd⟩

/-- What `getInstance` on the origin instance returns and leaves: it does not
throw. -/
theorem World.Owned.getInstance {org : Ptr} {w : World} (hw : w.Owned org) (object : Ptr) :
    (∃ r, (SerializeHelper.getInstance org object w).1 = .ok r) ∧
      (SerializeHelper.getInstance org object w).2.Owned org := by
  have hw0 := hw
  obtain ⟨o, ho, horg, hchild, hmap, hinj⟩ := hw
  cases hl : o.instances.lookup object with
  | some c =>
    obtain ⟨_, d, hd⟩ := hmap object c hl
    rw [getInstance_present ho horg hl hd]
    exact ⟨⟨_, rfl⟩, hw0⟩
  | none =>
    rw [getInstance_absent ho horg hl]
    refine ⟨⟨_, rfl⟩, ?_⟩
    have hfresh : org ≠ w.heap.length + 1 := World.ne_fresh_of_deref ho
    refine ⟨_, World.deref_afterMint_this ho object, horg, ?_, ?_, ?_⟩
    · intro p d hd hne
      by_cases hpn : p = w.heap.length + 1
      · subst hpn
        rw [World.deref_afterMint_new ho object] at hd
        have := Option.some.inj hd
        subst this
        exact ⟨rfl, rfl, rfl, rfl⟩
      · rw [World.deref_afterMint_ne w o object hne hpn] at hd
        exact hchild p d hd hne
    · intro obj p hlp
      by_cases hobj : obj = object
      · subst hobj
        rw [AList.lookup_insert] at hlp
        have := Option.some.inj hlp
        subst this
        exact ⟨Ne.symm hfresh, _, World.deref_afterMint_new ho obj⟩
      · rw [AList.lookup_insert_ne hobj] at hlp
        obtain ⟨hne, d, hd⟩ := hmap obj p hlp
        refine ⟨hne, d, ?_⟩
        rw [World.deref_afterMint_ne w o object hne (World.ne_fresh_of_deref hd)]
        exact hd
    · intro obj1 obj2 p h1 h2
      by_cases hobj1 : obj1 = object
      · by_cases hobj2 : obj2 = object
        · rw [hobj1, hobj2]
        · exfalso
          subst hobj1
          rw [AList.lookup_insert] at h1
          rw [AList.lookup_insert_ne hobj2] at h2
          obtain ⟨_, d, hd⟩ := hmap obj2 p h2
          exact World.ne_fresh_of_deref hd (Option.some.inj h1).symm
      · by_cases hobj2 : obj2 = object
        · exfalso
          subst hobj2
          rw [AList.lookup_insert] at h2
          rw [AList.lookup_insert_ne hobj1] at h1
          obtain ⟨_, d, hd⟩ := hmap obj1 p h1
          exact World.ne_fresh_of_deref hd (Option.some.inj h2).symm
        · rw [AList.lookup_insert_ne hobj1] at h1
          rw [AList.lookup_insert_ne hobj2] at h2
          exact hinj obj1 obj2 p h1 h2

/-- What `objectSerialized` on the origin instance leaves; the only exception
it throws is the one for an object without an entry. -/
theorem World.Owned.objectSerialized {org : Ptr} {w : World} (hw : w.Owned org)
    (object : Ptr) :
    ((SerializeHelper.objectSerialized org object w).1 = .ok () ∨
      (SerializeHelper.objectSerialized org object w).1 = .error (.notFound object)) ∧
      (SerializeHelper.objectSerialized org object w).2.Owned org := by
  have hw0 := hw
  obtain ⟨o, ho, horg, hchild, hmap, hinj⟩ := hw
  cases hl : o.instances.lookup object with
  | none =>
    rw [objectSerialized_absent ho horg hl]
    exact ⟨Or.inr rfl, hw0⟩
  | some c =>
    obtain ⟨hco, d, hd⟩ := hmap object c hl
    have hdo := (hchild c d hd hco).1
    have hdne : d.origin ≠ NULL := by
      rw [hdo]
      exact World.ne_NULL_of_deref ho
    rw [objectSerialized_present ho horg hl hd hdne]
    refine ⟨Or.inl rfl, ?_⟩
    have ho1 : (w.free c).deref org = some o := by
      rw [World.deref_free_ne _ (Ne.symm hco)]
      exact ho
    refine ⟨_, World.deref_store_same ho1 _, horg, ?_, ?_, ?_⟩
    · intro p e he hne
      rw [World.deref_store_ne _ hne] at he
      by_cases hpc : p = c
      · subst hpc
        rw [World.deref_free_same] at he
        exact Option.noConfusion he
      · rw [World.deref_free_ne _ hpc] at he
        exact hchild p e he hne
    · intro obj p hlp
      have hobj : obj ≠ object := by
        rintro rfl
        simp [AList.lookup_erase] at hlp
      rw [AList.lookup_erase_ne hobj] at hlp
      obtain ⟨hne, e, he⟩ := hmap obj p hlp
      have hpc : p ≠ c := by
        rintro rfl
        exact hobj (hinj obj object p hlp hl)
      refine ⟨hne, e, ?_⟩
      rw [World.deref_store_ne _ hne, World.deref_free_ne _ hpc]
      exact he
    · intro obj1 obj2 p h1 h2
      have hobj1 : obj1 ≠ object := by
        rintro rfl
        simp [AList.lookup_erase] at h1
      have hobj2 : obj2 ≠ object := by
        rintro rfl
        simp [AList.lookup_erase] at h2
      rw [AList.lookup_erase_ne hobj1] at h1
      rw [AList.lookup_erase_ne hobj2] at h2
      exact hinj obj1 obj2 p h1 h2

theorem World.Owned.static_getInstance {org : Ptr} {w : World} (hw : w.Owned org)
    (parent object : Ptr) :
    (Static.getInstance parent object w).1 ≠ .error .notOrigin ∧
      (Static.getInstance parent object w).2.Owned org := by
  by_cases hnull : parent = NULL
  · simp only [Static.getInstance, hnull, if_true, pure_run]
    exact ⟨fun h => Except.noConfusion h, hw⟩
  by_cases hobj : object = NULL
  · simp only [Static.getInstance, hnull, hobj, if_true, if_false, throw_run]
    exact ⟨fun h => Error.noConfusion (Except.error.inj h), hw⟩
  cases hp : w.deref parent with
  | none =>
    simp only [Static.getInstance, hnull, hobj, if_false, bind_run, load_fault hp]
    exact ⟨fun h => Error.noConfusion (Except.error.inj h), hw⟩
  | some c =>
    have hrun : Static.getInstance parent object w =
        SerializeHelper.getInstance org object w := by
      by_cases hc : c.origin = NULL
      · rw [Static.getInstance_of_origin hobj hp hc, hw.eq_org hp hc]
      · rw [Static.getInstance_of_child hobj hp hc]
        obtain ⟨o, ho, horg, hchild, _, _⟩ := hw
        have hne : parent ≠ org := by
          rintro rfl
          rw [hp] at ho
          exact hc ((Option.some.inj ho) ▸ horg)
        rw [(hchild parent c hp hne).1]
    rw [hrun]
    obtain ⟨⟨r, hr⟩, hw1⟩ := hw.getInstance object
    exact ⟨by rw [hr]; exact fun h => Except.noConfusion h, hw1⟩

theorem World.Owned.static_objectSerialized {org : Ptr} {w : World} (hw : w.Owned org)
    (inst object : Ptr) :
    (Static.objectSerialized inst object w).1 ≠ .error .notOrigin ∧
      (Static.objectSerialized inst object w).2.Owned org := by
  by_cases hnull : inst = NULL
  · simp only [Static.objectSerialized, hnull, if_true, pure_run]
    exact ⟨fun h => Except.noConfusion h, hw⟩
  by_cases hobj : object = NULL
  · simp only [Static.objectSerialized, hnull, hobj, if_true, if_false, throw_run]
    exact ⟨fun h => Error.noConfusion (Except.error.inj h), hw⟩
  cases hp : w.deref inst with
  | none =>
    simp only [Static.objectSerialized, hnull, hobj, if_false, bind_run, load_fault hp]
    exact ⟨fun h => Error.noConfusion (Except.error.inj h), hw⟩
  | some c =>
    have hrun : Static.objectSerialized inst object w =
        SerializeHelper.objectSerialized org object w := by
      by_cases hc : c.origin = NULL
      · rw [Static.objectSerialized_of_origin hobj hp hc, hw.eq_org hp hc]
      · rw [Static.objectSerialized_of_child hobj hp hc]
        obtain ⟨o, ho, horg, hchild, _, _⟩ := hw
        have hne : inst ≠ org := by
          rintro rfl
          rw [hp] at ho
          exact hc ((Option.some.inj ho) ▸ horg)
        rw [(hchild inst c hp hne).1]
    rw [hrun]
    obtain ⟨hr, hw1⟩ := hw.objectSerialized object
    refine ⟨?_, hw1⟩
    rcases hr with hr | hr
    · rw [hr]
      exact fun h => Except.noConfusion h
    · rw [hr]
      exact fun h => Error.noConfusion (Except.error.inj h)

/-- The invariant `World.Owned` holds after every sequence of calls of the
static methods. -/
theorem World.Owned.runAll {org : Ptr} :
    ∀ (calls : List ApiCall) (w : World), w.Owned org → (casacore.runAll calls w).Owned org
  | [], _, hw => hw
  | .getInstance parent object :: cs, _, hw =>
    World.Owned.runAll cs _ (hw.static_getInstance parent object).2
  | .update inst index :: cs, _, hw => World.Owned.runAll cs _ (hw.update inst index)
  | .objectSerialized inst object :: cs, _, hw =>
    World.Owned.runAll cs _ (hw.static_objectSerialized inst object).2

end Owner

section Exact

variable {T : Type}

theorem length_elems (putT : T → List Byte) (data : Nat → T) (c : Nat)
    (hc : ∀ x, (putT x).length = c) : ∀ m i, (elems putT data m i).length = c * m
  | 0, _ => by simp [elems]
  | m + 1, i => by
    simp only [elems, List.length_append, hc, length_elems putT data c hc m (i + 1)]
    ring

/-- The number of elements a call of `putAipsIO` writes: on a live instance
that finds something available, the call writes exactly `M` elements from
`start` on when, after the count and `M` elements, the region is finished or a
check finds nothing available (after element `start + M - 1` at a multiple of
100, or after the count for `M = 0`), and every check before finds something
available. -/
theorem putAipsIO_exact (putUInt : Nat → List Byte) (putT : T → List Byte) (ios n : Nat)
    (data : Nat → T) (s : Int) {sh : Ptr} {w : World} {h : SerializeHelper}
    (hsh : w.deref sh = some h) (havail : 0 < h.softLimit - ((w.bufs h.buf).length : Int))
    (M : Nat) (hle : startOf (resumeIdx h.index s) s + M ≤ n)
    (hgo : ∀ j, j < M → (j = 0 ∨ (startOf (resumeIdx h.index s) s + j - 1) % 100 = 0) →
      0 < h.softLimit - (((w.write ios ((if h.index ≤ s then putUInt n else []) ++
        elems putT data j (startOf (resumeIdx h.index s) s))).bufs h.buf).length : Int))
    (hstop : startOf (resumeIdx h.index s) s + M = n ∨
      ((M = 0 ∨ (startOf (resumeIdx h.index s) s + M - 1) % 100 = 0) ∧
        h.softLimit - (((w.write ios ((if h.index ≤ s then putUInt n else []) ++
          elems putT data M (startOf (resumeIdx h.index s) s))).bufs h.buf).length : Int)
          ≤ 0)) :
    ∃ w1,
      putAipsIO putUInt putT ios n data sh s w = (.ok (), w1) ∧
      appended ios ( putAipsIO putUInt putT ios n data sh s) w =
        (.ok ((if h.index ≤ s then putUInt n else []) ++
          elems putT data M (startOf (resumeIdx h.index s) s)), w1) ∧
      w1.deref sh = some
        { h with
          index := finalIdx n s (startOf (resumeIdx h.index s) s) M (resumeIdx h.index s) } ∧
      w1.bufs = (w.write ios ((if h.index ≤ s then putUInt n else []) ++
          elems putT data M (startOf (resumeIdx h.index s) s))).bufs := by
  have key : ∀ (m : Nat) (avail : Int),
      (avail = h.softLimit - (((w.write ios ((if h.index ≤ s then putUInt n else []) ++
        elems putT data 0 (startOf (resumeIdx h.index s) s))).bufs h.buf).length : Int)) →
      (avail ≤ 0 → m = 0) →
      (∀ j, j ≤ m →
        h.softLimit - (((w.write ios ((if h.index ≤ s then putUInt n else []) ++
          elems putT data j (startOf (resumeIdx h.index s) s))).bufs h.buf).length : Int)
          ≤ 0 →
        m ≤ j + (if j = 0 then (100 - startOf (resumeIdx h.index s) s % 100) % 100 + 1
          else (100 - (startOf (resumeIdx h.index s) s + j - 1) % 100) % 100)) →
      (m = 0 ∨ startOf (resumeIdx h.index s) s + m ≤ n) →
      (n ≤ startOf (resumeIdx h.index s) s + m ∨ (m = 0 ∧ avail ≤ 0) ∨
        (0 < m ∧ (startOf (resumeIdx h.index s) s + m - 1) % 100 = 0 ∧
          h.softLimit - (((w.write ios ((if h.index ≤ s then putUInt n else []) ++
            elems putT data m (startOf (resumeIdx h.index s) s))).bufs h.buf).length : Int)
            ≤ 0)) →
      m = M := by
    intro m avail hav hzero hover hbnd hreason
    apply Nat.le_antisymm
    · by_contra hgt
      have hlt : M < m := Nat.lt_of_not_le hgt
      rcases hstop with h1 | ⟨h1, h2⟩
      · omega
      · by_cases hM : M = 0
        · subst hM
          have := hzero (by rw [hav]; exact h2)
          omega
        · have h3 := hover M (Nat.le_of_lt hlt) h2
          rw [if_neg hM] at h3
          have h4 : (startOf (resumeIdx h.index s) s + M - 1) % 100 = 0 := by
            rcases h1 with h1 | h1
            · exact absurd h1 hM
            · exact h1
          omega
    · by_contra hgt
      have hlt : m < M := Nat.lt_of_not_le hgt
      rcases hreason with h1 | ⟨h1, h2⟩ | ⟨h1, h2, h3⟩
      · omega
      · subst h1
        have := hgo 0 hlt (Or.inl rfl)
        rw [← hav] at this
        omega
      · have := hgo m hlt (Or.inr h2)
        omega
  by_cases hfirst : h.index ≤ s
  · have hsh1 : (w.write ios (putUInt n)).deref sh = some h := by simpa using hsh
    have hsh2 : (((w.write ios (putUInt n)).store sh { h with index := s + 1 }).recordAll
        [(sh, h.index, s + 1)]).deref sh = some { h with index := s + 1 } := by
      simp [World.deref_store_same hsh1]
    have hres : resumeIdx h.index s = s + 1 := by simp [resumeIdx, hfirst]
    obtain ⟨m, es, hrun, hzero, _, hover, hbnd, hreason⟩ :=
      putData_checks putT ios n data s hsh2 (s + 1)
        (h.softLimit - (((w.write ios (putUInt n)).bufs h.buf).length : Int))
    rw [hres] at key hgo hstop hle ⊢
    simp only [if_pos hfirst] at key hgo hstop ⊢
    have hm : m = M := key m _ (by simp [elems]) hzero
      (fun j hj hav => hover j hj (by simpa using hav)) hbnd
      (by
        rcases hreason with h1 | h1 | ⟨h1, h2, h3⟩
        · exact Or.inl h1
        · exact Or.inr (Or.inl h1)
        · exact Or.inr (Or.inr ⟨h1, h2, by simpa using h3⟩))
    subst hm
    have hrun1 : putAipsIO putUInt putT ios n data sh s w =
        (.ok (), ((w.write ios (putUInt n ++ elems putT data m (startOf (s + 1) s))).store sh
          { h with index := finalIdx n s (startOf (s + 1) s) m (s + 1) }).recordAll
            (es ++ [(sh, h.index, s + 1)])) := by
      rw [putAipsIO_first putUInt putT ios n data s hsh havail hfirst, hrun]
      simp
    exact ⟨_, hrun1, appended_normal _ _ _ _ _ _ _ hrun1, deref_normal hsh _ _ _ _, by simp⟩
  · have hres : resumeIdx h.index s = h.index := by simp [resumeIdx, hfirst]
    obtain ⟨m, es, hrun, hzero, _, hover, hbnd, hreason⟩ :=
      putData_checks putT ios n data s hsh h.index
        (h.softLimit - ((w.bufs h.buf).length : Int))
    rw [hres] at key hgo hstop hle ⊢
    simp only [if_neg hfirst, List.nil_append] at key hgo hstop ⊢
    have hm : m = M := key m _ (by simp [elems]) hzero hover hbnd hreason
    subst hm
    have hrun1 := putAipsIO_resume putUInt putT ios n data s hsh havail hfirst
    rw [hrun] at hrun1
    exact ⟨_, hrun1, appended_normal _ _ _ _ _ _ _ hrun1, deref_normal hsh _ _ _ _, by simp⟩

end Exact

section Scenario

variable {T : Type}

theorem callsTrace_cons (putUInt : Nat → List Byte) (putT : T → List Byte) (ios n : Nat)
    (data : Nat → T) (sh : Ptr) (s : Int) (c : Bool) (cs : List Bool) {w wc w1 w2 : World}
    {h1 : SerializeHelper} {out : List Byte} {rest : List (List Byte × Int)}
    (hclear : clearIf c sh w = (.ok (), wc))
    (happ : appended ios ( putAipsIO putUInt putT ios n data sh s) wc = (.ok out, w1))
    (hd : w1.deref sh = some h1)
    (hrest : callsTrace putUInt putT ios n data sh s cs w1 = (.ok rest, w2)) :
    callsTrace putUInt putT ios n data sh s (c :: cs) w = (.ok ((out, h1.index) :: rest), w2) := by
  have hne := World.ne_NULL_of_deref hd
  simp only [callsTrace, bind_run, hclear, happ, SerializeHelper.Static.getIndex, hne, if_false,
    load_run hd, pure_run, hrest]

/-- One call of the scenario of 500 elements of eight bytes under a soft limit
of 1000 bytes, on an empty buffer: the number `M` of elements written is fixed
by the lengths at the checks. -/
theorem scenario_call (putUInt : Nat → List Byte) (putT : T → List Byte) (data : Nat → T)
    (hcount : (putUInt 500).length = 4) (helem : ∀ x, (putT x).length = 8)
    {w : World} {h : SerializeHelper} (hsh : w.deref 2 = some h)
    (hsl : h.softLimit = 1000) (hbuf : h.buf = 0) (hempty : w.bufs 0 = [])
    (start M : Nat) (hstart : startOf (resumeIdx h.index 0) 0 = start)
    (hle : start + M ≤ 500)
    (hgo : ∀ j, j < M → (j = 0 ∨ (start + j - 1) % 100 = 0) →
      (if h.index ≤ 0 then 4 else 0) + 8 * j < 1000)
    (hstop : start + M = 500 ∨
      ((M = 0 ∨ (start + M - 1) % 100 = 0) ∧ 1000 ≤ (if h.index ≤ 0 then 4 else 0) + 8 * M)) :
    ∃ w1,
      appended 0 ( putAipsIO putUInt putT 0 500 data 2 0) w =
        (.ok ((if h.index ≤ 0 then putUInt 500 else []) ++ elems putT data M start), w1) ∧
      w1.deref 2 = some { h with index := finalIdx 500 0 start M (resumeIdx h.index 0) } := by
  have hlen : ∀ j, (((w.write 0 ((if h.index ≤ 0 then putUInt 500 else []) ++
      elems putT data j start)).bufs 0).length : Int) =
      (if h.index ≤ 0 then 4 else 0) + 8 * (j : Int) := by
    intro j
    rw [World.bufs_write_same, hempty]
    by_cases hx : h.index ≤ 0
    · simp [hx, hcount, length_elems putT data 8 helem]
    · simp [hx, length_elems putT data 8 helem]
  obtain ⟨w1, _, happ, hd, _⟩ := putAipsIO_exact putUInt putT 0 500 data 0 hsh
    (by rw [hsl, hbuf, hempty]; decide) M (by rw [hstart]; exact hle)
    (by
      intro j hj hcheck
      rw [hstart] at hcheck ⊢
      rw [hsl, hbuf, hlen j]
      have := hgo j hj hcheck
      by_cases hx : h.index ≤ 0
      · simp only [hx, if_true] at this ⊢
        omega
      · simp only [hx, if_false] at this ⊢
        omega)
    (by
      rw [hstart, hsl, hbuf, hlen M]
      rcases hstop with h1 | ⟨h1, h2⟩
      · exact Or.inl h1
      · refine Or.inr ⟨h1, ?_⟩
        by_cases hx : h.index ≤ 0
        · simp only [hx, if_true] at h2 ⊢
          omega
        · simp only [hx, if_false] at h2 ⊢
          omega)
  rw [hstart] at happ hd
  exact ⟨w1, happ, hd⟩

/-- The scenario of 500 elements of eight bytes under a soft limit of 1000
bytes, the buffer empty at the first call and cleared before the second and
the third: the bytes appended and the index left by each call. -/
theorem scenario_run (putUInt : Nat → List Byte) (putT : T → List Byte) (data : Nat → T)
    (hcount : (putUInt 500).length = 4) (helem : ∀ x, (putT x).length = 8) :
    (∃ w1, callsTrace putUInt putT 0 500 data 2 0 [false] (World.registered 1000) =
      (.ok [(putUInt 500 ++ elems putT data 201 0, 202)], w1)) ∧
    ∃ w3, callsTrace putUInt putT 0 500 data 2 0 [false, true, true] (World.registered 1000) =
      (.ok [(putUInt 500 ++ elems putT data 201 0, 202),
        (elems putT data 200 201, 402),
        (elems putT data 99 401, LLONG_MAX - 1)], w3) := by
  have hsh0 : (World.registered 1000).deref 2 = some (registeredState 1000) := rfl
  obtain ⟨w1, happ1, hd1⟩ := scenario_call putUInt putT data hcount helem hsh0 rfl rfl rfl
    0 201 (by decide) (by decide)
    (fun j hj hc => by
      have : (registeredState 1000).index = 0 := rfl
      rw [this]
      simp only [le_refl, if_true]
      omega)
    (Or.inr ⟨Or.inr (by decide), by decide⟩)
  have e1 : finalIdx 500 0 0 201 (resumeIdx (registeredState 1000).index 0) = 202 := by decide
  have i1 : (if (registeredState 1000).index ≤ 0 then putUInt 500 else []) = putUInt 500 :=
    if_pos (by decide)
  rw [e1] at hd1
  rw [i1] at happ1
  have hc1 : clearIf false 2 (World.registered 1000) = (.ok (), World.registered 1000) := rfl
  constructor
  · exact ⟨w1, callsTrace_cons putUInt putT 0 500 data 2 0 false [] hc1 happ1 hd1 rfl⟩
  have hdc1 : (w1.clear 0).deref 2 = some { registeredState 1000 with index := 202 } := by
    simpa using hd1
  obtain ⟨w2, happ2, hd2⟩ := scenario_call putUInt putT data hcount helem hdc1 rfl rfl
    (World.bufs_clear_same w1 0) 201 200 (by decide) (by decide)
    (fun j hj hc => by
      simp only [show ¬ ((202 : Int) ≤ 0) by decide, if_false]
      omega)
    (Or.inr ⟨Or.inr (by decide), by decide⟩)
  have e2 : finalIdx 500 0 201 200
      (resumeIdx ({ registeredState 1000 with index := 202 } : SerializeHelper).index 0) =
      402 := by decide
  have i2 : (if ({ registeredState 1000 with index := 202 } : SerializeHelper).index ≤ 0
      then putUInt 500 else []) = [] := if_neg (by decide)
  rw [e2] at hd2
  rw [i2, List.nil_append] at happ2
  have hdc2 : (w2.clear 0).deref 2 = some { registeredState 1000 with index := 402 } := by
    simpa using hd2
  obtain ⟨w3, happ3, hd3⟩ := scenario_call putUInt putT data hcount helem hdc2 rfl rfl
    (World.bufs_clear_same w2 0) 401 99 (by decide) (by decide)
    (fun j hj hc => by
      simp only [show ¬ ((402 : Int) ≤ 0) by decide, if_false]
      omega)
    (Or.inl (by decide))
  have e3 : finalIdx 500 0 401 99
      (resumeIdx ({ registeredState 1000 with index := 402 } : SerializeHelper).index 0) =
      LLONG_MAX - 1 := by decide
  have i3 : (if ({ registeredState 1000 with index := 402 } : SerializeHelper).index ≤ 0
      then putUInt 500 else []) = [] := if_neg (by decide)
  rw [e3] at hd3
  rw [i3, List.nil_append] at happ3
  have hcl1 : clearIf true 2 w1 = (.ok (), w1.clear 0) := clearIf_true_run hd1
  have hcl2 : clearIf true 2 w2 = (.ok (), w2.clear 0) := clearIf_true_run hd2
  exact ⟨w3, callsTrace_cons putUInt putT 0 500 data 2 0 false [true, true] hc1 happ1 hd1
    (callsTrace_cons putUInt putT 0 500 data 2 0 true [true] hcl1 happ2 hd2
      (callsTrace_cons putUInt putT 0 500 data 2 0 true [] hcl2 happ3 hd3 rfl))⟩

end Scenario

/-! ## The claims, continued -/

open SerializeHelper in
/-- C11: for every state of the program and every non-null handle, static
getInstance and static objectSerialized called with a NULL object throw and
leave the whole state, the instances of the origin included, as it was; and
the instance methods getInstance and objectSerialized, called on any live
object whose origin member is not NULL, throw and leave the whole state as it
was. -/
theorem usage_errors (w : World) (parent : Ptr) (hparent : parent ≠ NULL) :
    Static.getInstance parent NULL w = (.error .nullObject, w) ∧
    Static.objectSerialized parent NULL w = (.error .nullObject, w) ∧
    ∀ (this object : Ptr) (self : SerializeHelper),
      w.deref this = some self → self.origin ≠ NULL →
      SerializeHelper.getInstance this object w = (.error .notOrigin, w) ∧
      SerializeHelper.objectSerialized this object w = (.error .notOrigin, w) := by
  refine ⟨?_, ?_, ?_⟩
  · simp [Static.getInstance, hparent]
  · simp [Static.objectSerialized, hparent]
  · intro this object self hthis hchild
    constructor
    · simp [SerializeHelper.getInstance, load_run hthis, hchild]
    · simp [SerializeHelper.objectSerialized, load_run hthis, hchild]

open SerializeHelper in
/-- Witness of C11: the origin as the handle, in the state that holds only the
origin and in the state after an object has been registered; there the state
of the registered object is the instance that is not an origin. -/
theorem usage_errors_witness :
    (Static.getInstance 1 NULL (World.fresh 1000) = (.error .nullObject, World.fresh 1000) ∧
      Static.objectSerialized 1 NULL (World.fresh 1000) =
        (.error .nullObject, World.fresh 1000)) ∧
    Static.getInstance 1 NULL (World.registered 1000) =
      (.error .nullObject, World.registered 1000) ∧
    Static.objectSerialized 1 NULL (World.registered 1000) =
      (.error .nullObject, World.registered 1000) ∧
    SerializeHelper.getInstance 2 7 (World.registered 1000) =
      (.error .notOrigin, World.registered 1000) ∧
    SerializeHelper.objectSerialized 2 7 (World.registered 1000) =
      (.error .notOrigin, World.registered 1000) :=
  ⟨⟨(usage_errors (World.fresh 1000) 1 (by decide)).1,
      (usage_errors (World.fresh 1000) 1 (by decide)).2.1⟩,
    (usage_errors (World.registered 1000) 1 (by decide)).1,
    (usage_errors (World.registered 1000) 1 (by decide)).2.1,
    (usage_errors (World.registered 1000) 1 (by decide)).2.2 2 7 (registeredState 1000) rfl
      (Nat.succ_ne_zero 0)⟩

open SerializeHelper in
/-- C12: update on a live (non-null) instance, through the static method or
the instance method: it never fails, returns softLimit minus the length of
the buffer at the time of the call, whatever its sign, sets the index of
the instance to the index passed and leaves its other members (soft limit,
buffer reference, instances), the contents of every buffer and every other
object as they were; right after clearMemory the value returned is
softLimit. -/
theorem update_effect (w : World) (sh : Ptr) (index : Int) (h : SerializeHelper)
    (hsh : w.deref sh = some h) :
    ∃ w1,
      Static.update sh index w = (.ok (h.softLimit - ((w.bufs h.buf).length : Int)), w1) ∧
      SerializeHelper.update sh index w =
        (.ok (h.softLimit - ((w.bufs h.buf).length : Int)), w1) ∧
      w1.deref sh = some { h with index := index } ∧
      w1.bufs = w.bufs ∧
      (∀ p, p ≠ sh → w1.deref p = w.deref p) ∧
      w1.heap.length = w.heap.length ∧
      (do
        SerializeHelper.clearMemory sh
        SerializeHelper.update sh index : Exec Int) w =
        (.ok h.softLimit, (w1.clear h.buf)) := by
  have hne := World.ne_NULL_of_deref hsh
  have hrun := update_run hsh index
  refine ⟨_, ?_, hrun, ?_, by simp, ?_, by simp, ?_⟩
  · simp [Static.update, hne, hrun]
  · simp [World.deref_store_same hsh]
  · intro p hp
    simp [World.deref_store_ne _ hp]
  · have hshc : (w.clear h.buf).deref sh = some h := by simpa using hsh
    simp only [bind_run, clearMemory_run hsh, update_run hshc index]
    refine Prod.ext ?_ ?_
    · simp [World.clear]
    · cases sh <;> rfl

open SerializeHelper in
/-- Witness of C12: the index of the registered object set to 5 under a soft
limit of 1000 on an empty buffer. -/
theorem update_effect_witness :
    ∃ w1,
      Static.update 2 5 (World.registered 1000) =
        (.ok ((registeredState 1000).softLimit -
          (((World.registered 1000).bufs (registeredState 1000).buf).length : Int)), w1) ∧
      SerializeHelper.update 2 5 (World.registered 1000) =
        (.ok ((registeredState 1000).softLimit -
          (((World.registered 1000).bufs (registeredState 1000).buf).length : Int)), w1) ∧
      w1.deref 2 = some { registeredState 1000 with index := 5 } ∧
      w1.bufs = (World.registered 1000).bufs ∧
      (∀ p, p ≠ 2 → w1.deref p = (World.registered 1000).deref p) ∧
      w1.heap.length = (World.registered 1000).heap.length ∧
      (do
        SerializeHelper.clearMemory 2
        SerializeHelper.update 2 5 : Exec Int) (World.registered 1000) =
        (.ok (registeredState 1000).softLimit, (w1.clear (registeredState 1000).buf)) :=
  update_effect (World.registered 1000) 2 5 (registeredState 1000) rfl

/-- C16: for every index idx and start offset s with 0 <= idx - s - 1 < 2^32,
the value of uInt start = (uInt)idx - shStartIdx - 1 in putAipsIO is
idx - s - 1, also when idx is 2^32 or more and the cast truncates it; hence a
call on a live instance holding idx that finds something available writes no
count and appends elements from element idx - s - 1 on, at least one when
that element is below n. -/
theorem skip_count {T : Type} (putUInt : Nat → List Byte) (putT : T → List Byte) (ios n : Nat)
    (data : Nat → T) (sh : Ptr) (idx s : Int) (w : World) (h : SerializeHelper)
    (h0 : 0 ≤ idx - s - 1) (h1 : idx - s - 1 < 2 ^ 32)
    (hsh : w.deref sh = some h) (hidx : h.index = idx)
    (havail : 0 < h.softLimit - ((w.bufs h.buf).length : Int)) :
    (((idx % 2 ^ 32 - s - 1) % 2 ^ 32).toNat : Int) = idx - s - 1 ∧
    (startOf idx s : Int) = idx - s - 1 ∧
    ∃ (m : Nat) (x : Int) (es : List (Ptr × Int × Int)),
      putAipsIO putUInt putT ios n data sh s w =
        (.ok (), ((w.write ios (elems putT data m (idx - s - 1).toNat)).store sh
          { h with index := x }).recordAll es) ∧
      ((idx - s - 1).toNat < n → 0 < m) := by
  have hstart := startOf_eq idx s h0 h1
  have hnat : startOf idx s = (idx - s - 1).toNat := by omega
  have hfirst : ¬ h.index ≤ s := by omega
  obtain ⟨m, es, _, hrun, hprog, _, _⟩ := putData_run putT ios n data s hsh h.index
    (h.softLimit - ((w.bufs h.buf).length : Int))
  rw [hidx, hnat] at hrun hprog
  refine ⟨hstart, hstart, m, finalIdx n s (idx - s - 1).toNat m idx, es, ?_, hprog havail⟩
  rw [putAipsIO_resume putUInt putT ios n data s hsh havail hfirst, hidx, hrun]

/-- Witness of C16: an index above 2^32, which the cast to uInt truncates;
the call resumes at element 1 of 3. -/
theorem skip_count_witness :
    (((4294967298 % 2 ^ 32 - 4294967296 - 1) % 2 ^ 32 : Int).toNat : Int) =
      4294967298 - 4294967296 - 1 ∧
    (startOf 4294967298 4294967296 : Int) = 4294967298 - 4294967296 - 1 ∧
    ∃ (m : Nat) (x : Int) (es : List (Ptr × Int × Int)),
      putAipsIO exampleUInt exampleT 0 3 exampleData 2 4294967296
          (SerializeHelper.update 2 4294967298 (World.registered 1000)).2 =
        (.ok (), (((SerializeHelper.update 2 4294967298 (World.registered 1000)).2.write 0
          (elems exampleT exampleData m (4294967298 - 4294967296 - 1 : Int).toNat)).store 2
          { ({ registeredState 1000 with index := 4294967298 } : SerializeHelper) with
            index := x }).recordAll es) ∧
      ((4294967298 - 4294967296 - 1 : Int).toNat < 3 → 0 < m) :=
  skip_count exampleUInt exampleT 0 3 exampleData 2 4294967298 4294967296
    (SerializeHelper.update 2 4294967298 (World.registered 1000)).2
    { registeredState 1000 with index := 4294967298 } (by decide) (by decide) rfl rfl
    (by decide)

/-- C17: for n = 0, a call of putAipsIO on a live instance whose index is not
above the start offset and that finds something available appends the count 0
as written by the scalar writer and nothing else, and leaves the index
LLONG_MAX-1, whatever is available after the count has been written. -/
theorem empty_region {T : Type} (putUInt : Nat → List Byte) (putT : T → List Byte) (ios : Nat)
    (data : Nat → T) (sh : Ptr) (s : Int) (w : World) (h : SerializeHelper)
    (hsh : w.deref sh = some h) (hfirst : h.index ≤ s)
    (havail : 0 < h.softLimit - ((w.bufs h.buf).length : Int)) :
    ∃ es : List (Ptr × Int × Int),
      putAipsIO putUInt putT ios 0 data sh s w =
        (.ok (), ((w.write ios (putUInt 0)).store sh
          { h with index := LLONG_MAX - 1 }).recordAll es) ∧
      appended ios ( putAipsIO putUInt putT ios 0 data sh s) w =
        (.ok (putUInt 0), ((w.write ios (putUInt 0)).store sh
          { h with index := LLONG_MAX - 1 }).recordAll es) := by
  have hsh1 : (w.write ios (putUInt 0)).deref sh = some h := by simpa using hsh
  have hsh2 : (((w.write ios (putUInt 0)).store sh { h with index := s + 1 }).recordAll
      [(sh, h.index, s + 1)]).deref sh = some { h with index := s + 1 } := by
    simp [World.deref_store_same hsh1]
  have hstart : startOf (s + 1) s = 0 := by
    have := startOf_resume s 0 (by norm_num)
    simpa using this
  obtain ⟨m, es, hmn, hrun, _, _, _⟩ := putData_run putT ios 0 data s hsh2 (s + 1)
    (h.softLimit - (((w.write ios (putUInt 0)).bufs h.buf).length : Int))
  rw [hstart] at hmn hrun
  have hm0 : m = 0 := by omega
  subst hm0
  have hrun1 : putAipsIO putUInt putT ios 0 data sh s w =
      (.ok (), ((w.write ios (putUInt 0)).store sh
        { h with index := LLONG_MAX - 1 }).recordAll (es ++ [(sh, h.index, s + 1)])) := by
    rw [putAipsIO_first putUInt putT ios 0 data s hsh havail hfirst, hrun]
    simp [finalIdx, elems]
  exact ⟨_, hrun1, appended_of_run _ _ _ _ _ hrun1 (by simp)⟩

/-- Witness of C17: an empty array written for the registered object. -/
theorem empty_region_witness :
    ∃ es : List (Ptr × Int × Int),
      putAipsIO exampleUInt exampleT 0 0 exampleData 2 0 (World.registered 1000) =
        (.ok (), (((World.registered 1000).write 0 (exampleUInt 0)).store 2
          { registeredState 1000 with index := LLONG_MAX - 1 }).recordAll es) ∧
      appended 0 ( putAipsIO exampleUInt exampleT 0 0 exampleData 2 0) (World.registered 1000) =
        (.ok (exampleUInt 0), (((World.registered 1000).write 0 (exampleUInt 0)).store 2
          { registeredState 1000 with index := LLONG_MAX - 1 }).recordAll es) :=
  empty_region exampleUInt exampleT 0 exampleData 2 0 (World.registered 1000)
    (registeredState 1000) rfl (by decide) (by decide)

/-- C19: for every start offset s >= 0 and every count n < 2^32 - 3 - s, a
call of putAipsIO on a live instance whose index is the completion value
LLONG_MAX-1 appends no byte, neither the count nor an element, and leaves the
index LLONG_MAX-1 and every object and buffer as they were, whatever is
available. -/
theorem reentry_is_noop {T : Type} (putUInt : Nat → List Byte) (putT : T → List Byte)
    (ios n : Nat) (data : Nat → T) (sh : Ptr) (s : Int) (w : World) (h : SerializeHelper)
    (hs0 : 0 ≤ s) (hbound : (n : Int) < 2 ^ 32 - 3 - s)
    (hsh : w.deref sh = some h) (hdone : h.index = LLONG_MAX - 1) :
    ∃ w1,
      putAipsIO putUInt putT ios n data sh s w = (.ok (), w1) ∧
      appended ios ( putAipsIO putUInt putT ios n data sh s) w = (.ok [], w1) ∧
      w1.bufs = w.bufs ∧ w1.heap = w.heap ∧
      (w1.deref sh).map (fun h => h.index) = some (LLONG_MAX - 1) := by
  obtain ⟨es, hrun, _⟩ := putAipsIO_done putUInt putT ios n data s hs0 hbound hsh hdone
  refine ⟨w.recordAll es, hrun, appended_of_run _ _ _ _ _ hrun (by simp), rfl, rfl, ?_⟩
  simp [hsh, hdone]

/-- Witness of C19: a second call on a region of two elements that the first
call has finished. -/
theorem reentry_is_noop_witness :
    ∃ w1,
      putAipsIO exampleUInt exampleT 0 2 exampleData 2 0
          ( putAipsIO exampleUInt exampleT 0 2 exampleData 2 0 (World.registered 1000)).2 =
        (.ok (), w1) ∧
      appended 0 ( putAipsIO exampleUInt exampleT 0 2 exampleData 2 0)
          ( putAipsIO exampleUInt exampleT 0 2 exampleData 2 0 (World.registered 1000)).2 =
        (.ok [], w1) ∧
      w1.bufs = ( putAipsIO exampleUInt exampleT 0 2 exampleData 2 0
        (World.registered 1000)).2.bufs ∧
      w1.heap = ( putAipsIO exampleUInt exampleT 0 2 exampleData 2 0
        (World.registered 1000)).2.heap ∧
      (w1.deref 2).map (fun h => h.index) = some (LLONG_MAX - 1) :=
  reentry_is_noop exampleUInt exampleT 0 2 exampleData 2 0
    ( putAipsIO exampleUInt exampleT 0 2 exampleData 2 0 (World.registered 1000)).2
    { registeredState 1000 with index := LLONG_MAX - 1 } (by decide) (by decide) rfl rfl

/-- C14: for a region with start offset s >= 0 and count n < 2^32 - 3 - s,
starting from a live instance whose index is not above s, after any sequence
of calls of putAipsIO, the buffer cleared or not before each, exactly one of
these holds for the index x1 of the instance and the bytes appended by the
calls: (a) x1 <= s and nothing has been appended; (b) x1 = s + 1 + k with
k < n and the bytes are the count followed by the first k elements; (c)
x1 = LLONG_MAX-1 and the bytes are the count followed by all n elements. The
index is LLONG_MAX-1 exactly in case (c), and no index s + 1 + k with k < n is
LLONG_MAX-1. -/
theorem checkpoint_invariant {T : Type} (putUInt : Nat → List Byte) (putT : T → List Byte)
    (ios n : Nat) (data : Nat → T) (sh : Ptr) (s : Int) (clears : List Bool) (w : World)
    (h : SerializeHelper) (hs0 : 0 ≤ s) (hbound : (n : Int) < 2 ^ 32 - 3 - s)
    (hsh : w.deref sh = some h) (hfresh : h.index ≤ s) :
    ∃ (bytes : List Byte) (x1 : Int) (w1 : World),
      calls putUInt putT ios n data sh s clears w = (.ok bytes, w1) ∧
      w1.deref sh = some { h with index := x1 } ∧
      (((x1 ≤ s ∧ bytes = []) ∧
          ¬ (∃ k : Nat, k < n ∧ x1 = s + 1 + (k : Int) ∧
            bytes = putUInt n ++ elems putT data k 0) ∧
          ¬ (x1 = LLONG_MAX - 1 ∧ bytes = putUInt n ++ elems putT data n 0)) ∨
        (¬ (x1 ≤ s ∧ bytes = []) ∧
          (∃ k : Nat, k < n ∧ x1 = s + 1 + (k : Int) ∧
            bytes = putUInt n ++ elems putT data k 0) ∧
          ¬ (x1 = LLONG_MAX - 1 ∧ bytes = putUInt n ++ elems putT data n 0)) ∨
        (¬ (x1 ≤ s ∧ bytes = []) ∧
          ¬ (∃ k : Nat, k < n ∧ x1 = s + 1 + (k : Int) ∧
            bytes = putUInt n ++ elems putT data k 0) ∧
          (x1 = LLONG_MAX - 1 ∧ bytes = putUInt n ++ elems putT data n 0))) ∧
      (x1 = LLONG_MAX - 1 ↔ bytes = putUInt n ++ elems putT data n 0 ∧ ¬ x1 ≤ s ∧
        ∀ k : Nat, k < n → x1 ≠ s + 1 + (k : Int)) ∧
      (∀ k : Nat, k < n → s + 1 + (k : Int) ≠ LLONG_MAX - 1) := by
  have h32 : (2 : Int) ^ 32 = 4294967296 := by norm_num
  have hmax : LLONG_MAX = 9223372036854775807 := rfl
  rw [h32] at hbound
  obtain ⟨k1, x1, w1, es, hrun, hsh1, hprog, _, _, _, _, _, _⟩ :=
    calls_run putUInt putT ios n data s hs0 (by rw [h32]; exact hbound) sh clears w h 0 hsh
      (Or.inl (Or.inl ⟨hfresh, rfl⟩))
  refine ⟨_, x1, w1, hrun, hsh1, ?_, ?_, fun k hk => by omega⟩
  · rcases hprog with (⟨hx, hk⟩ | ⟨hk, hx⟩) | ⟨hx, hk⟩
    · subst hk
      refine Or.inl ⟨⟨hx, by simp [hx, elems]⟩, ?_, ?_⟩
      · rintro ⟨k, _, hxk, _⟩; omega
      · rintro ⟨hxs, _⟩; omega
    · have hxs : ¬ x1 ≤ s := by omega
      refine Or.inr (Or.inl ⟨fun hA => hxs hA.1, ⟨k1, hk, hx, by simp [hfresh, hxs]⟩, ?_⟩)
      rintro ⟨hxs1, _⟩; omega
    · have hxs : ¬ x1 ≤ s := by omega
      refine Or.inr (Or.inr ⟨fun hA => hxs hA.1, ?_, hx, by simp [hfresh, hxs, hk]⟩)
      rintro ⟨k, _, hxk, _⟩; omega
  · constructor
    · intro hx
      have hxs : ¬ x1 ≤ s := by omega
      have hk : k1 = n := by
        rcases hprog with (⟨hx1, _⟩ | ⟨hk, hx1⟩) | ⟨_, hk⟩
        · omega
        · omega
        · exact hk
      exact ⟨by simp [hfresh, hxs, hk], hxs, fun k hk => by omega⟩
    · rintro ⟨_, hxs, hnk⟩
      rcases hprog with (⟨hx1, _⟩ | ⟨hk, hx1⟩) | ⟨hx1, _⟩
      · exact absurd hx1 hxs
      · exact absurd hx1 (hnk k1 hk)
      · exact hx1

/-- Witness of C14: three calls on 250 elements of one byte under a soft limit
of 64 bytes, the buffer cleared before each. -/
theorem checkpoint_invariant_witness :
    ∃ (bytes : List Byte) (x1 : Int) (w1 : World),
      calls exampleUInt exampleT 0 250 exampleData 2 0 [true, true, true] (World.registered 64) =
        (.ok bytes, w1) ∧
      w1.deref 2 = some { registeredState 64 with index := x1 } ∧
      (((x1 ≤ 0 ∧ bytes = []) ∧
          ¬ (∃ k : Nat, k < 250 ∧ x1 = 0 + 1 + (k : Int) ∧
            bytes = exampleUInt 250 ++ elems exampleT exampleData k 0) ∧
          ¬ (x1 = LLONG_MAX - 1 ∧ bytes = exampleUInt 250 ++ elems exampleT exampleData 250 0)) ∨
        (¬ (x1 ≤ 0 ∧ bytes = []) ∧
          (∃ k : Nat, k < 250 ∧ x1 = 0 + 1 + (k : Int) ∧
            bytes = exampleUInt 250 ++ elems exampleT exampleData k 0) ∧
          ¬ (x1 = LLONG_MAX - 1 ∧ bytes = exampleUInt 250 ++ elems exampleT exampleData 250 0)) ∨
        (¬ (x1 ≤ 0 ∧ bytes = []) ∧
          ¬ (∃ k : Nat, k < 250 ∧ x1 = 0 + 1 + (k : Int) ∧
            bytes = exampleUInt 250 ++ elems exampleT exampleData k 0) ∧
          (x1 = LLONG_MAX - 1 ∧
            bytes = exampleUInt 250 ++ elems exampleT exampleData 250 0))) ∧
      (x1 = LLONG_MAX - 1 ↔ bytes = exampleUInt 250 ++ elems exampleT exampleData 250 0 ∧
        ¬ x1 ≤ 0 ∧ ∀ k : Nat, k < 250 → x1 ≠ 0 + 1 + (k : Int)) ∧
      (∀ k : Nat, k < 250 → (0 : Int) + 1 + (k : Int) ≠ LLONG_MAX - 1) :=
  checkpoint_invariant exampleUInt exampleT 0 250 exampleData 2 0 [true, true, true]
    (World.registered 64) (registeredState 64) (by decide) (by decide) rfl (by decide)

/-- C18 as stated fails, in two ways. With start offset LLONG_MAX-3, two
elements of one byte and a soft limit of 1 byte, the buffer cleared before
every call, the first call writes the count and the second writes element 0
and leaves the index LLONG_MAX-1; the region is not complete, and the third
call finds 1 byte available and writes element 1, but leaves the index
LLONG_MAX-1, which is not above the index it found. And an instance whose
index 10 lies beyond a region of three elements at start offset 0 is not
complete (its index is not LLONG_MAX-1) and finds 1000 bytes available, yet
the call writes neither the count nor an element and leaves the index 10. -/
theorem no_progress_beyond_region :
    (callsTrace exampleUInt exampleT 0 2 exampleData 2 9223372036854775804 [true, true, true]
      (World.registered 1)).1.toOption =
      some [([0, 0, 0, 2], LLONG_MAX - 2), ([10], LLONG_MAX - 1), ([11], LLONG_MAX - 1)] ∧
    ((SerializeHelper.update 2 10 (World.registered 1000)).2.deref 2).map
      (fun h => h.index) = some 10 ∧
    (SerializeHelper.Static.getAvailable 2
      (SerializeHelper.update 2 10 (World.registered 1000)).2).1.toOption = some 1000 ∧
    (appended 0 ( putAipsIO exampleUInt exampleT 0 3 exampleData 2 0)
      (SerializeHelper.update 2 10 (World.registered 1000)).2).1.toOption = some [] ∧
    (( putAipsIO exampleUInt exampleT 0 3 exampleData 2 0
      (SerializeHelper.update 2 10 (World.registered 1000)).2).2.deref 2).map
      (fun h => h.index) = some 10 := by
  decide!

/-- C18, amended: for every region with count n (a uInt) and start offset s
with s + n < LLONG_MAX - 1, and every live instance: when the index is a
checkpoint of that region (not above s with nothing written, or s + 1 + k
after the count and k < n elements), a call of putAipsIO that finds something
available writes the count (when the index was not above s) or at least one
new element, from element k on, and leaves an index strictly above the one
it found; and from every such checkpoint, with a positive soft limit and the
buffer cleared before every call, whatever the buffer holds at first, the
index is the completion value LLONG_MAX-1 after at most n + 1 calls. -/
theorem open_region_progress {T : Type} (putUInt : Nat → List Byte) (putT : T → List Byte)
    (ios n : Nat) (data : Nat → T) (sh : Ptr) (s : Int) (w : World) (h : SerializeHelper)
    (hn : n < 2 ^ 32) (hbound : s + (n : Int) < LLONG_MAX - 1)
    (hsh : w.deref sh = some h) :
    (∀ k, Open n s k h.index → 0 < h.softLimit - ((w.bufs h.buf).length : Int) →
      ∃ (m : Nat) (x : Int) (es : List (Ptr × Int × Int)),
        putAipsIO putUInt putT ios n data sh s w =
          (.ok (), ((w.write ios ((if h.index ≤ s then putUInt n else []) ++
            elems putT data m k)).store sh { h with index := x }).recordAll es) ∧
        (h.index ≤ s ∨ 0 < m) ∧ h.index < x) ∧
    (∀ k, Open n s k h.index → 0 < h.softLimit →
      ((chunked putUInt putT ios n data sh s (List.replicate (n + 1) true) w).2.deref sh).map
        (fun h => h.index) = some (LLONG_MAX - 1)) := by
  have hs : s < LLONG_MAX - 1 := by omega
  constructor
  · intro k hopen havail
    obtain ⟨m, x, es, hrun, _, _, hstep, hmono⟩ :=
      putAipsIO_open putUInt putT ios n data s hn hs hsh hopen
    obtain ⟨hxs, hm⟩ := hstep havail
    obtain ⟨_, hle, hcount⟩ := hmono (by omega)
    refine ⟨m, x, es, ?_, ?_, ?_⟩
    · rw [hrun]
      simp [havail]
    · by_cases hfirst : h.index ≤ s
      · exact Or.inl hfirst
      · exact Or.inr (hm hfirst)
    · by_cases hfirst : h.index ≤ s
      · omega
      · have := hm hfirst
        omega
  · intro k hopen hpos
    obtain ⟨k1, x1, w1, bytes, hrun, hsh1, hprog, hcount, hbegun⟩ :=
      chunked_progress putUInt putT ios n data s hn hs sh (n + 1) w h k hsh
        (Or.inl hopen) hpos
    have hxs := hbegun (Or.inl (Nat.succ_pos n))
    rw [hrun]
    simp only [hsh1, Option.map_some', Option.some.injEq]
    rcases hcount with hc | ⟨hc, _⟩
    · exact hc
    · rcases hprog with (⟨hx, _⟩ | ⟨hk, _⟩) | ⟨hx, _⟩
      · exact absurd hx hxs
      · omega
      · exact hx

/-- Witness of C18: five elements of one byte under a soft limit of 1 byte.
On the state of a newly registered object the call writes the count; and
with six bytes already in the buffer, so that nothing is available before
the first clear, the index is LLONG_MAX-1 after six calls, the first of
which writes the count and each of the others one element. -/
theorem open_region_progress_witness :
    (∃ (m : Nat) (x : Int) (es : List (Ptr × Int × Int)),
      putAipsIO exampleUInt exampleT 0 5 exampleData 2 0 (World.registered 1) =
        (.ok (), (((World.registered 1).write 0
          ((if (registeredState 1).index ≤ 0 then exampleUInt 5 else []) ++
            elems exampleT exampleData m 0)).store 2
          { registeredState 1 with index := x }).recordAll es) ∧
      ((registeredState 1).index ≤ 0 ∨ 0 < m) ∧ (registeredState 1).index < x) ∧
    ((World.registered 1).write 0 [1, 2, 3, 4, 5, 6]).bufs 0 = [1, 2, 3, 4, 5, 6] ∧
    ((chunked exampleUInt exampleT 0 5 exampleData 2 0 (List.replicate (5 + 1) true)
      ((World.registered 1).write 0 [1, 2, 3, 4, 5, 6])).2.deref 2).map
        (fun h => h.index) = some (LLONG_MAX - 1) :=
  ⟨(open_region_progress exampleUInt exampleT 0 5 exampleData 2 0 (World.registered 1)
      (registeredState 1) (by decide) (by decide) rfl).1 0 (Or.inl ⟨by decide, rfl⟩)
      (by decide),
    rfl,
    (open_region_progress exampleUInt exampleT 0 5 exampleData 2 0
      ((World.registered 1).write 0 [1, 2, 3, 4, 5, 6])
      (registeredState 1) (by decide) (by decide) rfl).2 0 (Or.inl ⟨by decide, rfl⟩)
      (by decide)⟩

/-- C15: a call of putAipsIO on a live instance writes the count if the region
was not begun and something is available, then m elements from position
start on, and leaves the index that stands for them; update is called (and
so available is queried again) after every element written whose position
is a multiple of 100, so that any 100 elements written one after the other
include one that is followed by such a call; and when, after the count and
j of the elements, the soft limit minus the buffer length is not positive,
the call writes at most 99 elements more, which is within the 100 of the
claim.  Writes only append to a buffer in this model. -/
theorem overshoot_bound {T : Type} (putUInt : Nat → List Byte) (putT : T → List Byte)
    (ios n : Nat) (data : Nat → T) (sh : Ptr) (s : Int) (w : World) (h : SerializeHelper)
    (hsh : w.deref sh = some h) :
    ∃ (m : Nat) (x : Int) (es : List (Ptr × Int × Int)),
      putAipsIO putUInt putT ios n data sh s w =
        (.ok (),
          ((w.write ios
              ((if h.index ≤ s ∧ 0 < h.softLimit - ((w.bufs h.buf).length : Int)
                then putUInt n else []) ++
                elems putT data m (startOf (resumeIdx h.index s) s))).store sh
            { h with index := x }).recordAll es) ∧
      (0 < h.softLimit - ((w.bufs h.buf).length : Int) →
        x = finalIdx n s (startOf (resumeIdx h.index s) s) m (resumeIdx h.index s)) ∧
      (h.softLimit - ((w.bufs h.buf).length : Int) ≤ 0 → m = 0) ∧
      (∀ q, startOf (resumeIdx h.index s) s ≤ q → q < startOf (resumeIdx h.index s) s + m →
        q % 100 = 0 → ∃ e ∈ es, e.1 = sh ∧ e.2.2 = (q : Int) + s + 2) ∧
      (∀ p, startOf (resumeIdx h.index s) s ≤ p →
        p + 100 ≤ startOf (resumeIdx h.index s) s + m →
        ∃ q, p ≤ q ∧ q < p + 100 ∧ ∃ e ∈ es, e.1 = sh ∧ e.2.2 = (q : Int) + s + 2) ∧
      (∀ j, j ≤ m →
        h.softLimit -
          (((w.write ios
            ((if h.index ≤ s ∧ 0 < h.softLimit - ((w.bufs h.buf).length : Int)
              then putUInt n else []) ++
              elems putT data j (startOf (resumeIdx h.index s) s))).bufs h.buf).length : Int)
          ≤ 0 →
        m ≤ j + 99) := by
  have hwin : ∀ (start m : Nat) (es : List (Ptr × Int × Int)),
      (∀ q, start ≤ q → q < start + m → q % 100 = 0 →
        ∃ e ∈ es, e.1 = sh ∧ e.2.2 = (q : Int) + s + 2) →
      ∀ p, start ≤ p → p + 100 ≤ start + m →
        ∃ q, p ≤ q ∧ q < p + 100 ∧ ∃ e ∈ es, e.1 = sh ∧ e.2.2 = (q : Int) + s + 2 := by
    intro start m es hchk p h1 h2
    exact ⟨p + (100 - p % 100) % 100, by omega, by omega,
      hchk _ (by omega) (by omega) (by omega)⟩
  have hbound : ∀ (start m j : Nat),
      m ≤ j + (if j = 0 then (100 - start % 100) % 100 + 1
        else (100 - (start + j - 1) % 100) % 100) → (j = 0 → m = 0) → m ≤ j + 99 := by
    intro start m j h1 h2
    by_cases hj : j = 0
    · have := h2 hj
      omega
    · rw [if_neg hj] at h1
      omega
  by_cases havail : h.softLimit - ((w.bufs h.buf).length : Int) ≤ 0
  · have hna : ¬ 0 < h.softLimit - ((w.bufs h.buf).length : Int) := by omega
    refine ⟨0, h.index, [], ?_, fun h0 => absurd h0 hna, fun _ => rfl,
      fun q h1 h2 => by omega, fun p h1 h2 => by omega, fun j hj _ => by omega⟩
    rw [putAipsIO_exhausted putUInt putT ios n data s hsh havail]
    simp [hna, elems, helper_eta, World.store_self hsh]
  · have havail1 : 0 < h.softLimit - ((w.bufs h.buf).length : Int) := by omega
    by_cases hfirst : h.index ≤ s
    · have hsh1 : (w.write ios (putUInt n)).deref sh = some h := by simpa using hsh
      have hsh2 : (((w.write ios (putUInt n)).store sh { h with index := s + 1 }).recordAll
          [(sh, h.index, s + 1)]).deref sh = some { h with index := s + 1 } := by
        simp [World.deref_store_same hsh1]
      have hres : resumeIdx h.index s = s + 1 := by simp [resumeIdx, hfirst]
      obtain ⟨m, es, hrun, hzero, hchk, hover, _, _⟩ := putData_checks putT ios n data s hsh2 (s + 1)
        (h.softLimit - (((w.write ios (putUInt n)).bufs h.buf).length : Int))
      rw [hres]
      refine ⟨m, _, es ++ [(sh, h.index, s + 1)], ?_, fun _ => rfl,
        fun h0 => absurd h0 havail, ?_, ?_, ?_⟩
      · rw [putAipsIO_first putUInt putT ios n data s hsh havail1 hfirst, hrun]
        simp [hfirst, havail1]
      · intro q h1 h2 h3
        obtain ⟨e, he, h4⟩ := hchk q h1 h2 h3
        exact ⟨e, List.mem_append_left _ he, h4⟩
      · refine hwin _ m _ ?_
        intro q h1 h2 h3
        obtain ⟨e, he, h4⟩ := hchk q h1 h2 h3
        exact ⟨e, List.mem_append_left _ he, h4⟩
      · intro j hj hav
        simp only [hfirst, havail1, and_self, if_true] at hav
        refine hbound _ m j (hover j hj (by simpa using hav)) ?_
        intro hj0
        subst hj0
        exact hzero (by simpa [elems] using hav)
    · have hres : resumeIdx h.index s = h.index := by simp [resumeIdx, hfirst]
      obtain ⟨m, es, hrun, hzero, hchk, hover, _, _⟩ := putData_checks putT ios n data s hsh h.index
        (h.softLimit - ((w.bufs h.buf).length : Int))
      rw [hres]
      refine ⟨m, _, es, ?_, fun _ => rfl, fun h0 => absurd h0 havail, hchk,
        hwin _ m _ hchk, ?_⟩
      · rw [putAipsIO_resume putUInt putT ios n data s hsh havail1 hfirst, hrun]
        simp [hfirst]
      · intro j hj hav
        simp only [hfirst, false_and, if_false, List.nil_append] at hav
        refine hbound _ m j (hover j hj hav) ?_
        intro hj0
        subst hj0
        simp only [elems, World.write_nil] at hav
        omega

/-- Witness of C15: 500 elements of eight bytes under a soft limit of 1000
bytes, on the state of a newly registered object. -/
theorem overshoot_bound_witness :
    ∃ (m : Nat) (x : Int) (es : List (Ptr × Int × Int)),
      putAipsIO exampleUInt exampleT8 0 500 exampleData8 2 0 (World.registered 1000) =
        (.ok (),
          (((World.registered 1000).write 0
              ((if (registeredState 1000).index ≤ 0 ∧
                  0 < (registeredState 1000).softLimit -
                    ((((World.registered 1000).bufs (registeredState 1000).buf).length : Nat) :
                      Int)
                then exampleUInt 500 else []) ++
                elems exampleT8 exampleData8 m
                  (startOf (resumeIdx (registeredState 1000).index 0) 0))).store 2
            { registeredState 1000 with index := x }).recordAll es) ∧
      (0 < (registeredState 1000).softLimit -
          ((((World.registered 1000).bufs (registeredState 1000).buf).length : Nat) : Int) →
        x = finalIdx 500 0 (startOf (resumeIdx (registeredState 1000).index 0) 0) m
          (resumeIdx (registeredState 1000).index 0)) ∧
      ((registeredState 1000).softLimit -
          ((((World.registered 1000).bufs (registeredState 1000).buf).length : Nat) : Int) ≤ 0 →
        m = 0) ∧
      (∀ q, startOf (resumeIdx (registeredState 1000).index 0) 0 ≤ q →
        q < startOf (resumeIdx (registeredState 1000).index 0) 0 + m →
        q % 100 = 0 → ∃ e ∈ es, e.1 = 2 ∧ e.2.2 = (q : Int) + 0 + 2) ∧
      (∀ p, startOf (resumeIdx (registeredState 1000).index 0) 0 ≤ p →
        p + 100 ≤ startOf (resumeIdx (registeredState 1000).index 0) 0 + m →
        ∃ q, p ≤ q ∧ q < p + 100 ∧ ∃ e ∈ es, e.1 = 2 ∧ e.2.2 = (q : Int) + 0 + 2) ∧
      (∀ j, j ≤ m →
        (registeredState 1000).softLimit -
          ((((World.registered 1000).write 0
            ((if (registeredState 1000).index ≤ 0 ∧
                0 < (registeredState 1000).softLimit -
                  ((((World.registered 1000).bufs (registeredState 1000).buf).length : Nat) :
                    Int)
              then exampleUInt 500 else []) ++
              elems exampleT8 exampleData8 j
                (startOf (resumeIdx (registeredState 1000).index 0) 0))).bufs
            (registeredState 1000).buf).length : Int)
          ≤ 0 →
        m ≤ j + 99) :=
  overshoot_bound exampleUInt exampleT8 0 500 exampleData8 2 0 (World.registered 1000)
    (registeredState 1000) rfl

/-- C20: in the state after any sequence of calls of the static methods
getInstance, update and objectSerialized, with any arguments, from a newly
constructed origin instance (at address 1), the origin instance is live with
a null origin; every entry of its mapping refers to a live state whose origin
is that instance, whose soft limit and buffer are those of the origin and
whose own mapping is empty; and neither static getInstance nor static
objectSerialized, with any arguments, throws the exception for a state that
is not the origin instance. -/
theorem single_owner (softLimit : Int) (calls : List ApiCall) :
    (∃ o, (runAll calls (World.fresh softLimit)).deref 1 = some o ∧ o.origin = NULL ∧
      ∀ object p, o.instances.lookup object = some p →
        ∃ c, (runAll calls (World.fresh softLimit)).deref p = some c ∧
          c.origin = 1 ∧ c.softLimit = o.softLimit ∧ c.buf = o.buf ∧ c.instances = ∅) ∧
    ∀ parent object,
      (SerializeHelper.Static.getInstance parent object
        (runAll calls (World.fresh softLimit))).1 ≠ .error .notOrigin ∧
      (SerializeHelper.Static.objectSerialized parent object
        (runAll calls (World.fresh softLimit))).1 ≠ .error .notOrigin := by
  have hw := World.Owned.runAll calls _ (World.Owned.fresh softLimit)
  refine ⟨?_, fun parent object =>
    ⟨(hw.static_getInstance parent object).1, (hw.static_objectSerialized parent object).1⟩⟩
  obtain ⟨o, ho, horg, hchild, hmap, _⟩ := hw
  refine ⟨o, ho, horg, fun object p hl => ?_⟩
  obtain ⟨hne, c, hc⟩ := hmap object p hl
  exact ⟨c, hc, hchild p c hc hne⟩

/-- C13 as stated fails: with a count of four bytes and elements of eight
bytes, the first call of the scenario (soft limit 1000, n = 500, start offset
0, a newly registered state, an empty buffer) does not stop after about 124
elements: it appends the count and 201 elements, 1612 bytes, and leaves the
index 202. -/
theorem first_call_writes_201 :
    (callsTrace exampleUInt exampleT8 0 500 exampleData8 2 0 [false]
      (World.registered 1000)).1 =
      .ok [(exampleUInt 500 ++ elems exampleT8 exampleData8 201 0, 202)] ∧
    (exampleUInt 500 ++ elems exampleT8 exampleData8 201 0).length = 1612 := by
  obtain ⟨⟨w1, h1⟩, _⟩ :=
    scenario_run exampleUInt exampleT8 exampleData8 rfl (fun _ => rfl)
  refine ⟨by rw [h1], ?_⟩
  rw [List.length_append, length_elems exampleT8 exampleData8 8 (fun _ => rfl)]
  rfl

/-- C13, amended: for every writer of the count that writes four bytes and
every writer of an element that writes eight bytes, with soft limit 1000,
n = 500, start offset 0, a newly registered state and a buffer that is empty
at the first call and cleared before the second and the third: call 1
appends the count and elements 0 to 200 and leaves the index 202; call 2
appends elements 201 to 400 and leaves the index 402; call 3 appends elements
401 to 499 and leaves the index LLONG_MAX-1. Three calls are needed, and
together they append the count and every element once, in order. -/
theorem scenario_three_calls {T : Type} (putUInt : Nat → List Byte) (putT : T → List Byte)
    (data : Nat → T) (hcount : (putUInt 500).length = 4) (helem : ∀ x, (putT x).length = 8) :
    (callsTrace putUInt putT 0 500 data 2 0 [false, true, true] (World.registered 1000)).1 =
      .ok [(putUInt 500 ++ elems putT data 201 0, 202),
        (elems putT data 200 201, 402),
        (elems putT data 99 401, LLONG_MAX - 1)] ∧
    (putUInt 500 ++ elems putT data 201 0) ++ elems putT data 200 201 ++
      elems putT data 99 401 = putUInt 500 ++ elems putT data 500 0 := by
  obtain ⟨_, w3, h3⟩ := scenario_run putUInt putT data hcount helem
  refine ⟨by rw [h3], ?_⟩
  have e1 := elems_add putT data 201 200 0
  have e2 := elems_add putT data 401 99 0
  simp only [Nat.zero_add] at e1 e2
  have n1 : 201 + 200 = 401 := rfl
  have n2 : 401 + 99 = 500 := rfl
  rw [n1] at e1
  rw [n2] at e2
  rw [e2, e1]
  simp only [List.append_assoc]

/-- Witness of C13, amended: a count of four bytes and elements of eight
bytes, most significant byte first. -/
theorem scenario_three_calls_witness :
    (callsTrace exampleUInt exampleT8 0 500 exampleData8 2 0 [false, true, true]
      (World.registered 1000)).1 =
      .ok [(exampleUInt 500 ++ elems exampleT8 exampleData8 201 0, 202),
        (elems exampleT8 exampleData8 200 201, 402),
        (elems exampleT8 exampleData8 99 401, LLONG_MAX - 1)] ∧
    (exampleUInt 500 ++ elems exampleT8 exampleData8 201 0) ++
      elems exampleT8 exampleData8 200 201 ++ elems exampleT8 exampleData8 99 401 =
      exampleUInt 500 ++ elems exampleT8 exampleData8 500 0 :=
  scenario_three_calls exampleUInt exampleT8 exampleData8 rfl (fun _ => rfl)

end casacore
